import Mathlib

/-!
# go-chess `pgn` package: scanner and parser

A shallow embedding of `pgn/lexer.go`, `pgn/lexer_helper.go`, `pgn/types.go` and
`pgn/parser.go`, followed by theorems about the embedded functions.

Conventions of the embedding:

* a Go `string` is the list of its runes (`GoString`);
* a `rune` read from the input is an `Option Char`, `none` being the constant `eof = rune(-1)`;
* the standard library's `text/scanner.Scanner` is a cursor (`TextScanner`): the runes not
  yet read and the position of the next one;
* an `error` is `Option GoString`: `none` is `nil`, `some m` an error whose message is `m`;
* loops that always terminate are written by recursion on the unread input; loops that can
  spin forever take a `fuel` argument, one unit per iteration, and return `none` when it runs
  out. The same `fuel` is handed down to every callee.
-/

namespace pgn

/-! ## Strings, runes and positions -/

/-- Go strings, as the list of their runes. -/
abbrev GoString := List Char

/-- A rune read from the input; `none` is the constant `eof = rune(-1)`. -/
abbrev Rune := Option Char

/-- Go errors: `none` is `nil`, `some m` is an error with message `m`. -/
abbrev error := Option GoString

/-- The double quote character. -/
def dquote : Char := Char.ofNat 34

/-- The backslash character. -/
def bslash : Char := Char.ofNat 92

/-- The conversion `string(r)` of a rune: an invalid rune such as `eof` becomes U+FFFD.
`bytes.Buffer.WriteRune` writes the same text. -/
def runeString (r : Rune) : GoString :=
  match r with
  | none => [Char.ofNat 0xFFFD]
  | some c => [c]

/-- The type `text/scanner.Position` (the file name, never set here, is left out). -/
structure Position where
  Offset : Nat
  Line : Nat
  Column : Nat
  deriving DecidableEq, Repr

/-- The zero value of `Position`, as found in the zero `Token`. -/
def Position.zero : Position := ⟨0, 0, 0⟩

/-- The position of the first character of a source. -/
def Position.start : Position := ⟨0, 1, 1⟩

/-- The position of the character after `c`, when `c` stands at position `p`. -/
def Position.advance (p : Position) (c : Char) : Position :=
  if c = '\n' then ⟨p.Offset + c.utf8Size, p.Line + 1, 1⟩
  else ⟨p.Offset + c.utf8Size, p.Line, p.Column + 1⟩

/-- The position reached from `p` after reading all of `cs`. -/
def Position.advances (p : Position) (cs : List Char) : Position :=
  cs.foldl Position.advance p

/-- The method `Position.String` for a position without file name. -/
def Position.String (p : Position) : GoString :=
  if 0 < p.Line then
    "<input>".toList ++ [':'] ++ Nat.toDigits 10 p.Line ++ [':'] ++ Nat.toDigits 10 p.Column
  else "<input>".toList

/-! ## The character cursor of `text/scanner` -/

/-- The state of a `text/scanner.Scanner` used through `Peek`, `Next` and `Pos` only: the
runes still to be read and the position of the next one. -/
structure TextScanner where
  src : List Char
  pos : Position
  deriving DecidableEq, Repr

/-- The method `Init`, followed by the skipping of a leading byte order mark that the first
`Peek` performs. -/
def TextScanner.Init (input : List Char) : TextScanner :=
  match input with
  | [] => ⟨[], Position.start⟩
  | c :: cs =>
    if c = Char.ofNat 0xFEFF then ⟨cs, Position.start.advance c⟩ else ⟨c :: cs, Position.start⟩

/-- The method `Peek`: the next rune, which stays unread. -/
def TextScanner.Peek (s : TextScanner) : Rune := s.src.head?

/-- The method `Next`: reads the next rune; at the end of the input it returns `eof` and the
cursor stays where it is. -/
def TextScanner.Next (s : TextScanner) : Rune × TextScanner :=
  match s.src with
  | [] => (none, s)
  | c :: cs => (some c, ⟨cs, s.pos.advance c⟩)

/-- The method `Pos`: the position right after the last rune read. -/
def TextScanner.Pos (s : TextScanner) : Position := s.pos

/-! ## `lexer.go`: tokens -/

/-- The token kinds, in the order of the `iota` block. -/
inductive Tok where
  | Illegal
  | EOF
  | Ws
  | LBrace
  | RBrace
  | LParen
  | RParen
  | Dot
  | Semi
  | Dollar
  | Comment
  | Quote
  | Ident
  | MoveNumber
  | Number
  | Nag
  | Result
  deriving DecidableEq, Repr

/-- The struct `Token`. -/
structure Token where
  Tok : pgn.Tok
  Position : pgn.Position
  Length : Nat
  Literal : GoString
  deriving DecidableEq, Repr

/-- The zero value `Token{}`. -/
def Token.zero : Token := ⟨Tok.Illegal, Position.zero, 0, []⟩

/-- The struct `Scanner`. -/
structure Scanner where
  s : TextScanner
  deriving DecidableEq, Repr

/-! ## `lexer_helper.go` -/

def isWhitespace (ch : Rune) : Bool :=
  ch == some ' ' || ch == some '\t' || ch == some '\n'

def isLetter (ch : Rune) : Bool :=
  match ch with
  | none => false
  | some c => (decide ('a' ≤ c) && decide (c ≤ 'z')) || (decide ('A' ≤ c) && decide (c ≤ 'Z'))

def isNumber (ch : Rune) : Bool :=
  match ch with
  | none => false
  | some c => decide ('0' ≤ c) && decide (c ≤ '9')

def isIdentChar (ch : Rune) : Bool :=
  match ch with
  | none => false
  | some c =>
    (decide ('a' ≤ c) && decide (c ≤ 'z')) ||
    (decide ('A' ≤ c) && decide (c ≤ 'Z')) ||
    (decide ('0' ≤ c) && decide (c ≤ '9')) ||
    c == '=' ||
    c == '+' ||
    c == '#' ||
    c == '-'

/-- The runes of the `case` list shared by `isNag` and by `Scanner.next`:
`! ? ‼ ⁇ ⁉ ⁈ □ = ∞ ± ∓ + - ⨀ ⟳ → ↑ ⇆`. -/
def nagRunes : List Char :=
  ['!', '?', Char.ofNat 0x203C, Char.ofNat 0x2047, Char.ofNat 0x2049, Char.ofNat 0x2048,
   Char.ofNat 0x25A1, '=', Char.ofNat 0x221E, Char.ofNat 0xB1, Char.ofNat 0x2213, '+', '-',
   Char.ofNat 0x2A00, Char.ofNat 0x27F3, Char.ofNat 0x2192, Char.ofNat 0x2191,
   Char.ofNat 0x21C6]

def isNag (ch : Rune) : Bool :=
  match ch with
  | none => false
  | some c => decide (c ∈ nagRunes)

/-- The loop of `scanWhitespace`: reads while the next rune is white space, counting. -/
def scanWhitespaceLoop : List Char → Position → Nat → Nat × TextScanner
  | [], p, length => (length, ⟨[], p⟩)
  | c :: cs, p, length =>
    if isWhitespace (some c) then scanWhitespaceLoop cs (p.advance c) (length + 1)
    else (length, ⟨c :: cs, p⟩)

def Scanner.scanWhitespace (ps : Scanner) : Token × Scanner :=
  let pos := ps.s.Pos
  let r := scanWhitespaceLoop ps.s.src ps.s.pos 0
  (⟨Tok.Ws, pos, r.1, []⟩, ⟨r.2⟩)

/-- The loop of `scanIdent`: reads while the next rune is an identifier character,
counting and collecting. -/
def scanIdentLoop : List Char → Position → Nat → GoString → Nat × GoString × TextScanner
  | [], p, length, buf => (length, buf, ⟨[], p⟩)
  | c :: cs, p, length, buf =>
    if isIdentChar (some c) then scanIdentLoop cs (p.advance c) (length + 1) (buf ++ [c])
    else (length, buf, ⟨c :: cs, p⟩)

def Scanner.scanIdent (ps : Scanner) : Token × Scanner :=
  let pos := ps.s.Pos
  let r := scanIdentLoop ps.s.src ps.s.pos 0 []
  (⟨Tok.Ident, pos, r.1, r.2.1⟩, ⟨r.2.2⟩)

/-- The inner loop of the last case of `scanNumber`: after a first dot, reads the dots that
follow and returns on the first rune that is not a dot. -/
def scanDotsLoop : List Char → Position → Nat → Nat × TextScanner
  | [], p, length => (length, ⟨[], p⟩)
  | c :: cs, p, length =>
    if c = '.' then scanDotsLoop cs (p.advance c) (length + 1)
    else (length, ⟨c :: cs, p⟩)

/-- The outer loop of the last case of `scanNumber`: a dot ends the token as a move number,
a digit is added to the literal, anything else ends the token as a number. -/
def scanDigitsLoop : List Char → Position → Nat → GoString → pgn.Tok × Nat × GoString × TextScanner
  | [], p, length, str => (Tok.Number, length, str, ⟨[], p⟩)
  | c :: cs, p, length, str =>
    if c = '.' then
      let r := scanDotsLoop cs (p.advance c) (length + 1)
      (Tok.MoveNumber, r.1, str, r.2)
    else if '0' ≤ c ∧ c ≤ '9' then scanDigitsLoop cs (p.advance c) (length + 1) (str ++ [c])
    else (Tok.Number, length, str, ⟨c :: cs, p⟩)

def Scanner.scanNumber (ps : Scanner) : Token × Scanner :=
  let pos := ps.s.Pos
  let r1 := ps.s.Next
  let str1 := runeString r1.1
  let secondChar := r1.2.Peek
  if secondChar = some '/' then
    let r2 := r1.2.Next
    let str2 := str1 ++ runeString r2.1
    let r3 := r2.2.Next
    let str3 := str2 ++ runeString r3.1
    if r3.1 ≠ some '2' then (⟨Tok.Illegal, pos, 3, str3⟩, ⟨r3.2⟩)
    else
      let r4 := r3.2.Next
      let str4 := str3 ++ runeString r4.1
      if r4.1 ≠ some '-' then (⟨Tok.Illegal, pos, 4, str4⟩, ⟨r4.2⟩)
      else
        let r5 := r4.2.Next
        let str5 := str4 ++ runeString r5.1
        if r5.1 ≠ some '1' then (⟨Tok.Illegal, pos, 5, str5⟩, ⟨r5.2⟩)
        else
          let r6 := r5.2.Next
          let str6 := str5 ++ runeString r6.1
          if r6.1 ≠ some '/' then (⟨Tok.Illegal, pos, 6, str6⟩, ⟨r6.2⟩)
          else
            let r7 := r6.2.Next
            let str7 := str6 ++ runeString r7.1
            if r7.1 ≠ some '2' then (⟨Tok.Illegal, pos, 7, str7⟩, ⟨r7.2⟩)
            else (⟨Tok.Result, pos, 7, str7⟩, ⟨r7.2⟩)
  else if secondChar = some '-' then
    let r2 := r1.2.Next
    let str2 := str1 ++ runeString r2.1
    if r2.1 ≠ some '-' then (⟨Tok.Illegal, pos, 2, str2⟩, ⟨r2.2⟩)
    else
      let r3 := r2.2.Next
      let str3 := str2 ++ runeString r3.1
      if r3.1 ≠ some '0' ∧ r3.1 ≠ some '1' then (⟨Tok.Illegal, pos, 3, str3⟩, ⟨r3.2⟩)
      else (⟨Tok.Result, pos, 3, str3⟩, ⟨r3.2⟩)
  else if secondChar = some '.' ∨ isNumber secondChar = true then
    let r := scanDigitsLoop r1.2.src r1.2.pos 1 str1
    (⟨r.1, pos, r.2.1, r.2.2.1⟩, ⟨r.2.2.2⟩)
  else (Token.zero, ⟨r1.2⟩)

/-- The loop of `scanDoubleQuoted`, entered after the opening quote has been read. A
backslash is dropped and the rune after it is kept, a quote ends the loop, any other rune
(the end of the input too) is kept. -/
def scanDoubleQuotedLoop : Nat → TextScanner → Nat → GoString → Option (Nat × GoString × TextScanner)
  | 0, _, _, _ => none
  | fuel + 1, s, length, buf =>
    let char := s.Peek
    if char = some bslash then
      let r := s.Next.2.Next
      scanDoubleQuotedLoop fuel r.2 (length + 1) (buf ++ runeString r.1)
    else if char = some dquote then some (length, buf, s.Next.2)
    else scanDoubleQuotedLoop fuel s.Next.2 (length + 1) (buf ++ runeString char)

def Scanner.scanDoubleQuoted (fuel : Nat) (ps : Scanner) : Option (Token × Scanner) :=
  let s1 := ps.s.Next.2
  let pos := s1.Pos
  match scanDoubleQuotedLoop fuel s1 0 [] with
  | none => none
  | some r => some (⟨Tok.Quote, pos, r.1, r.2.1⟩, ⟨r.2.2⟩)

/-- The call `strings.Trim(s, " ")`: the spaces at both ends are removed. -/
def trimSpaces (s : GoString) : GoString :=
  ((s.dropWhile (fun c => c = ' ')).reverse.dropWhile (fun c => c = ' ')).reverse

/-- The loop of `scanComment`, entered after the opening brace has been read: a closing
brace ends the loop, any other rune (the end of the input too) is kept. -/
def scanCommentLoop : Nat → TextScanner → Nat → GoString → Option (Nat × GoString × TextScanner)
  | 0, _, _, _ => none
  | fuel + 1, s, length, buf =>
    let char := s.Peek
    if char = some '}' then some (length, buf, s.Next.2)
    else scanCommentLoop fuel s.Next.2 (length + 1) (buf ++ runeString char)

def Scanner.scanComment (fuel : Nat) (ps : Scanner) : Option (Token × Scanner) :=
  let s1 := ps.s.Next.2
  let pos := s1.Pos
  match scanCommentLoop fuel s1 0 [] with
  | none => none
  | some r => some (⟨Tok.Comment, pos, r.1, trimSpaces r.2.1⟩, ⟨r.2.2⟩)

/-! ## `lexer.go`: the scanner -/

/-- The loop of the NAG case of `Scanner.next`: reads while the next rune is a NAG rune,
counting and collecting. -/
def scanNagLoop : List Char → Position → Nat → GoString → Nat × GoString × TextScanner
  | [], p, length, str => (length, str, ⟨[], p⟩)
  | c :: cs, p, length, str =>
    if isNag (some c) then scanNagLoop cs (p.advance c) (length + 1) (str ++ [c])
    else (length, str, ⟨c :: cs, p⟩)

def Scanner.next (fuel : Nat) (ps : Scanner) : Option (Token × Scanner) :=
  let char := ps.s.Peek
  if isWhitespace char then some ps.scanWhitespace
  else if isLetter char then some ps.scanIdent
  else if char = some dquote then ps.scanDoubleQuoted fuel
  else if isNumber char then some ps.scanNumber
  else if char = some '{' then ps.scanComment fuel
  else
    let s1 := ps.s.Next.2
    match char with
    | none => some (⟨Tok.EOF, s1.Pos, 1, []⟩, ⟨s1⟩)
    | some c =>
      if c = '[' then some (⟨Tok.LBrace, s1.Pos, 1, []⟩, ⟨s1⟩)
      else if c = ']' then some (⟨Tok.RBrace, s1.Pos, 1, []⟩, ⟨s1⟩)
      else if c = '(' then some (⟨Tok.LParen, s1.Pos, 1, []⟩, ⟨s1⟩)
      else if c = ')' then some (⟨Tok.RParen, s1.Pos, 1, []⟩, ⟨s1⟩)
      else if isNag (some c) then
        let r := scanNagLoop s1.src s1.pos 1 [c]
        some (⟨Tok.Nag, r.2.2.Pos, r.1, r.2.1⟩, ⟨r.2.2⟩)
      else if c = '*' then some (⟨Tok.Result, s1.Pos, 1, ['*']⟩, ⟨s1⟩)
      else some (⟨Tok.Illegal, s1.Pos, 1, []⟩, ⟨s1⟩)

/-- The method `Next`: calls `next` until the token is not white space. -/
def Scanner.Next : Nat → Scanner → Option (Token × Scanner)
  | 0, _ => none
  | fuel + 1, ps =>
    match ps.next fuel with
    | none => none
    | some r => if r.1.Tok ≠ Tok.Ws then some r else Scanner.Next fuel r.2

/-- The loop of `Peek`: reads while the next rune is white space. -/
def peekLoop : List Char → Position → Rune × TextScanner
  | [], p => (none, ⟨[], p⟩)
  | c :: cs, p =>
    if isWhitespace (some c) then peekLoop cs (p.advance c)
    else (some c, ⟨c :: cs, p⟩)

/-- The method `Peek`: the next rune that is not white space; the white space before it is
read, the rune itself is not. -/
def Scanner.Peek (ps : Scanner) : Rune × Scanner :=
  let r := peekLoop ps.s.src ps.s.pos
  (r.1, ⟨r.2⟩)

/-- The method `Init`. -/
def Scanner.Init (input : List Char) : Scanner := ⟨TextScanner.Init input⟩

/-! ## `types.go` -/

set_option linter.dupNamespace false in
/-- The struct `Move`. `Number` is an `int32`, kept as the integer it denotes. -/
structure Move where
  Number : Int
  Move : GoString
  Annotation : GoString
  Nag : GoString
  Alternatives : List pgn.Move

/-- The zero value `Move{}` of `var move Move`. -/
def Move.zero : pgn.Move := ⟨0, [], [], [], []⟩

/-- Go maps from strings to strings, as association lists without repeated keys. -/
abbrev GoMap := List (GoString × GoString)

/-- The map index expression `m[k]`, with the presence flag. -/
def GoMap.get (m : GoMap) (k : GoString) : Option GoString := List.lookup k m

/-- The map assignment `m[k] = v`. -/
def GoMap.set (m : GoMap) (k v : GoString) : GoMap :=
  (k, v) :: m.filter (fun e => decide (e.1 ≠ k))

/-- The struct `Game`. -/
structure Game where
  Tags : GoMap
  Moves : List Move

/-- The zero value of `var game Game`. -/
def Game.zero : Game := ⟨[], []⟩

/-! ## Library functions used by `parser.go` -/

/-- The value of a string of decimal digits. -/
def digitsValue (ds : List Char) : Nat :=
  ds.foldl (fun n c => 10 * n + (c.toNat - '0'.toNat)) 0

/-- Model of `strconv.Atoi` where `int` has 64 bits: an optional sign and then one or more
decimal digits, denoting an integer in the range of `int`; `none` is the error result. -/
def Atoi (s : GoString) : Option Int :=
  let neg : Bool := s.head? = some '-'
  let ds : List Char := if s.head? = some '-' ∨ s.head? = some '+' then s.tail else s
  if ds = [] ∨ ds.all (fun c => isNumber (some c)) = false then none
  else
    let v : Int := if neg then -(digitsValue ds : Int) else (digitsValue ds : Int)
    if -(2 : Int) ^ 63 ≤ v ∧ v ≤ (2 : Int) ^ 63 - 1 then some v else none

/-- The conversion `int32(i)`: the integer is wrapped into the 32 bit range. -/
def int32 (i : Int) : Int := (i + 2 ^ 31) % 2 ^ 32 - 2 ^ 31

/-- A slice of errors: its elements and its capacity. -/
structure ErrorSlice where
  elems : List error
  cap : Nat
  deriving DecidableEq, Repr

/-- The nil slice of `var errorList []error`. -/
def ErrorSlice.nil : ErrorSlice := ⟨[], 0⟩

/-- The call `append(errorList, err)`. A full slice moves to an array of twice the capacity
(of capacity one when it was nil), which is what the runtime does below 256 elements; the
capacity is only ever compared with 10. -/
def ErrorSlice.append (l : ErrorSlice) (e : error) : ErrorSlice :=
  if l.elems.length < l.cap then ⟨l.elems ++ [e], l.cap⟩
  else ⟨l.elems ++ [e], if l.cap = 0 then 1 else 2 * l.cap⟩

/-- The verb `%v` applied to an error: its message, or the text of a nil value. -/
def formatError (e : error) : GoString :=
  match e with
  | none => "<nil>".toList
  | some m => m

/-! ## `parser.go` -/

/-- The struct `parser`. -/
structure parser where
  p : Scanner

def invalidToken (want : GoString) (got : Token) : error :=
  some ("Invalid token on: ".toList ++ got.Position.String ++ "\n\texpecting: ".toList ++
    [dquote] ++ want ++ [dquote] ++ " but got: ".toList ++ [dquote] ++ got.Literal ++ [dquote])

/-- The loop over `errorList[0:10]` of `consolicateErrors`, `i` being the index of the first
error of `errs`. -/
def consolicateLoop : List error → Nat → GoString → GoString
  | [], _, errs => errs
  | e :: es, i, errs =>
    consolicateLoop es (i + 1)
      (errs ++ ['\t'] ++ Nat.toDigits 10 i ++ ". ".toList ++ formatError e ++ "\n\n".toList)

/-- The function `consolicateErrors`. The result `Except.error m` is a run-time panic with
message `m`: the slice expression `errorList[0:10]` panics when the capacity of the slice is
below 10, and otherwise reaches into the unused part of the array, which holds nil. -/
def consolicateErrors (msg : GoString) (errorList : ErrorSlice) : Except GoString error :=
  if errorList.elems.length = 0 then Except.ok none
  else if errorList.cap < 10 then
    Except.error ("runtime error: slice bounds out of range [:10] with capacity ".toList ++
      Nat.toDigits 10 errorList.cap)
  else
    let firstTen := (errorList.elems ++ List.replicate (10 - errorList.elems.length) none).take 10
    let errs := consolicateLoop firstTen 0 []
    let errs := if errorList.elems.length > 10 then
        errs ++ "And ".toList ++ Nat.toDigits 10 (errorList.elems.length - 10) ++
          " other errors".toList
      else errs
    Except.ok (some (Nat.toDigits 10 errorList.elems.length ++ " errors occured when ".toList ++
      msg ++ "\n\n".toList ++ errs))

/-- The inner loop of `recover`: reads the newlines that follow. -/
def skipNewlinesLoop : List Char → Position → TextScanner
  | [], p => ⟨[], p⟩
  | c :: cs, p => if c = '\n' then skipNewlinesLoop cs (p.advance c) else ⟨c :: cs, p⟩

/-- The outer loop of `recover`. -/
def recoverLoop : Nat → TextScanner → Option TextScanner
  | 0, _ => none
  | fuel + 1, s =>
    let r1 := s.Next
    if r1.1 ≠ some '\n' then recoverLoop fuel r1.2
    else if r1.2.Peek ≠ some '\n' then recoverLoop fuel r1.2
    else
      let s3 := skipNewlinesLoop r1.2.src r1.2.pos
      if s3.Peek = some '[' then some s3 else recoverLoop fuel s3

def parser.recover (fuel : Nat) (p : parser) (isStart : Bool) : Option parser :=
  if isStart then some p
  else
    match recoverLoop fuel p.p.s with
    | none => none
    | some s => some ⟨⟨s⟩⟩

/-- The loop of `parseTags`. -/
def parseTagsLoop : Nat → parser → GoMap → Option ((GoMap × error) × parser)
  | 0, _, _ => none
  | fuel + 1, p, tags =>
    match p.p.Next fuel with
    | none => none
    | some (lbrace, ps1) =>
      if lbrace.Tok ≠ Tok.LBrace then some ((tags, invalidToken "[".toList lbrace), ⟨ps1⟩)
      else
        match ps1.Next fuel with
        | none => none
        | some (key, ps2) =>
          if key.Tok ≠ Tok.Ident then some ((tags, invalidToken "IDENT".toList key), ⟨ps2⟩)
          else
            match ps2.Next fuel with
            | none => none
            | some (value, ps3) =>
              if value.Tok ≠ Tok.Quote then
                some ((tags, invalidToken "QUOTE".toList value), ⟨ps3⟩)
              else
                match ps3.Next fuel with
                | none => none
                | some (rbrace, ps4) =>
                  if rbrace.Tok ≠ Tok.RBrace then
                    some ((tags, invalidToken "]".toList rbrace), ⟨ps4⟩)
                  else
                    let tags1 := tags.set key.Literal value.Literal
                    let r := ps4.Peek
                    if r.1 ≠ some '[' then some ((tags1, none), ⟨r.2⟩)
                    else parseTagsLoop fuel ⟨r.2⟩ tags1

def parser.parseTags (fuel : Nat) (p : parser) : Option ((GoMap × error) × parser) :=
  parseTagsLoop fuel p []

/-- The block `Check for move number` of `parseMoves`: the left result is the error
returned when the literal does not convert, the right one the move and the current token. -/
def checkMoveNumber (fuel : Nat) (ps : Scanner) (tok : Token) (move : Move) :
    Option (error ⊕ (Token × Move × Scanner)) :=
  if tok.Tok = Tok.MoveNumber then
    match Atoi tok.Literal with
    | none =>
      some (Sum.inl (some ("Could not convert string to integer in move number. \n".toList ++
        tok.Position.String)))
    | some i =>
      match ps.Next fuel with
      | none => none
      | some r => some (Sum.inr (r.1, { move with Number := int32 i }, r.2))
  else some (Sum.inr (tok, move, ps))

/-- The block `Check for nag` of `parseMoves`. -/
def checkNag (fuel : Nat) (ps : Scanner) (tok : Token) (move : Move) :
    Option (Token × Move × Scanner) :=
  if tok.Tok = Tok.Nag then
    match ps.Next fuel with
    | none => none
    | some r => some (r.1, { move with Nag := tok.Literal }, r.2)
  else some (tok, move, ps)

/-- The block `Check for comment` of `parseMoves`. -/
def checkComment (fuel : Nat) (ps : Scanner) (tok : Token) (move : Move) :
    Option (Token × Move × Scanner) :=
  if tok.Tok = Tok.Comment then
    match ps.Next fuel with
    | none => none
    | some r => some (r.1, { move with Annotation := trimSpaces tok.Literal }, r.2)
  else some (tok, move, ps)

/-- The loop `Loop` of `parseMoves`, `tok` being the current token. -/
def parseMovesLoop : Nat → parser → Token → List Move → Option ((List Move × error) × parser)
  | 0, _, _, _ => none
  | fuel + 1, p, tok, moves =>
    match checkMoveNumber fuel p.p tok Move.zero with
    | none => none
    | some (Sum.inl err) => some ((moves, err), p)
    | some (Sum.inr (tok1, move1, ps1)) =>
      if tok1.Tok ≠ Tok.Ident then some ((moves, invalidToken "Ident".toList tok1), ⟨ps1⟩)
      else
        match ps1.Next fuel with
        | none => none
        | some (tok2, ps2) =>
          match checkNag fuel ps2 tok2 { move1 with Move := tok1.Literal } with
          | none => none
          | some (tok3, move3, ps3) =>
            match checkComment fuel ps3 tok3 move3 with
            | none => none
            | some (tok4, move4, ps4) =>
              if tok4.Tok = Tok.LParen then
                some ((moves, some "Alternatives is unimplemented".toList), ⟨ps4⟩)
              else if tok4.Tok = Tok.Result then some ((moves ++ [move4], none), ⟨ps4⟩)
              else parseMovesLoop fuel ⟨ps4⟩ tok4 (moves ++ [move4])

def parser.parseMoves (fuel : Nat) (p : parser) : Option ((List Move × error) × parser) :=
  match p.p.Next fuel with
  | none => none
  | some (tok, ps) =>
    if tok.Tok = Tok.Result then some (([], none), ⟨ps⟩)
    else parseMovesLoop fuel ⟨ps⟩ tok []

def parser.parseGame (fuel : Nat) (p : parser) : Option ((Game × error) × parser) :=
  match p.parseTags fuel with
  | none => none
  | some ((tags, err), p1) =>
    if err ≠ none then some ((Game.zero, err), p1)
    else
      match p1.parseMoves fuel with
      | none => none
      | some ((moves, err), p2) =>
        if err ≠ none then some ((⟨tags, []⟩, err), p2)
        else some ((⟨tags, moves⟩, none), p2)

/-- The loop of `parsePgn`. -/
def parsePgnLoop : Nat → parser → ErrorSlice → List Game → Option ((List Game × ErrorSlice) × parser)
  | 0, _, _, _ => none
  | fuel + 1, p, errorList, games =>
    let r := p.p.Peek
    if r.1 = none then some ((games, errorList), ⟨r.2⟩)
    else
      match parser.parseGame fuel ⟨r.2⟩ with
      | none => none
      | some ((game, err), p1) =>
        if err ≠ none then
          match p1.recover fuel false with
          | none => none
          | some p2 => parsePgnLoop fuel p2 (errorList.append err) games
        else parsePgnLoop fuel p1 errorList (games ++ [game])

/-- The method `parsePgn`: `none` when the fuel runs out, `Except.error` when
`consolicateErrors` panics, `Except.ok` with the two results when it returns. -/
def parser.parsePgn (fuel : Nat) (p : parser) : Option (Except GoString (List Game × error)) :=
  match parsePgnLoop fuel p ErrorSlice.nil [] with
  | none => none
  | some ((games, errorList), _) =>
    match consolicateErrors "parsing pgn".toList errorList with
    | Except.error m => some (Except.error m)
    | Except.ok err => some (Except.ok (games, err))

/-- The function `Parse`. -/
def Parse (fuel : Nat) (input : List Char) : Option (Except GoString (List Game × error)) :=
  parser.parsePgn fuel ⟨Scanner.Init input⟩

/-- The runes of the string that `parseMoveStr` compares every rune of the move with. -/
def moveRunes : List Char := "abcdefghNBRQK12345678=+x-#".toList

/-- The method `parseMoveStr`. The result `Except.error m` is a run-time panic with message
`m`: the index expression `tok.Literal[0]` panics on an empty literal. The first byte of the
literal is compared as the first rune, which gives the same answers: a rune of more than one
byte and each of its bytes are above `h`. -/
def parser.parseMoveStr (fuel : Nat) (p : parser) :
    Option (Except GoString ((GoString × error) × parser)) :=
  match p.p.Next fuel with
  | none => none
  | some (tok, ps) =>
    if tok.Tok ≠ Tok.Ident then
      some (Except.ok (([], invalidToken "move".toList tok), ⟨ps⟩))
    else if tok.Literal = "O-O-O".toList ∨ tok.Literal = "O-O".toList then
      some (Except.ok ((tok.Literal, none), ⟨ps⟩))
    else
      match tok.Literal with
      | [] =>
        some (Except.error "runtime error: index out of range [0] with length 0".toList)
      | firstChar :: _ =>
        if firstChar ≠ 'N' ∧ firstChar ≠ 'B' ∧ firstChar ≠ 'R' ∧ firstChar ≠ 'Q' ∧
            firstChar ≠ 'K' ∧ (firstChar < 'a' ∨ firstChar > 'h') then
          some (Except.ok (([], invalidToken "move".toList tok), ⟨ps⟩))
        else if tok.Literal.all (fun ch => moveRunes.any (fun a => decide (ch = a))) = false then
          some (Except.ok (([], invalidToken "move".toList tok), ⟨ps⟩))
        else some (Except.ok ((tok.Literal, none), ⟨ps⟩))

/-! ## `parser.go`: `ParseConcurrent` -/

/-- The constant `runesPerSection`: `gamesPerRoutine * charsPerGame`. -/
def runesPerSection : Nat := 100000 * 800

/-- The size in bytes that `file.Stat` reports for a file with the runes `file`. -/
def fileSize (file : List Char) : Nat := (file.map Char.utf8Size).sum

/-- The number `numChunks` of workers for a file of `size` bytes:
`int(info.Size()/runesPerSection) + 1`. -/
def numChunks (size : Nat) : Nat := size / runesPerSection + 1

/-- The loop of the worker `processGamesSection`: it stops at the end of the input or when
the offset of the next rune, counted from where the worker began to read, is above
`numRunes`; a game that fails is printed and left out, and nothing is skipped after it. -/
def processGamesLoop : Nat → parser → Nat → List Game → Option (List Game)
  | 0, _, _, _ => none
  | fuel + 1, p, numRunes, games =>
    let r := p.p.Peek
    if r.1 = none ∨ r.2.s.Pos.Offset > numRunes then some games
    else
      match parser.parseGame fuel ⟨r.2⟩ with
      | none => none
      | some ((game, err), p1) =>
        if err ≠ none then processGamesLoop fuel p1 numRunes games
        else processGamesLoop fuel p1 numRunes (games ++ [game])

/-- The worker `processGamesSection` of `ParseConcurrent`: the list of games that it sends on
the channel, `none` when it does not get that far. The seek to the byte offset `start` drops
`start` runes, which is what it does in a file whose runes take one byte each. -/
def processGamesSection (fuel : Nat) (file : List Char) (numRunes start : Nat) :
    Option (List Game) :=
  match parser.recover fuel ⟨Scanner.Init (file.drop start)⟩ (start == 0) with
  | none => none
  | some p => processGamesLoop fuel p numRunes []

/-- All the results of a list of runs, when every run has one. -/
def allResults {α : Type} : List (Option α) → Option (List α)
  | [] => some []
  | none :: _ => none
  | some a :: rest =>
    match allResults rest with
    | none => none
    | some as => some (a :: as)

/-- The function `ParseConcurrent` when every worker sends its games before the deadline:
the lists sent by the workers, in the order of their chunks. The slice that is returned holds
these lists one after the other in the order in which they arrive. The result is `none` when
a worker does not finish. -/
def ParseConcurrent (fuel : Nat) (file : List Char) : Option (List (List Game)) :=
  allResults ((List.range (numChunks (fileSize file))).map
    (fun i => processGamesSection fuel file runesPerSection (i * runesPerSection)))

/-! ## Descriptions of inputs, used to state the theorems -/

/-- The scanner, started in state `s`, returns the tokens `toks` one after the other from
`Next` and is then in state `s1`. -/
def Delivers (fuel : Nat) : Scanner → List Token → Scanner → Prop
  | s, [], s1 => s1 = s
  | s, t :: ts, s1 =>
    match s.Next fuel with
    | none => False
    | some r => r.1 = t ∧ Delivers fuel r.2 ts s1

instance Delivers.instDecidable (fuel : Nat) :
    (s : Scanner) → (toks : List Token) → (s1 : Scanner) → Decidable (Delivers fuel s toks s1)
  | s, [], s1 => inferInstanceAs (Decidable (s1 = s))
  | s, t :: ts, s1 =>
    match h : s.Next fuel with
    | none => isFalse (by simp [Delivers, h])
    | some r =>
      match decEq r.1 t, Delivers.instDecidable fuel r.2 ts s1 with
      | isTrue h1, isTrue h2 => isTrue (by simp [Delivers, h, h1, h2])
      | isFalse h1, _ => isFalse (by simp [Delivers, h, h1])
      | _, isFalse h2 => isFalse (by simp [Delivers, h, h2])

/-- The tokens of one half-move of a move section: an optional move number, the
identifier that is the move text, an optional NAG and an optional comment. -/
structure HalfMove where
  number : Option Token
  ident : Token
  nag : Option Token
  comment : Option Token
  deriving DecidableEq, Repr

/-- The tokens of a half-move, in source order. -/
def HalfMove.tokens (h : HalfMove) : List Token :=
  h.number.toList ++ [h.ident] ++ h.nag.toList ++ h.comment.toList

/-- The tokens of a half-move have the kinds their places ask for, and the literal of the
move number denotes an `int`. -/
def HalfMove.WellFormed (h : HalfMove) : Prop :=
  (∀ t ∈ h.number, t.Tok = Tok.MoveNumber ∧ (Atoi t.Literal).isSome = true) ∧
  h.ident.Tok = Tok.Ident ∧
  (∀ t ∈ h.nag, t.Tok = Tok.Nag) ∧
  (∀ t ∈ h.comment, t.Tok = Tok.Comment)

instance HalfMove.instDecidableWellFormed (h : HalfMove) : Decidable h.WellFormed := by
  unfold HalfMove.WellFormed
  infer_instance

/-- The `Move` that a half-move stands for. -/
def HalfMove.toMove (h : HalfMove) : Move :=
  { Number := match h.number with
      | none => 0
      | some t => int32 ((Atoi t.Literal).getD 0)
    Move := h.ident.Literal
    Annotation := match h.comment with
      | none => []
      | some t => trimSpaces t.Literal
    Nag := match h.nag with
      | none => []
      | some t => t.Literal
    Alternatives := [] }

/-- The tokens of a sequence of half-moves, in source order. -/
def movesTokens (hms : List HalfMove) : List Token :=
  hms.flatMap HalfMove.tokens

/-- One rune of the body of a double-quoted literal: written as it is, or after a
backslash. -/
structure QuotedRune where
  escaped : Bool
  rune : Char
  deriving DecidableEq, Repr

/-- The source text of one rune of a quoted literal. -/
def QuotedRune.text (q : QuotedRune) : List Char :=
  if q.escaped then [bslash, q.rune] else [q.rune]

/-- A rune that is written without a backslash is neither a quote nor a backslash. -/
def QuotedRune.WellFormed (q : QuotedRune) : Prop :=
  q.escaped = false → q.rune ≠ dquote ∧ q.rune ≠ bslash

instance QuotedRune.instDecidableWellFormed (q : QuotedRune) : Decidable q.WellFormed := by
  unfold QuotedRune.WellFormed
  infer_instance

/-- The source text of a quoted literal, between its two quotes. -/
def quotedBody (v : List QuotedRune) : List Char := v.flatMap QuotedRune.text

/-- The string that a quoted literal denotes. -/
def quotedValue (v : List QuotedRune) : GoString := v.map QuotedRune.rune

/-- All the runes of `ws` are white space. -/
def allWhitespace (ws : List Char) : Prop := ∀ c ∈ ws, isWhitespace (some c) = true

instance allWhitespace.instDecidable (ws : List Char) : Decidable (allWhitespace ws) := by
  unfold allWhitespace
  infer_instance

/-- The text `key` is what `scanIdent` reads as one identifier: a letter first, identifier
characters throughout. -/
def isIdentifier (key : List Char) : Prop :=
  isLetter key.head? = true ∧ ∀ c ∈ key, isIdentChar (some c) = true

instance isIdentifier.instDecidable (key : List Char) : Decidable (isIdentifier key) := by
  unfold isIdentifier
  infer_instance

/-- The source of one tag pair `[ key "value" ]`, with the white space before each of its
four tokens. -/
structure TagSrc where
  ws1 : List Char
  ws2 : List Char
  key : List Char
  ws3 : List Char
  value : List QuotedRune
  ws4 : List Char
  deriving DecidableEq, Repr

/-- The source text of a tag pair. -/
def TagSrc.text (t : TagSrc) : List Char :=
  t.ws1 ++ '[' :: (t.ws2 ++ (t.key ++ (t.ws3 ++ dquote :: (quotedBody t.value ++
    dquote :: (t.ws4 ++ [']'])))))

/-- The parts of a tag pair are what their names say. -/
def TagSrc.WellFormed (t : TagSrc) : Prop :=
  allWhitespace t.ws1 ∧ allWhitespace t.ws2 ∧ isIdentifier t.key ∧ allWhitespace t.ws3 ∧
  (∀ q ∈ t.value, q.WellFormed) ∧ allWhitespace t.ws4

instance TagSrc.instDecidableWellFormed (t : TagSrc) : Decidable t.WellFormed := by
  unfold TagSrc.WellFormed
  infer_instance

/-- The key and the value that a tag pair denotes. -/
def TagSrc.pair (t : TagSrc) : GoString × GoString := (t.key, quotedValue t.value)

/-- The source text of a sequence of tag pairs. -/
def tagsText (ts : List TagSrc) : List Char := ts.flatMap TagSrc.text

/-- The map obtained from `tags` by assigning the pairs in order. -/
def assignAll (tags : GoMap) (pairs : List (GoString × GoString)) : GoMap :=
  pairs.foldl (fun m kv => m.set kv.1 kv.2) tags

/-- The start of a tag pair that has been read when the token that breaks the shape comes:
`[`, or `[ key`, or `[ key "value"`, with the white space before each token. -/
inductive PartialTag where
  | lbrace (ws1 : List Char)
  | key (ws1 ws2 key : List Char)
  | value (ws1 ws2 key ws3 : List Char) (value : List QuotedRune)
  deriving DecidableEq, Repr

/-- The source text of the start of a tag pair. -/
def PartialTag.text : PartialTag → List Char
  | PartialTag.lbrace ws1 => ws1 ++ ['[']
  | PartialTag.key ws1 ws2 k => ws1 ++ '[' :: (ws2 ++ k)
  | PartialTag.value ws1 ws2 k ws3 v =>
    ws1 ++ '[' :: (ws2 ++ (k ++ (ws3 ++ dquote :: (quotedBody v ++ [dquote]))))

/-- The parts of the start of a tag pair are what their names say, and the key, when it is
the last part, ends where the text `rest` that follows begins. -/
def PartialTag.WellFormed (rest : List Char) : PartialTag → Prop
  | PartialTag.lbrace ws1 => allWhitespace ws1
  | PartialTag.key ws1 ws2 k =>
    allWhitespace ws1 ∧ allWhitespace ws2 ∧ isIdentifier k ∧ isIdentChar rest.head? = false
  | PartialTag.value ws1 ws2 k ws3 v =>
    allWhitespace ws1 ∧ allWhitespace ws2 ∧ isIdentifier k ∧ allWhitespace ws3 ∧
    ∀ q ∈ v, q.WellFormed

instance PartialTag.instDecidableWellFormed (rest : List Char) (pt : PartialTag) :
    Decidable (pt.WellFormed rest) := by
  cases pt <;> unfold PartialTag.WellFormed <;> infer_instance

/-- The kind of token that the shape `[ IDENT QUOTE ]` asks for after the start of a tag
pair, or at the very start when nothing of a pair has been read. -/
def expectedTok : Option PartialTag → Tok
  | none => Tok.LBrace
  | some (PartialTag.lbrace _) => Tok.Ident
  | some (PartialTag.key _ _ _) => Tok.Quote
  | some (PartialTag.value _ _ _ _ _) => Tok.RBrace

/-- The name that `parseTags` gives to that kind in its error message. -/
def expectedName : Option PartialTag → GoString
  | none => "[".toList
  | some (PartialTag.lbrace _) => "IDENT".toList
  | some (PartialTag.key _ _ _) => "QUOTE".toList
  | some (PartialTag.value _ _ _ _ _) => "]".toList

/-- The source text of an optional start of a tag pair. -/
def partialText : Option PartialTag → List Char
  | none => []
  | some pt => pt.text

/-- The four tokens of one tag pair. -/
structure TagTokens where
  lbrace : Token
  key : Token
  value : Token
  rbrace : Token
  deriving DecidableEq, Repr

/-- The tokens of a tag pair, in source order. -/
def TagTokens.tokens (t : TagTokens) : List Token := [t.lbrace, t.key, t.value, t.rbrace]

/-- The four tokens have the kinds of the shape `[ IDENT QUOTE ]`. -/
def TagTokens.WellFormed (t : TagTokens) : Prop :=
  t.lbrace.Tok = Tok.LBrace ∧ t.key.Tok = Tok.Ident ∧ t.value.Tok = Tok.Quote ∧
  t.rbrace.Tok = Tok.RBrace

instance TagTokens.instDecidableWellFormed (t : TagTokens) : Decidable t.WellFormed := by
  unfold TagTokens.WellFormed
  infer_instance

/-- The key and the value that the tokens of a tag pair denote. -/
def TagTokens.pair (t : TagTokens) : GoString × GoString := (t.key.Literal, t.value.Literal)

/-- The tokens of one game: its tag pairs, the half-moves of its move section and the
result token that ends it. -/
structure GameTokens where
  tags : List TagTokens
  moves : List HalfMove
  result : Token
  deriving DecidableEq, Repr

/-- The tokens of a game, in source order. -/
def GameTokens.tokens (g : GameTokens) : List Token :=
  g.tags.flatMap TagTokens.tokens ++ (movesTokens g.moves ++ [g.result])

/-- A well-formed game: a non-empty block of well-formed tag pairs, then well-formed
half-moves (there may be none), then a result token. -/
def GameTokens.WellFormed (g : GameTokens) : Prop :=
  g.tags ≠ [] ∧ (∀ t ∈ g.tags, t.WellFormed) ∧ (∀ h ∈ g.moves, h.WellFormed) ∧
  g.result.Tok = Tok.Result

instance GameTokens.instDecidableWellFormed (g : GameTokens) : Decidable g.WellFormed := by
  unfold GameTokens.WellFormed
  infer_instance

/-- The `Game` that the tokens of a game stand for. -/
def GameTokens.toGame (g : GameTokens) : Game :=
  ⟨assignAll [] (g.tags.map TagTokens.pair), g.moves.map HalfMove.toMove⟩

/-- The quotient `ceil(a / b)` of the spec: the division of `a` by `b`, rounded up. -/
def ceilDiv (a b : Nat) : Nat := (a + b - 1) / b

/-- The text `escaped(v)` of the spec: `v` with a backslash put before every quote and
every backslash. -/
def escapeQuoted (v : GoString) : List Char :=
  v.flatMap (fun c => if c = dquote ∨ c = bslash then [bslash, c] else [c])

/-- The runes that the spec allows at the start of a move: one of `N B R Q K`, or a file
letter `a` to `h`. -/
def isMoveStart (c : Char) : Prop :=
  c ∈ ['N', 'B', 'R', 'Q', 'K'] ∨ ('a' ≤ c ∧ c ≤ 'h')

/-- The runes that the spec allows in a move: `a` to `h`, `N B R Q K`, `1` to `8`, and
`= + x - #`. -/
def isMoveRune (c : Char) : Prop :=
  ('a' ≤ c ∧ c ≤ 'h') ∨ c ∈ ['N', 'B', 'R', 'Q', 'K'] ∨ ('1' ≤ c ∧ c ≤ '8') ∨
  c ∈ ['=', '+', 'x', '-', '#']

/-- The tokens that the spec lets `parseMoveStr` accept: an identifier that is a castling
literal, or that starts with a piece or file letter and is made of move runes only. -/
def AcceptedMove (tok : Token) : Prop :=
  tok.Tok = Tok.Ident ∧
  (tok.Literal = "O-O".toList ∨ tok.Literal = "O-O-O".toList ∨
    ((∃ c, tok.Literal.head? = some c ∧ isMoveStart c) ∧ ∀ c ∈ tok.Literal, isMoveRune c))

/-- Somewhere in `l` a newline is followed by one or more newlines and then by `[`: the
place that `recover` looks for. -/
def hasGameBoundary : List Char → Bool
  | [] => false
  | c :: cs =>
    (c == '\n' && cs.head? == some '\n' &&
      (cs.dropWhile (fun x => x == '\n')).head? == some '[') || hasGameBoundary cs

/-- The text after an opening quote holds the quote that closes it: a quote that is not
the rune escaped by a backslash. -/
def closesQuote : List Char → Bool
  | [] => false
  | [c] => c == dquote
  | c :: d :: cs =>
    if c = bslash then closesQuote cs
    else if c = dquote then true
    else closesQuote (d :: cs)

/-- The scanner after `n` calls of `Peek`, one after the other. -/
def Scanner.peeks : Nat → Scanner → Scanner
  | 0, s => s
  | n + 1, s => Scanner.peeks n (s.Peek).2

/-- Like `Delivers`, with calls of `Peek` in between: the scanner, started in state `s`,
returns the tokens of `toks` one after the other from `Next`, where before the call of `Next`
that returns a token `Peek` is called the number of times that is paired with the token. -/
def DeliversPeeking (fuel : Nat) : Scanner → List (Nat × Token) → Scanner → Prop
  | s, [], s1 => s1 = s
  | s, kt :: ts, s1 =>
    match (s.peeks kt.1).Next fuel with
    | none => False
    | some r => r.1 = kt.2 ∧ DeliversPeeking fuel r.2 ts s1

/-! ## Concrete inputs, used to instantiate the theorems -/

/-- The half-move `1. e4 ! {ok}` at the start of a source. -/
def exampleHalfMove1 : HalfMove :=
  { number := some ⟨Tok.MoveNumber, ⟨0, 1, 1⟩, 2, "1".toList⟩
    ident := ⟨Tok.Ident, ⟨3, 1, 4⟩, 2, "e4".toList⟩
    nag := some ⟨Tok.Nag, ⟨7, 1, 8⟩, 1, "!".toList⟩
    comment := some ⟨Tok.Comment, ⟨9, 1, 10⟩, 2, "ok".toList⟩ }

/-- The half-move `c5` that follows `1. e4 ! {ok}` after one space. -/
def exampleHalfMove2 : HalfMove :=
  { number := none
    ident := ⟨Tok.Ident, ⟨13, 1, 14⟩, 2, "c5".toList⟩
    nag := none
    comment := none }

/-- The tag pair `[ White  "F\"C" ]`, written after a newline and a space. -/
def exampleTag1 : TagSrc :=
  ⟨"\n ".toList, " ".toList, "White".toList, "  ".toList,
    [⟨false, 'F'⟩, ⟨true, dquote⟩, ⟨false, 'C'⟩], " ".toList⟩

/-- The tag pair `[ Black "HN" ]`, written with tabs and newlines between its tokens. -/
def exampleTag2 : TagSrc :=
  ⟨"   \n".toList, "\t".toList, "Black".toList, " \t\n".toList,
    [⟨false, 'H'⟩, ⟨false, 'N'⟩], "  \n".toList⟩

/-- The tag pair `[White"MC"]`, written after a space: the key of `exampleTag1` again. -/
def exampleTag3 : TagSrc :=
  ⟨" ".toList, [], "White".toList, [], [⟨false, 'M'⟩, ⟨false, 'C'⟩], []⟩

/-- Two games separated by blank lines: tag `[A "b"]` with the moves `1. e4 *`, and tag
`[C "d"]` with the bare result `1-0`. -/
def exampleInput : List Char :=
  "[A ".toList ++ [dquote, 'b', dquote] ++ "]\n\n1. e4 *\n\n[C ".toList ++
    [dquote, 'd', dquote] ++ "]\n\n1-0\n".toList

/-- The tokens of the two games of `exampleInput`. -/
def exampleGames : List GameTokens :=
  [ { tags := [⟨⟨Tok.LBrace, ⟨1, 1, 2⟩, 1, []⟩, ⟨Tok.Ident, ⟨1, 1, 2⟩, 1, "A".toList⟩,
        ⟨Tok.Quote, ⟨4, 1, 5⟩, 1, "b".toList⟩, ⟨Tok.RBrace, ⟨7, 1, 8⟩, 1, []⟩⟩]
      moves := [⟨some ⟨Tok.MoveNumber, ⟨9, 3, 1⟩, 2, "1".toList⟩,
        ⟨Tok.Ident, ⟨12, 3, 4⟩, 2, "e4".toList⟩, none, none⟩]
      result := ⟨Tok.Result, ⟨16, 3, 8⟩, 1, "*".toList⟩ },
    { tags := [⟨⟨Tok.LBrace, ⟨19, 5, 2⟩, 1, []⟩, ⟨Tok.Ident, ⟨19, 5, 2⟩, 1, "C".toList⟩,
        ⟨Tok.Quote, ⟨22, 5, 5⟩, 1, "d".toList⟩, ⟨Tok.RBrace, ⟨25, 5, 8⟩, 1, []⟩⟩]
      moves := []
      result := ⟨Tok.Result, ⟨27, 7, 1⟩, 3, "1-0".toList⟩ } ]

/-- Three games separated by blank lines: the two games of `exampleInput`, then tag
`[E "f"]` with the bare result `*`. -/
def exampleInput3 : List Char :=
  exampleInput ++ "\n[E ".toList ++ [dquote, 'f', dquote] ++ "]\n\n*\n".toList

/-- Two games separated by blank lines; the first has a comment with a blank line and a
`[` in it: tag `[A "b"]` with the moves `1. e4 {x\n\n[y} *`, and tag `[C "d"]` with the
bare result `*`. -/
def exampleCommentInput : List Char :=
  "[A ".toList ++ [dquote, 'b', dquote] ++ "]\n\n1. e4 \x7bx\n\n[y\x7d *\n\n[C ".toList ++
    [dquote, 'd', dquote] ++ "]\n\n*\n".toList

/-- A broken game followed by a blank line: `[x[[A"b"]*`. The tag pair `[x[` lacks its
value; the text `[A"b"]*` after it has the shape of a game. -/
def exampleBrokenUnit : List Char :=
  "[x[[A".toList ++ [dquote, 'b', dquote] ++ "]*\n\n".toList

/-- Ten copies of `exampleBrokenUnit`, then the game `[C"d"]*`. -/
def exampleBrokenInput : List Char :=
  (List.replicate 10 exampleBrokenUnit).flatten ++ "[C".toList ++ [dquote, 'd', dquote] ++
    "]*".toList

/-! # Theorems -/

/-! ## Fuel -/

theorem scanDoubleQuotedLoop_mono (fuel k : Nat) :
    ∀ (s : TextScanner) (length : Nat) (buf : GoString) (r : Nat × GoString × TextScanner),
      scanDoubleQuotedLoop fuel s length buf = some r →
      scanDoubleQuotedLoop (fuel + k) s length buf = some r := by
  induction fuel with
  | zero => intro s length buf r h; simp [scanDoubleQuotedLoop] at h
  | succ n ih =>
    intro s length buf r h
    rw [Nat.add_right_comm]
    simp only [scanDoubleQuotedLoop] at h ⊢
    split_ifs at h ⊢ with h1 h2
    · exact ih _ _ _ _ h
    · exact h
    · exact ih _ _ _ _ h

theorem scanCommentLoop_mono (fuel k : Nat) :
    ∀ (s : TextScanner) (length : Nat) (buf : GoString) (r : Nat × GoString × TextScanner),
      scanCommentLoop fuel s length buf = some r →
      scanCommentLoop (fuel + k) s length buf = some r := by
  induction fuel with
  | zero => intro s length buf r h; simp [scanCommentLoop] at h
  | succ n ih =>
    intro s length buf r h
    rw [Nat.add_right_comm]
    simp only [scanCommentLoop] at h ⊢
    split_ifs at h ⊢ with h1
    · exact h
    · exact ih _ _ _ _ h

theorem Scanner.scanDoubleQuoted_mono (fuel k : Nat) (ps : Scanner) (r : Token × Scanner)
    (h : ps.scanDoubleQuoted fuel = some r) : ps.scanDoubleQuoted (fuel + k) = some r := by
  unfold Scanner.scanDoubleQuoted at h ⊢
  simp only at h ⊢
  cases hq : scanDoubleQuotedLoop fuel ps.s.Next.2 0 [] with
  | none => simp [hq] at h
  | some q => rw [scanDoubleQuotedLoop_mono fuel k _ _ _ q hq]; rw [hq] at h; exact h

theorem Scanner.scanComment_mono (fuel k : Nat) (ps : Scanner) (r : Token × Scanner)
    (h : ps.scanComment fuel = some r) : ps.scanComment (fuel + k) = some r := by
  unfold Scanner.scanComment at h ⊢
  simp only at h ⊢
  cases hq : scanCommentLoop fuel ps.s.Next.2 0 [] with
  | none => simp [hq] at h
  | some q => rw [scanCommentLoop_mono fuel k _ _ _ q hq]; rw [hq] at h; exact h

theorem Scanner.next_mono (fuel k : Nat) (ps : Scanner) (r : Token × Scanner)
    (h : ps.next fuel = some r) : ps.next (fuel + k) = some r := by
  unfold Scanner.next at h ⊢
  simp only at h ⊢
  by_cases h1 : isWhitespace ps.s.Peek = true
  · rw [if_pos h1] at h ⊢; exact h
  rw [if_neg h1] at h ⊢
  by_cases h2 : isLetter ps.s.Peek = true
  · rw [if_pos h2] at h ⊢; exact h
  rw [if_neg h2] at h ⊢
  by_cases h3 : ps.s.Peek = some dquote
  · rw [if_pos h3] at h ⊢; exact Scanner.scanDoubleQuoted_mono fuel k ps r h
  rw [if_neg h3] at h ⊢
  by_cases h4 : isNumber ps.s.Peek = true
  · rw [if_pos h4] at h ⊢; exact h
  rw [if_neg h4] at h ⊢
  by_cases h5 : ps.s.Peek = some '{'
  · rw [if_pos h5] at h ⊢; exact Scanner.scanComment_mono fuel k ps r h
  rw [if_neg h5] at h ⊢
  exact h

theorem Scanner.Next_mono (fuel k : Nat) :
    ∀ (ps : Scanner) (r : Token × Scanner), ps.Next fuel = some r → ps.Next (fuel + k) = some r := by
  induction fuel with
  | zero => intro ps r h; simp [Scanner.Next] at h
  | succ n ih =>
    intro ps r h
    rw [Nat.add_right_comm]
    simp only [Scanner.Next] at h ⊢
    cases hn : ps.next n with
    | none => simp [hn] at h
    | some q =>
      rw [Scanner.next_mono n k ps q hn]
      rw [hn] at h
      simp only at h ⊢
      split_ifs at h ⊢ with h1
      · exact h
      · exact ih _ _ h

theorem Scanner.Next_le {fuel fuel1 : Nat} (hle : fuel ≤ fuel1) {ps : Scanner} {r : Token × Scanner}
    (h : ps.Next fuel = some r) : ps.Next fuel1 = some r := by
  obtain ⟨k, rfl⟩ := Nat.exists_eq_add_of_le hle
  exact Scanner.Next_mono fuel k ps r h

theorem Delivers_le {fuel fuel1 : Nat} (hle : fuel ≤ fuel1) :
    ∀ (toks : List Token) (s s1 : Scanner), Delivers fuel s toks s1 → Delivers fuel1 s toks s1 := by
  intro toks
  induction toks with
  | nil => intro s s1 h; simpa [Delivers] using h
  | cons t ts ih =>
    intro s s1 h
    simp only [Delivers] at h ⊢
    cases hn : s.Next fuel with
    | none => simp [hn] at h
    | some r =>
      rw [Scanner.Next_le hle hn]
      rw [hn] at h
      exact ⟨h.1, ih _ _ h.2⟩

theorem Delivers_cons {fuel : Nat} {s s1 : Scanner} {t : Token} {ts : List Token}
    (h : Delivers fuel s (t :: ts) s1) :
    ∃ s2, s.Next fuel = some (t, s2) ∧ Delivers fuel s2 ts s1 := by
  simp only [Delivers] at h
  cases hn : s.Next fuel with
  | none => simp [hn] at h
  | some r =>
    rw [hn] at h
    obtain ⟨t1, s2⟩ := r
    exact ⟨s2, by simp at h; rw [h.1], h.2⟩

theorem Delivers_append {fuel : Nat} :
    ∀ (ts us : List Token) (s s1 : Scanner), Delivers fuel s (ts ++ us) s1 →
      ∃ s2, Delivers fuel s ts s2 ∧ Delivers fuel s2 us s1 := by
  intro ts
  induction ts with
  | nil => intro us s s1 h; exact ⟨s, by simp [Delivers], by simpa using h⟩
  | cons t ts ih =>
    intro us s s1 h
    obtain ⟨s2, hn, hd⟩ := Delivers_cons (by simpa using h)
    obtain ⟨s3, h3, h4⟩ := ih us s2 s1 hd
    exact ⟨s3, by simp [Delivers, hn, h3], h4⟩

/-! ## The loop of `parseMoves` -/

theorem Delivers_nil {fuel : Nat} {s s1 : Scanner} (h : Delivers fuel s [] s1) : s1 = s := by
  simpa [Delivers] using h

theorem parseMovesLoop_step (fuel : Nat) (hm : HalfMove) (next tok : Token) (rest : List Token)
    (ps ps1 : Scanner) (moves : List Move)
    (hwf : hm.WellFormed) (hnag : next.Tok ≠ Tok.Nag) (hcom : next.Tok ≠ Tok.Comment)
    (htoks : hm.tokens ++ [next] = tok :: rest) (hd : Delivers fuel ps rest ps1) :
    parseMovesLoop (fuel + 1) ⟨ps⟩ tok moves =
      if next.Tok = Tok.LParen then
        some ((moves, some "Alternatives is unimplemented".toList), ⟨ps1⟩)
      else if next.Tok = Tok.Result then some ((moves ++ [hm.toMove], none), ⟨ps1⟩)
      else parseMovesLoop fuel ⟨ps1⟩ next (moves ++ [hm.toMove]) := by
  obtain ⟨number, ident, nag, comment⟩ := hm
  obtain ⟨hnum, hid, hng, hcm⟩ := hwf
  simp only at hnum hid hng hcm
  rcases number with _ | nb <;> rcases nag with _ | ng <;> rcases comment with _ | cm <;>
    simp only [HalfMove.tokens, Option.toList, List.nil_append, List.append_nil,
      List.singleton_append, List.cons_append, List.cons.injEq] at htoks <;>
    obtain ⟨rfl, rfl⟩ := htoks <;>
    simp only [Option.mem_def, Option.some.injEq, forall_eq', reduceCtorEq, false_implies,
      implies_true] at hnum hng hcm <;>
    (repeat (obtain ⟨_, hn, hd⟩ := Delivers_cons hd)) <;>
    have hnil := Delivers_nil hd <;>
    subst hnil
  · simp [parseMovesLoop, checkMoveNumber, checkNag, checkComment, HalfMove.toMove, Move.zero, *]
  · simp [parseMovesLoop, checkMoveNumber, checkNag, checkComment, HalfMove.toMove, Move.zero, *]
  · simp [parseMovesLoop, checkMoveNumber, checkNag, checkComment, HalfMove.toMove, Move.zero, *]
  · simp [parseMovesLoop, checkMoveNumber, checkNag, checkComment, HalfMove.toMove, Move.zero, *]
  all_goals
    obtain ⟨hk, hat⟩ := hnum
    obtain ⟨i, hi⟩ := Option.isSome_iff_exists.mp hat
    simp [parseMovesLoop, checkMoveNumber, checkNag, checkComment, HalfMove.toMove, Move.zero, *]




theorem movesTokens_cons (hm : HalfMove) (hms : List HalfMove) :
    movesTokens (hm :: hms) = hm.tokens ++ movesTokens hms := by
  simp [movesTokens]

theorem movesTokens_append (xs ys : List HalfMove) :
    movesTokens (xs ++ ys) = movesTokens xs ++ movesTokens ys := by
  simp [movesTokens]

/-- The first token of a well-formed half-move is a move number or an identifier. -/
theorem HalfMove.tokens_head (hm : HalfMove) (hwf : hm.WellFormed) (us : List Token)
    (t : Token) (ts : List Token) (h : hm.tokens ++ us = t :: ts) :
    t.Tok = Tok.MoveNumber ∨ t.Tok = Tok.Ident := by
  obtain ⟨number, ident, nag, comment⟩ := hm
  obtain ⟨hnum, hid, -, -⟩ := hwf
  simp only at hnum hid
  rcases number with _ | nb <;>
    simp only [HalfMove.tokens, Option.toList, List.nil_append, List.singleton_append,
      List.cons_append, List.cons.injEq] at h <;>
    obtain ⟨rfl, -⟩ := h
  · exact Or.inr hid
  · exact Or.inl (hnum _ rfl).1

theorem movesTokens_head (hms : List HalfMove) (hwf : ∀ hm ∈ hms, hm.WellFormed)
    (t1 : Token) (us : List Token) (h1 : t1.Tok = Tok.MoveNumber ∨ t1.Tok = Tok.Ident)
    (t : Token) (ts : List Token) (h : movesTokens hms ++ t1 :: us = t :: ts) :
    t.Tok = Tok.MoveNumber ∨ t.Tok = Tok.Ident := by
  cases hms with
  | nil =>
    simp only [movesTokens, List.flatMap_nil, List.nil_append, List.cons.injEq] at h
    rw [← h.1]; exact h1
  | cons hm hms =>
    rw [movesTokens_cons, List.append_assoc] at h
    exact HalfMove.tokens_head hm (hwf hm (List.mem_cons_self _ _)) _ t ts h

/-- Running the loop of `parseMoves` over well-formed half-moves that are followed by the
start of another one: every half-move becomes a move and the loop goes on. -/
theorem parseMovesLoop_run (fuel : Nat) :
    ∀ (hms : List HalfMove) (ps ps1 : Scanner) (tok t1 : Token) (rest us : List Token)
      (moves : List Move),
      (∀ hm ∈ hms, hm.WellFormed) →
      (t1.Tok = Tok.MoveNumber ∨ t1.Tok = Tok.Ident) →
      movesTokens hms ++ t1 :: us = tok :: rest →
      Delivers fuel ps rest ps1 →
      ∃ ps2, Delivers fuel ps2 us ps1 ∧
        ∀ F, fuel ≤ F →
          parseMovesLoop (F + hms.length) ⟨ps⟩ tok moves =
            parseMovesLoop F ⟨ps2⟩ t1 (moves ++ hms.map HalfMove.toMove) := by
  intro hms
  induction hms with
  | nil =>
    intro ps ps1 tok t1 rest us moves _ _ htoks hd
    simp only [movesTokens, List.flatMap_nil, List.nil_append, List.cons.injEq] at htoks
    obtain ⟨rfl, rfl⟩ := htoks
    exact ⟨ps, hd, fun F _ => by simp⟩
  | cons hm hms ih =>
    intro ps ps1 tok t1 rest us moves hwf ht1 htoks hd
    have hwf1 : ∀ h ∈ hms, h.WellFormed := fun h hh => hwf h (List.mem_cons_of_mem _ hh)
    -- the token that follows the first half-move
    obtain ⟨next, after, hnext⟩ : ∃ next after, movesTokens hms ++ t1 :: us = next :: after := by
      cases hh : movesTokens hms ++ t1 :: us with
      | nil => simp at hh
      | cons a b => exact ⟨a, b, rfl⟩
    have hkind := movesTokens_head hms hwf1 t1 us ht1 next after hnext
    rw [movesTokens_cons, List.append_assoc, hnext] at htoks
    -- split the tokens read by this iteration from the later ones
    obtain ⟨rest1, hrest1⟩ : ∃ rest1, hm.tokens ++ [next] = tok :: rest1 ∧ rest = rest1 ++ after := by
      cases hh : hm.tokens with
      | nil =>
        have : hm.tokens ≠ [] := by simp [HalfMove.tokens]
        exact absurd hh this
      | cons a b =>
        rw [hh] at htoks
        simp only [List.cons_append, List.cons.injEq] at htoks
        exact ⟨b ++ [next], by simp [htoks.1], by simp [← htoks.2]⟩
    obtain ⟨hr1, rfl⟩ := hrest1
    obtain ⟨ps3, hd1, hd2⟩ := Delivers_append rest1 after ps ps1 hd
    obtain ⟨ps2, hd3, hrun⟩ := ih ps3 ps1 next t1 after us (moves ++ [hm.toMove]) hwf1 ht1 hnext hd2
    refine ⟨ps2, hd3, fun F hF => ?_⟩
    have hstep := parseMovesLoop_step (F + hms.length) hm next tok rest1 ps ps3 moves
      (hwf hm (List.mem_cons_self _ _)) (by rcases hkind with h | h <;> simp [h])
      (by rcases hkind with h | h <;> simp [h]) hr1
      (Delivers_le (by omega) _ _ _ hd1)
    have e : F + (hm :: hms).length = F + hms.length + 1 := by simp; omega
    rw [e, hstep, hrun F hF]
    rcases hkind with h | h <;> simp [h]

/-! ## `parseMoves` -/

/-- The call `parseMoves` on a move section made of the half-moves `init`, then the
half-move `last`, then the token `next`, up to the point where `next` is the current token. -/
theorem parseMoves_section (fuel : Nat) (p : parser) (ps1 : Scanner) (init : List HalfMove)
    (last : HalfMove) (next : Token)
    (hwf : ∀ hm ∈ init ++ [last], hm.WellFormed)
    (hnag : next.Tok ≠ Tok.Nag) (hcom : next.Tok ≠ Tok.Comment)
    (hd : Delivers fuel p.p (movesTokens (init ++ [last]) ++ [next]) ps1)
    (F : Nat) (hF : fuel ≤ F) :
    p.parseMoves (F + init.length + 1) =
      if next.Tok = Tok.LParen then
        some ((init.map HalfMove.toMove, some "Alternatives is unimplemented".toList), ⟨ps1⟩)
      else if next.Tok = Tok.Result then
        some ((init.map HalfMove.toMove ++ [last.toMove], none), ⟨ps1⟩)
      else parseMovesLoop F ⟨ps1⟩ next (init.map HalfMove.toMove ++ [last.toMove]) := by
  have hwfi : ∀ hm ∈ init, hm.WellFormed := fun h hh => hwf h (List.mem_append_left _ hh)
  have hwfl : last.WellFormed := hwf last (by simp)
  obtain ⟨t1, us, hlast⟩ : ∃ t1 us, last.tokens ++ [next] = t1 :: us := by
    cases hh : last.tokens ++ [next] with
    | nil => simp at hh
    | cons a b => exact ⟨a, b, rfl⟩
  have ht1 := HalfMove.tokens_head last hwfl [next] t1 us hlast
  have hall : movesTokens (init ++ [last]) ++ [next] = movesTokens init ++ t1 :: us := by
    rw [movesTokens_append, List.append_assoc, ← hlast]
    simp [movesTokens]
  rw [hall] at hd
  obtain ⟨tok, rest, htok⟩ : ∃ tok rest, movesTokens init ++ t1 :: us = tok :: rest := by
    cases hh : movesTokens init ++ t1 :: us with
    | nil => simp at hh
    | cons a b => exact ⟨a, b, rfl⟩
  have hkind := movesTokens_head init hwfi t1 us ht1 tok rest htok
  rw [htok] at hd
  obtain ⟨s2, hn, hd2⟩ := Delivers_cons hd
  obtain ⟨ps2, hd3, hrun⟩ := parseMovesLoop_run fuel init s2 ps1 tok t1 rest us [] hwfi ht1 htok hd2
  have hn1 : p.p.Next (F + init.length + 1) = some (tok, s2) := Scanner.Next_le (by omega) hn
  have hnr : tok.Tok ≠ Tok.Result := by rcases hkind with h | h <;> simp [h]
  have e : F + init.length + 1 = F + 1 + init.length := by omega
  unfold parser.parseMoves
  rw [hn1]
  simp only [hnr, if_false]
  rw [e, hrun (F + 1) (by omega)]
  rw [parseMovesLoop_step F last next t1 us ps2 ps1 _ hwfl hnag hcom hlast
    (Delivers_le hF _ _ _ hd3)]
  simp

/-- **C3.** For every valid move section of `N ≥ 1` half-moves (each an optional move-number
token whose literal denotes an `int`, an identifier, an optional NAG and an optional comment)
followed by a result token, `parseMoves` returns, given enough fuel, a nil error and exactly
`N` moves in source order, the `i`-th one carrying the literal of the `i`-th identifier. -/
theorem parseMoves_valid_section (fuel : Nat) (p : parser) (ps1 : Scanner) (hms : List HalfMove)
    (res : Token) (hne : hms ≠ []) (hwf : ∀ hm ∈ hms, hm.WellFormed)
    (hres : res.Tok = Tok.Result)
    (hd : Delivers fuel p.p (movesTokens hms ++ [res]) ps1)
    (fuel1 : Nat) (hf : fuel + hms.length ≤ fuel1) :
    ∃ moves, p.parseMoves fuel1 = some ((moves, none), ⟨ps1⟩) ∧
      moves = hms.map HalfMove.toMove ∧
      moves.length = hms.length ∧
      moves.map Move.Move = hms.map (fun h => h.ident.Literal) := by
  obtain ⟨init, last, hcat⟩ := (List.eq_nil_or_concat hms).resolve_left hne
  rw [List.concat_eq_append] at hcat
  subst hcat
  have hlen : (init ++ [last]).length = init.length + 1 := by simp
  obtain ⟨F, rfl⟩ : ∃ F, fuel1 = F + init.length + 1 := ⟨fuel1 - (init.length + 1), by omega⟩
  have h := parseMoves_section fuel p ps1 init last res hwf (by simp [hres]) (by simp [hres]) hd F
    (by omega)
  simp only [hres, reduceCtorEq, if_false, if_true] at h
  refine ⟨_, h, by simp, by simp, ?_⟩
  simp [HalfMove.toMove, Function.comp_def]

/-- **C5.** For every move section of `k ≥ 1` well-formed half-moves after which the scanner
is at the end of the input (its next token is the end-of-input token), `parseMoves` returns,
given enough fuel, a non-nil error together with all `k` moves, NAG and annotation included. -/
theorem parseMoves_without_result (fuel : Nat) (p : parser) (ps1 : Scanner)
    (hms : List HalfMove) (eofTok : Token) (hne : hms ≠ [])
    (hwf : ∀ hm ∈ hms, hm.WellFormed) (heof : eofTok.Tok = Tok.EOF)
    (hd : Delivers fuel p.p (movesTokens hms ++ [eofTok]) ps1)
    (fuel1 : Nat) (hf : fuel + hms.length + 1 ≤ fuel1) :
    ∃ err, p.parseMoves fuel1 = some ((hms.map HalfMove.toMove, err), ⟨ps1⟩) ∧ err ≠ none ∧
      err = invalidToken "Ident".toList eofTok := by
  obtain ⟨init, last, hcat⟩ := (List.eq_nil_or_concat hms).resolve_left hne
  rw [List.concat_eq_append] at hcat
  subst hcat
  have hlen : (init ++ [last]).length = init.length + 1 := by simp
  obtain ⟨F, rfl⟩ : ∃ F, fuel1 = F + 1 + init.length + 1 :=
    ⟨fuel1 - (init.length + 2), by omega⟩
  have h := parseMoves_section fuel p ps1 init last eofTok hwf (by simp [heof]) (by simp [heof])
    hd (F + 1) (by omega)
  simp only [heof, reduceCtorEq, if_false] at h
  refine ⟨invalidToken "Ident".toList eofTok, ?_, by simp [invalidToken], rfl⟩
  rw [h]
  simp [parseMovesLoop, checkMoveNumber, heof]

/-- **C6.** Whenever a `(` token follows a half-move (after its optional NAG and comment),
be it the first of the move section or a later one, `parseMoves` returns, given enough fuel,
the error `Alternatives is unimplemented`, which is not nil, with the moves before that
half-move: it does not report success and does not skip the variation. -/
theorem parseMoves_alternative (fuel : Nat) (p : parser) (ps1 : Scanner)
    (init : List HalfMove) (last : HalfMove) (lparen : Token)
    (hwf : ∀ hm ∈ init ++ [last], hm.WellFormed) (hlp : lparen.Tok = Tok.LParen)
    (hd : Delivers fuel p.p (movesTokens (init ++ [last]) ++ [lparen]) ps1)
    (fuel1 : Nat) (hf : fuel + init.length + 1 ≤ fuel1) :
    ∃ err, p.parseMoves fuel1 = some ((init.map HalfMove.toMove, err), ⟨ps1⟩) ∧ err ≠ none ∧
      err = some "Alternatives is unimplemented".toList := by
  obtain ⟨F, rfl⟩ : ∃ F, fuel1 = F + init.length + 1 := ⟨fuel1 - (init.length + 1), by omega⟩
  have h := parseMoves_section fuel p ps1 init last lparen hwf (by simp [hlp]) (by simp [hlp])
    hd F (by omega)
  simp only [hlp, if_true] at h
  exact ⟨_, h, by simp, rfl⟩


theorem checkMoveNumber_inl (fuel : Nat) (ps : Scanner) (tok : Token) (move : Move) (err : error)
    (h : checkMoveNumber fuel ps tok move = some (Sum.inl err)) : err ≠ none := by
  unfold checkMoveNumber at h
  split_ifs at h
  · split at h
    · simp at h; rw [← h]; simp
    · split at h <;> simp at h
  · simp at h

/-- A run of the loop of `parseMoves` that ends without error has added a move. -/
theorem parseMovesLoop_length (fuel : Nat) :
    ∀ (p : parser) (tok : Token) (moves r : List Move) (p1 : parser),
      parseMovesLoop fuel p tok moves = some ((r, none), p1) → moves.length < r.length := by
  induction fuel with
  | zero => intro p tok moves r p1 h; simp [parseMovesLoop] at h
  | succ n ih =>
    intro p tok moves r p1 h
    simp only [parseMovesLoop] at h
    split at h
    · simp at h
    · rename_i err heq
      simp only [Option.some.injEq, Prod.mk.injEq] at h
      exact absurd h.1.2 (checkMoveNumber_inl _ _ _ _ _ heq)
    · split_ifs at h with h1
      · simp [invalidToken] at h
      · split at h
        · simp at h
        · split at h
          · simp at h
          · split at h
            · simp at h
            · split_ifs at h with h2 h3
              · simp at h
              · simp only [Option.some.injEq, Prod.mk.injEq] at h
                rw [← h.1.1]; simp
              · have := ih _ _ _ _ _ h
                simp at this; omega

/-- **C4.** When the first token of the move section is `tok`, the call `parseMoves` returns
an empty move list with a nil error if and only if `tok` is a result token, and every other
call that returns a nil error returns at least one move. -/
theorem parseMoves_empty_iff (fuel : Nat) (p : parser) (tok : Token) (ps : Scanner)
    (hn : p.p.Next fuel = some (tok, ps)) :
    ((∃ p1, p.parseMoves fuel = some (([], none), p1)) ↔ tok.Tok = Tok.Result) ∧
    (∀ moves p1, tok.Tok ≠ Tok.Result → p.parseMoves fuel = some ((moves, none), p1) →
      1 ≤ moves.length) := by
  unfold parser.parseMoves
  rw [hn]
  refine ⟨⟨?_, ?_⟩, ?_⟩
  · rintro ⟨p1, h⟩
    by_contra hne
    simp only [hne, if_false] at h
    have := parseMovesLoop_length fuel _ _ _ _ _ h
    simp at this
  · intro h
    exact ⟨⟨ps⟩, by simp [h]⟩
  · intro moves p1 hne h
    simp only [hne, if_false] at h
    have := parseMovesLoop_length fuel _ _ _ _ _ h
    simp at this
    omega


/-- Instance of `parseMoves_valid_section`: the move section `1. e4 ! {ok} c5 1-0`. -/
theorem parseMoves_valid_section_witness :
    ∃ moves, parser.parseMoves 8 ⟨Scanner.Init "1. e4 ! {ok} c5 1-0".toList⟩ =
        some ((moves, none), ⟨⟨⟨[], ⟨19, 1, 20⟩⟩⟩⟩) ∧
      moves = [exampleHalfMove1, exampleHalfMove2].map HalfMove.toMove ∧
      moves.length = 2 ∧
      moves.map Move.Move = [exampleHalfMove1, exampleHalfMove2].map (fun h => h.ident.Literal) :=
  parseMoves_valid_section 6 ⟨Scanner.Init "1. e4 ! {ok} c5 1-0".toList⟩ ⟨⟨[], ⟨19, 1, 20⟩⟩⟩
    [exampleHalfMove1, exampleHalfMove2] ⟨Tok.Result, ⟨16, 1, 17⟩, 3, "1-0".toList⟩
    (by decide) (by decide) (by decide) (by decide) 8 (by decide)

/-- Instance of `parseMoves_empty_iff`: the move section `*`. -/
theorem parseMoves_empty_iff_witness :
    ((∃ p1, parser.parseMoves 3 ⟨Scanner.Init "*".toList⟩ = some (([], none), p1)) ↔
      Tok.Result = Tok.Result) ∧
    (∀ moves p1, Tok.Result ≠ Tok.Result →
      parser.parseMoves 3 ⟨Scanner.Init "*".toList⟩ = some ((moves, none), p1) →
      1 ≤ moves.length) :=
  parseMoves_empty_iff 3 ⟨Scanner.Init "*".toList⟩ ⟨Tok.Result, ⟨1, 1, 2⟩, 1, "*".toList⟩
    ⟨⟨[], ⟨1, 1, 2⟩⟩⟩ (by decide)

/-- Instance of `parseMoves_without_result`: the move section `1. e4 ! {ok}`. -/
theorem parseMoves_without_result_witness :
    ∃ err, parser.parseMoves 8 ⟨Scanner.Init "1. e4 ! {ok}".toList⟩ =
        some (([exampleHalfMove1].map HalfMove.toMove, err), ⟨⟨⟨[], ⟨12, 1, 13⟩⟩⟩⟩) ∧
      err ≠ none ∧ err = invalidToken "Ident".toList ⟨Tok.EOF, ⟨12, 1, 13⟩, 1, []⟩ :=
  parseMoves_without_result 6 ⟨Scanner.Init "1. e4 ! {ok}".toList⟩ ⟨⟨[], ⟨12, 1, 13⟩⟩⟩
    [exampleHalfMove1] ⟨Tok.EOF, ⟨12, 1, 13⟩, 1, []⟩
    (by decide) (by decide) (by decide) (by decide) 8 (by decide)

/-- Instance of `parseMoves_alternative`: the move section `1. e4 ! {ok} c5 (1. d4)`. -/
theorem parseMoves_alternative_witness :
    ∃ err, parser.parseMoves 8 ⟨Scanner.Init "1. e4 ! {ok} c5 (1. d4)".toList⟩ =
        some (([exampleHalfMove1].map HalfMove.toMove, err),
          ⟨⟨⟨"1. d4)".toList, ⟨17, 1, 18⟩⟩⟩⟩) ∧
      err ≠ none ∧ err = some "Alternatives is unimplemented".toList :=
  parseMoves_alternative 6 ⟨Scanner.Init "1. e4 ! {ok} c5 (1. d4)".toList⟩
    ⟨⟨"1. d4)".toList, ⟨17, 1, 18⟩⟩⟩ [exampleHalfMove1] exampleHalfMove2
    ⟨Tok.LParen, ⟨17, 1, 18⟩, 1, []⟩
    (by decide) (by decide) (by decide) 8 (by decide)

/-- **C7.** The code at the failing inputs. In `0. e4 *` and in `4294967296. e4 *` the move
`e4` comes right after a move-number token, and `parseMoves` returns it with `Number` zero,
the value of a move that had no move number. -/
theorem parseMoves_number_zero :
    (((Scanner.Init "0. e4 *".toList).Next 10).map (fun r => (r.1.Tok, r.1.Literal)) =
        some (Tok.MoveNumber, "0".toList) ∧
      (parser.parseMoves 10 ⟨Scanner.Init "0. e4 *".toList⟩).map (fun r => r.1) =
        some ([⟨0, "e4".toList, [], [], []⟩], none)) ∧
    (((Scanner.Init "4294967296. e4 *".toList).Next 20).map (fun r => (r.1.Tok, r.1.Literal)) =
        some (Tok.MoveNumber, "4294967296".toList) ∧
      (parser.parseMoves 20 ⟨Scanner.Init "4294967296. e4 *".toList⟩).map (fun r => r.1) =
        some ([⟨0, "e4".toList, [], [], []⟩], none)) :=
  ⟨⟨by decide, by rfl⟩, ⟨by decide, by rfl⟩⟩

/-! ## Scanning: white space and the tokens of a tag pair -/

/-! ## White space -/

theorem Position.advances_append (p : Position) (xs ys : List Char) :
    p.advances (xs ++ ys) = (p.advances xs).advances ys := by
  simp [Position.advances, List.foldl_append]

theorem Position.advances_cons (p : Position) (c : Char) (cs : List Char) :
    p.advances (c :: cs) = (p.advance c).advances cs := by
  simp [Position.advances]

theorem Position.advances_nil (p : Position) : p.advances [] = p := rfl

theorem scanWhitespaceLoop_append (rest : List Char) (hrest : isWhitespace rest.head? = false) :
    ∀ (ws : List Char) (p : Position) (length : Nat),
      (∀ c ∈ ws, isWhitespace (some c) = true) →
      scanWhitespaceLoop (ws ++ rest) p length = (length + ws.length, ⟨rest, p.advances ws⟩) := by
  intro ws
  induction ws with
  | nil =>
    intro p length _
    cases rest with
    | nil => simp [scanWhitespaceLoop, Position.advances]
    | cons c cs =>
      simp only [List.head?_cons] at hrest
      simp [scanWhitespaceLoop, hrest, Position.advances]
  | cons w ws ih =>
    intro p length hws
    have hw : isWhitespace (some w) = true := hws w (List.mem_cons_self _ _)
    rw [List.cons_append]
    simp only [scanWhitespaceLoop, hw, if_true]
    rw [ih _ _ (fun c hc => hws c (List.mem_cons_of_mem _ hc))]
    simp [Position.advances_cons]; omega

theorem peekLoop_append (rest : List Char) (hrest : isWhitespace rest.head? = false) :
    ∀ (ws : List Char) (p : Position),
      (∀ c ∈ ws, isWhitespace (some c) = true) →
      peekLoop (ws ++ rest) p = (rest.head?, ⟨rest, p.advances ws⟩) := by
  intro ws
  induction ws with
  | nil =>
    intro p _
    cases rest with
    | nil => simp [peekLoop, Position.advances]
    | cons c cs =>
      simp only [List.head?_cons] at hrest
      simp [peekLoop, hrest, Position.advances]
  | cons w ws ih =>
    intro p hws
    have hw : isWhitespace (some w) = true := hws w (List.mem_cons_self _ _)
    rw [List.cons_append]
    simp only [peekLoop, hw, if_true]
    rw [ih _ (fun c hc => hws c (List.mem_cons_of_mem _ hc))]
    simp [Position.advances_cons]

/-- The method `Peek` reads the white space and shows the rune after it. -/
theorem Scanner.Peek_ws (ws rest : List Char) (p : Position)
    (hws : ∀ c ∈ ws, isWhitespace (some c) = true) (hrest : isWhitespace rest.head? = false) :
    Scanner.Peek ⟨⟨ws ++ rest, p⟩⟩ = (rest.head?, ⟨⟨rest, p.advances ws⟩⟩) := by
  simp [Scanner.Peek, peekLoop_append rest hrest ws p hws]

/-- The method `Next` passes over white space: what it returns after the white space, it
returns before it, with one more unit of fuel. -/
theorem Scanner.Next_ws (fuel : Nat) (ws rest : List Char) (p : Position) (r : Token × Scanner)
    (hws : ∀ c ∈ ws, isWhitespace (some c) = true) (hrest : isWhitespace rest.head? = false)
    (h : Scanner.Next fuel ⟨⟨rest, p.advances ws⟩⟩ = some r) :
    Scanner.Next (fuel + 1) ⟨⟨ws ++ rest, p⟩⟩ = some r := by
  cases ws with
  | nil => exact Scanner.Next_mono fuel 1 _ _ h
  | cons w ws =>
    have hw : isWhitespace (some w) = true := hws w (List.mem_cons_self _ _)
    have hlp := scanWhitespaceLoop_append rest hrest (w :: ws) p 0 hws
    simp only [Scanner.Next, Scanner.next, TextScanner.Peek, List.cons_append, List.head?_cons,
      hw, if_true, Scanner.scanWhitespace]
    simp only [List.cons_append] at hlp
    simp only [hlp, ne_eq, not_true_eq_false, if_false]
    exact h


/-! ## Single tokens -/

theorem isLetter_not_ws (c : Char) (h : isLetter (some c) = true) : isWhitespace (some c) = false := by
  by_contra hw
  simp only [isWhitespace, Bool.not_eq_false, Bool.or_eq_true, beq_iff_eq, Option.some.injEq] at hw
  rcases hw with (rfl | rfl) | rfl <;> exact absurd h (by decide)

theorem isLetter_isIdentChar (c : Char) (h : isLetter (some c) = true) :
    isIdentChar (some c) = true := by
  simp only [isLetter, Bool.or_eq_true, Bool.and_eq_true, decide_eq_true_eq] at h
  simp only [isIdentChar, Bool.or_eq_true, Bool.and_eq_true, decide_eq_true_eq, beq_iff_eq]
  tauto

theorem Scanner.Next_lbrace (fuel : Nat) (rest : List Char) (p : Position) :
    Scanner.Next (fuel + 2) ⟨⟨'[' :: rest, p⟩⟩ =
      some (⟨Tok.LBrace, p.advance '[', 1, []⟩, ⟨⟨rest, p.advance '['⟩⟩) := by
  simp [Scanner.Next, Scanner.next, TextScanner.Peek, TextScanner.Next, TextScanner.Pos,
    isWhitespace, isLetter, isNumber, dquote]

theorem Scanner.Next_rbrace (fuel : Nat) (rest : List Char) (p : Position) :
    Scanner.Next (fuel + 2) ⟨⟨']' :: rest, p⟩⟩ =
      some (⟨Tok.RBrace, p.advance ']', 1, []⟩, ⟨⟨rest, p.advance ']'⟩⟩) := by
  simp [Scanner.Next, Scanner.next, TextScanner.Peek, TextScanner.Next, TextScanner.Pos,
    isWhitespace, isLetter, isNumber, dquote]

theorem scanIdentLoop_append (rest : List Char) (hrest : isIdentChar rest.head? = false) :
    ∀ (key : List Char) (p : Position) (length : Nat) (buf : GoString),
      (∀ c ∈ key, isIdentChar (some c) = true) →
      scanIdentLoop (key ++ rest) p length buf =
        (length + key.length, buf ++ key, ⟨rest, p.advances key⟩) := by
  intro key
  induction key with
  | nil =>
    intro p length buf _
    cases rest with
    | nil => simp [scanIdentLoop, Position.advances]
    | cons c cs =>
      simp only [List.head?_cons] at hrest
      simp [scanIdentLoop, hrest, Position.advances]
  | cons k key ih =>
    intro p length buf hkey
    have hk : isIdentChar (some k) = true := hkey k (List.mem_cons_self _ _)
    rw [List.cons_append]
    simp only [scanIdentLoop, hk, if_true]
    rw [ih _ _ _ (fun c hc => hkey c (List.mem_cons_of_mem _ hc))]
    simp [Position.advances_cons]; omega

/-- An identifier that is followed by something else than an identifier character is read
as one `Ident` token. -/
theorem Scanner.Next_ident (fuel : Nat) (key rest : List Char) (p : Position)
    (hkey : isIdentifier key) (hrest : isIdentChar rest.head? = false) :
    Scanner.Next (fuel + 2) ⟨⟨key ++ rest, p⟩⟩ =
      some (⟨Tok.Ident, p, key.length, key⟩, ⟨⟨rest, p.advances key⟩⟩) := by
  obtain ⟨hl, hall⟩ := hkey
  cases key with
  | nil => simp [isLetter] at hl
  | cons k key =>
    simp only [List.head?_cons] at hl
    have hnw := isLetter_not_ws k hl
    have hlp := scanIdentLoop_append rest hrest (k :: key) p 0 [] hall
    simp only [List.cons_append] at hlp
    simp only [Scanner.Next, Scanner.next, TextScanner.Peek, List.cons_append, List.head?_cons,
      hnw, hl, Bool.false_eq_true, if_false, if_true, Scanner.scanIdent, TextScanner.Pos, hlp]
    simp

theorem scanDoubleQuotedLoop_body (rest : List Char) :
    ∀ (v : List QuotedRune) (fuel : Nat) (p : Position) (length : Nat) (buf : GoString),
      (∀ q ∈ v, q.WellFormed) → v.length + 1 ≤ fuel →
      scanDoubleQuotedLoop fuel ⟨quotedBody v ++ dquote :: rest, p⟩ length buf =
        some (length + v.length, buf ++ quotedValue v,
          ⟨rest, (p.advances (quotedBody v)).advance dquote⟩) := by
  intro v
  induction v with
  | nil =>
    intro fuel p length buf _ hf
    obtain ⟨n, rfl⟩ : ∃ n, fuel = n + 1 := ⟨fuel - 1, by omega⟩
    simp [scanDoubleQuotedLoop, quotedBody, quotedValue, TextScanner.Peek, TextScanner.Next,
      Position.advances, dquote, bslash]
  | cons q v ih =>
    intro fuel p length buf hwf hf
    obtain ⟨n, rfl⟩ : ∃ n, fuel = n + 1 := ⟨fuel - 1, by omega⟩
    have hq := hwf q (List.mem_cons_self _ _)
    have hv : ∀ q ∈ v, q.WellFormed := fun x hx => hwf x (List.mem_cons_of_mem _ hx)
    have hn : v.length + 1 ≤ n := by simp at hf; omega
    obtain ⟨esc, c⟩ := q
    cases esc with
    | true =>
      have e : quotedBody (⟨true, c⟩ :: v) ++ dquote :: rest =
          bslash :: c :: (quotedBody v ++ dquote :: rest) := by
        simp [quotedBody, QuotedRune.text]
      rw [e]
      simp only [scanDoubleQuotedLoop, TextScanner.Peek, List.head?_cons, if_true,
        TextScanner.Next]
      rw [ih n _ _ _ hv hn]
      simp [quotedBody, quotedValue, QuotedRune.text, Position.advances, runeString]
      omega
    | false =>
      have hc := hq rfl
      simp only at hc
      have e : quotedBody (⟨false, c⟩ :: v) ++ dquote :: rest =
          c :: (quotedBody v ++ dquote :: rest) := by
        simp [quotedBody, QuotedRune.text]
      rw [e]
      simp only [scanDoubleQuotedLoop, TextScanner.Peek, List.head?_cons, Option.some.injEq,
        hc.1, hc.2, if_false, TextScanner.Next]
      rw [ih n _ _ _ hv hn]
      simp [quotedBody, quotedValue, QuotedRune.text, Position.advances, runeString]
      omega

/-- A double-quoted literal is read as one `Quote` token whose literal is the string that
the literal denotes. -/
theorem Scanner.Next_quote (fuel : Nat) (v : List QuotedRune) (rest : List Char) (p : Position)
    (hwf : ∀ q ∈ v, q.WellFormed) (hf : v.length + 1 ≤ fuel) :
    Scanner.Next (fuel + 1) ⟨⟨dquote :: (quotedBody v ++ dquote :: rest), p⟩⟩ =
      some (⟨Tok.Quote, p.advance dquote, v.length, quotedValue v⟩,
        ⟨⟨rest, ((p.advance dquote).advances (quotedBody v)).advance dquote⟩⟩) := by
  have hlp := scanDoubleQuotedLoop_body rest v fuel (p.advance dquote) 0 [] hwf hf
  have h1 : isWhitespace (some dquote) = false := by decide
  have h2 : isLetter (some dquote) = false := by decide
  simp only [Scanner.Next, Scanner.next, TextScanner.Peek, List.head?_cons, h1, h2,
    Bool.false_eq_true, if_false, if_true, Scanner.scanDoubleQuoted, TextScanner.Next,
    TextScanner.Pos, hlp]
  simp

theorem isWhitespace_not_identChar (c : Char) (h : isWhitespace (some c) = true) :
    isIdentChar (some c) = false := by
  simp only [isWhitespace, Bool.or_eq_true, beq_iff_eq, Option.some.injEq] at h
  rcases h with (rfl | rfl) | rfl <;> decide

theorem Scanner.Next_ws_lbrace (F : Nat) (ws rest : List Char) (p : Position)
    (hws : allWhitespace ws) (hF : 3 ≤ F) :
    Scanner.Next F ⟨⟨ws ++ '[' :: rest, p⟩⟩ =
      some (⟨Tok.LBrace, (p.advances ws).advance '[', 1, []⟩,
        ⟨⟨rest, (p.advances ws).advance '['⟩⟩) := by
  obtain ⟨n, rfl⟩ : ∃ n, F = n + 2 + 1 := ⟨F - 3, by omega⟩
  exact Scanner.Next_ws (n + 2) ws _ p _ hws (by simp only [List.head?_cons]; decide)
    (Scanner.Next_lbrace n rest _)

theorem Scanner.Next_ws_rbrace (F : Nat) (ws rest : List Char) (p : Position)
    (hws : allWhitespace ws) (hF : 3 ≤ F) :
    Scanner.Next F ⟨⟨ws ++ ']' :: rest, p⟩⟩ =
      some (⟨Tok.RBrace, (p.advances ws).advance ']', 1, []⟩,
        ⟨⟨rest, (p.advances ws).advance ']'⟩⟩) := by
  obtain ⟨n, rfl⟩ : ∃ n, F = n + 2 + 1 := ⟨F - 3, by omega⟩
  exact Scanner.Next_ws (n + 2) ws _ p _ hws (by simp only [List.head?_cons]; decide)
    (Scanner.Next_rbrace n rest _)

theorem Scanner.Next_ws_ident (F : Nat) (ws key rest : List Char) (p : Position)
    (hws : allWhitespace ws) (hkey : isIdentifier key) (hrest : isIdentChar rest.head? = false)
    (hF : 3 ≤ F) :
    Scanner.Next F ⟨⟨ws ++ (key ++ rest), p⟩⟩ =
      some (⟨Tok.Ident, p.advances ws, key.length, key⟩,
        ⟨⟨rest, (p.advances ws).advances key⟩⟩) := by
  obtain ⟨n, rfl⟩ : ∃ n, F = n + 2 + 1 := ⟨F - 3, by omega⟩
  refine Scanner.Next_ws (n + 2) ws _ p _ hws ?_ (Scanner.Next_ident n key rest _ hkey hrest)
  obtain ⟨hl, -⟩ := hkey
  cases key with
  | nil => simp [isLetter] at hl
  | cons k key => exact isLetter_not_ws k hl

theorem Scanner.Next_ws_quote (F : Nat) (ws : List Char) (v : List QuotedRune) (rest : List Char)
    (p : Position) (hws : allWhitespace ws) (hwf : ∀ q ∈ v, q.WellFormed)
    (hF : v.length + 3 ≤ F) :
    Scanner.Next F ⟨⟨ws ++ dquote :: (quotedBody v ++ dquote :: rest), p⟩⟩ =
      some (⟨Tok.Quote, (p.advances ws).advance dquote, v.length, quotedValue v⟩,
        ⟨⟨rest, (((p.advances ws).advance dquote).advances (quotedBody v)).advance dquote⟩⟩) := by
  obtain ⟨n, rfl⟩ : ∃ n, F = n + 1 + 1 := ⟨F - 2, by omega⟩
  exact Scanner.Next_ws (n + 1) ws _ p _ hws (by simp only [List.head?_cons]; decide)
    (Scanner.Next_quote n v rest _ hwf (by omega))

/-- One turn of the loop of `parseTags` over a well-formed tag pair: the pair is assigned,
and the rune shown by `Peek` decides whether the loop goes on. -/
theorem parseTagsLoop_step (F : Nat) (t : TagSrc) (rest : List Char) (p : Position)
    (tags : GoMap) (hwf : t.WellFormed) (hF : t.value.length + 3 ≤ F) :
    parseTagsLoop (F + 1) ⟨⟨⟨t.text ++ rest, p⟩⟩⟩ tags =
      if (Scanner.Peek ⟨⟨rest, p.advances t.text⟩⟩).1 ≠ some '[' then
        some ((tags.set t.key (quotedValue t.value), none),
          ⟨(Scanner.Peek ⟨⟨rest, p.advances t.text⟩⟩).2⟩)
      else
        parseTagsLoop F ⟨(Scanner.Peek ⟨⟨rest, p.advances t.text⟩⟩).2⟩
          (tags.set t.key (quotedValue t.value)) := by
  obtain ⟨ws1, ws2, key, ws3, value, ws4⟩ := t
  obtain ⟨h1, h2, hkey, h3, hval, h4⟩ := hwf
  simp only at h1 h2 hkey h3 hval h4 hF
  have hid : isIdentChar (ws3 ++ dquote :: (quotedBody value ++ dquote :: (ws4 ++ ']' :: rest))).head?
      = false := by
    cases ws3 with
    | nil => simp only [List.nil_append, List.head?_cons]; decide
    | cons w ws3 =>
      simp only [List.cons_append, List.head?_cons]
      exact isWhitespace_not_identChar w (h3 w (List.mem_cons_self _ _))
  have e : (⟨ws1, ws2, key, ws3, value, ws4⟩ : TagSrc).text ++ rest =
      ws1 ++ '[' :: (ws2 ++ (key ++ (ws3 ++ dquote :: (quotedBody value ++
        dquote :: (ws4 ++ ']' :: rest))))) := by
    simp [TagSrc.text]
  have epos : p.advances (⟨ws1, ws2, key, ws3, value, ws4⟩ : TagSrc).text =
      (((((((p.advances ws1).advance '[').advances ws2).advances key).advances ws3).advance
        dquote).advances (quotedBody value) |>.advance dquote |>.advances ws4).advance ']' := by
    simp [TagSrc.text, Position.advances, List.foldl_append]
  rw [e, epos]
  simp only [parseTagsLoop]
  rw [Scanner.Next_ws_lbrace F ws1 _ p h1 (by omega)]
  simp only [ne_eq, not_true_eq_false, if_false]
  rw [Scanner.Next_ws_ident F ws2 key _ _ h2 hkey hid (by omega)]
  simp only [ne_eq, not_true_eq_false, if_false]
  rw [Scanner.Next_ws_quote F ws3 value _ _ h3 hval hF]
  simp only [ne_eq, not_true_eq_false, if_false]
  rw [Scanner.Next_ws_rbrace F ws4 rest _ h4 (by omega)]
  simp only [ne_eq, not_true_eq_false, if_false]


/-! ## Maps -/

theorem GoMap.get_filter_ne (m : GoMap) (k k1 : GoString) (h : k1 ≠ k) :
    GoMap.get (m.filter (fun e => decide (e.1 ≠ k))) k1 = GoMap.get m k1 := by
  induction m with
  | nil => rfl
  | cons e m ih =>
    obtain ⟨a, b⟩ := e
    by_cases ha : a = k
    · subst ha
      have hk : (k1 == a) = false := by simpa using h
      simp only [GoMap.get] at ih
      simpa [GoMap.get, List.filter, List.lookup, hk] using ih
    · simp only [GoMap.get] at ih
      simp only [GoMap.get, List.filter, ne_eq, ha, not_false_eq_true, decide_True, List.lookup]
      cases hk : (k1 == a)
      · simpa using ih
      · simp

theorem GoMap.get_set (m : GoMap) (k v k1 : GoString) :
    GoMap.get (m.set k v) k1 = if k1 = k then some v else GoMap.get m k1 := by
  by_cases h : k1 = k
  · subst h; simp [GoMap.get, GoMap.set, List.lookup]
  · have hk : (k1 == k) = false := by simpa using h
    have := GoMap.get_filter_ne m k k1 h
    simp only [GoMap.get] at this
    simpa [GoMap.get, GoMap.set, List.lookup, hk, h] using this

/-- After the pairs have been assigned in order, a key is mapped to the value of its last
occurrence among them, or to what it was mapped to before when it does not occur. -/
theorem assignAll_get (pairs : List (GoString × GoString)) :
    ∀ (tags : GoMap) (k : GoString),
      GoMap.get (assignAll tags pairs) k =
        match List.lookup k pairs.reverse with
        | some v => some v
        | none => GoMap.get tags k := by
  induction pairs with
  | nil => intro tags k; simp [assignAll, List.lookup]
  | cons e pairs ih =>
    intro tags k
    obtain ⟨a, b⟩ := e
    have e1 : assignAll tags ((a, b) :: pairs) = assignAll (tags.set a b) pairs := by
      simp [assignAll]
    rw [e1, ih, GoMap.get_set]
    simp only [List.reverse_cons, List.lookup_append]
    cases hl : List.lookup k pairs.reverse with
    | some v => simp
    | none =>
      by_cases hk : k = a
      · subst hk; simp [List.lookup]
      · have hk1 : (k == a) = false := by simpa using hk
        simp [List.lookup, hk, hk1]

theorem GoMap.keys_set_nodup (m : GoMap) (k v : GoString) (h : (m.map Prod.fst).Nodup) :
    ((m.set k v).map Prod.fst).Nodup := by
  simp only [GoMap.set, List.map_cons, List.nodup_cons]
  constructor
  · simp [List.mem_map, List.mem_filter]
  · exact (h.sublist ((List.filter_sublist _).map _))

theorem assignAll_keys_nodup (pairs : List (GoString × GoString)) :
    ∀ (tags : GoMap), (tags.map Prod.fst).Nodup → ((assignAll tags pairs).map Prod.fst).Nodup := by
  induction pairs with
  | nil => intro tags h; simpa [assignAll] using h
  | cons e pairs ih =>
    intro tags h
    have e1 : assignAll tags (e :: pairs) = assignAll (tags.set e.1 e.2) pairs := by
      simp [assignAll]
    rw [e1]
    exact ih _ (GoMap.keys_set_nodup tags e.1 e.2 h)

theorem GoMap.mem_keys_of_get (m : GoMap) (k v : GoString) (h : GoMap.get m k = some v) :
    k ∈ m.map Prod.fst := by
  induction m with
  | nil => simp [GoMap.get, List.lookup] at h
  | cons e m ih =>
    obtain ⟨a, b⟩ := e
    simp only [GoMap.get, List.lookup] at h
    cases hk : (k == a) with
    | true => simp at hk; simp [hk]
    | false =>
      rw [hk] at h
      simp only [List.map_cons, List.mem_cons]
      exact Or.inr (ih h)

/-! ## `parseTags` -/

theorem quotedBody_length (v : List QuotedRune) : v.length ≤ (quotedBody v).length := by
  induction v with
  | nil => simp [quotedBody]
  | cons q v ih =>
    simp only [quotedBody, List.flatMap_cons, List.length_append, List.length_cons] at ih ⊢
    have : 1 ≤ q.text.length := by
      unfold QuotedRune.text; split <;> simp
    omega

theorem TagSrc.text_length (t : TagSrc) : t.value.length + 4 ≤ t.text.length := by
  have := quotedBody_length t.value
  simp only [TagSrc.text, List.length_append, List.length_cons, List.length_nil]
  omega

theorem tagsText_cons (t : TagSrc) (ts : List TagSrc) :
    tagsText (t :: ts) = t.text ++ tagsText ts := by
  simp [tagsText]

/-- A map without repeated keys has one entry for a key that it holds. -/
theorem GoMap.entries_of_key (m : GoMap) (k : GoString) (hn : (m.map Prod.fst).Nodup)
    (hk : k ∈ m.map Prod.fst) : (m.filter (fun e => decide (e.1 = k))).length = 1 := by
  induction m with
  | nil => simp at hk
  | cons e m ih =>
    simp only [List.map_cons, List.nodup_cons] at hn
    by_cases he : e.1 = k
    · have hz : m.filter (fun e => decide (e.1 = k)) = [] := by
        rw [List.filter_eq_nil_iff]
        intro x hx
        simp only [decide_eq_true_eq]
        intro hxk
        exact hn.1 (by rw [he, ← hxk]; exact List.mem_map_of_mem _ hx)
      simp [List.filter, he, hz]
    · have hk1 : k ∈ m.map Prod.fst := by
        simp only [List.map_cons, List.mem_cons] at hk
        rcases hk with h | h
        · exact absurd h.symm he
        · exact h
      simp [List.filter, he, ih hn.2 hk1]

/-- The loop of `parseTags` over a sequence of well-formed tag pairs that is followed by
white space and then by something that is not `[`. -/
theorem parseTagsLoop_tags :
    ∀ (ts : List TagSrc) (t : TagSrc) (p : Position) (tags : GoMap) (wsEnd rest : List Char)
      (fuel : Nat),
      t.WellFormed → (∀ x ∈ ts, x.WellFormed) → allWhitespace wsEnd →
      isWhitespace rest.head? = false → rest.head? ≠ some '[' →
      (tagsText (t :: ts) ++ (wsEnd ++ rest)).length + 3 ≤ fuel →
      parseTagsLoop fuel ⟨⟨⟨tagsText (t :: ts) ++ (wsEnd ++ rest), p⟩⟩⟩ tags =
        some ((assignAll tags ((t :: ts).map TagSrc.pair), none),
          ⟨⟨⟨rest, p.advances (tagsText (t :: ts) ++ wsEnd)⟩⟩⟩) := by
  intro ts
  induction ts with
  | nil =>
    intro t p tags wsEnd rest fuel hwf _ hws hr1 hr2 hf
    have hlen := TagSrc.text_length t
    rw [tagsText_cons] at hf ⊢
    simp only [tagsText, List.flatMap_nil, List.append_nil, List.length_append] at hf ⊢
    obtain ⟨F, rfl⟩ : ∃ F, fuel = F + 1 := ⟨fuel - 1, by omega⟩
    rw [parseTagsLoop_step F t _ p tags hwf (by omega), Scanner.Peek_ws wsEnd rest _ hws hr1]
    simp [hr2, assignAll, TagSrc.pair, Position.advances_append]
  | cons t2 ts ih =>
    intro t p tags wsEnd rest fuel hwf hwfs hws hr1 hr2 hf
    have hlen := TagSrc.text_length t
    have hwf2 : t2.WellFormed := hwfs t2 (List.mem_cons_self _ _)
    have hwfts : ∀ x ∈ ts, x.WellFormed := fun x hx => hwfs x (List.mem_cons_of_mem _ hx)
    obtain ⟨ws1, ws2, key, ws3, value, ws4⟩ := t2
    -- the second pair without the white space before it, which `Peek` reads
    have hwf3 : (⟨[], ws2, key, ws3, value, ws4⟩ : TagSrc).WellFormed := by
      obtain ⟨-, h2, h3, h4, h5, h6⟩ := hwf2
      exact ⟨by simp [allWhitespace], h2, h3, h4, h5, h6⟩
    have e2 : (⟨ws1, ws2, key, ws3, value, ws4⟩ : TagSrc).text =
        ws1 ++ (⟨[], ws2, key, ws3, value, ws4⟩ : TagSrc).text := by
      simp [TagSrc.text]
    have e : tagsText (t :: ⟨ws1, ws2, key, ws3, value, ws4⟩ :: ts) ++ (wsEnd ++ rest) =
        t.text ++ (ws1 ++ (tagsText (⟨[], ws2, key, ws3, value, ws4⟩ :: ts) ++ (wsEnd ++ rest))) := by
      rw [tagsText_cons, tagsText_cons, tagsText_cons, e2]
      simp only [List.append_assoc]
    have hhead : (tagsText (⟨[], ws2, key, ws3, value, ws4⟩ :: ts) ++ (wsEnd ++ rest)).head? =
        some '[' := by
      simp [tagsText_cons, TagSrc.text]
    rw [e] at hf ⊢
    simp only [List.length_append] at hf
    obtain ⟨F, rfl⟩ : ∃ F, fuel = F + 1 := ⟨fuel - 1, by omega⟩
    rw [parseTagsLoop_step F t _ p tags hwf (by omega),
      Scanner.Peek_ws ws1 _ _ hwf2.1 (by rw [hhead]; decide)]
    simp only [hhead, ne_eq, not_true_eq_false, if_false]
    rw [ih ⟨[], ws2, key, ws3, value, ws4⟩ _ _ wsEnd rest F hwf3 hwfts hws hr1 hr2
      (by simp only [List.length_append]; omega)]
    simp only [Option.some.injEq, Prod.mk.injEq, and_true]
    refine ⟨by simp [assignAll, TagSrc.pair], ?_⟩
    simp only [tagsText_cons, e2, Position.advances_append]

/-- **C8.** For every non-empty sequence of tag pairs `[ key "value" ]`, the key an
identifier and the value a quoted string, with any amount of spaces, tabs and newlines before
every token and after the last pair, `parseTags` returns, given enough fuel, a nil error and a
map that holds exactly those pairs (a key is mapped to the value of its last pair and no other
key is present), and leaves the scanner at the first rune after the pairs that is not white
space, which is not `[` (or at the end of the input). -/
theorem parseTags_tag_block (ts : List TagSrc) (p : Position) (wsEnd rest : List Char)
    (fuel : Nat) (hne : ts ≠ []) (hwf : ∀ t ∈ ts, t.WellFormed) (hws : allWhitespace wsEnd)
    (hr1 : isWhitespace rest.head? = false) (hr2 : rest.head? ≠ some '[')
    (hf : (tagsText ts ++ (wsEnd ++ rest)).length + 3 ≤ fuel) :
    ∃ m, parser.parseTags fuel ⟨⟨⟨tagsText ts ++ (wsEnd ++ rest), p⟩⟩⟩ =
        some ((m, none), ⟨⟨⟨rest, p.advances (tagsText ts ++ wsEnd)⟩⟩⟩) ∧
      ∀ k, GoMap.get m k = List.lookup k (ts.map TagSrc.pair).reverse := by
  cases ts with
  | nil => exact absurd rfl hne
  | cons t ts =>
    refine ⟨_, parseTagsLoop_tags ts t p [] wsEnd rest fuel (hwf t (List.mem_cons_self _ _))
      (fun x hx => hwf x (List.mem_cons_of_mem _ hx)) hws hr1 hr2 hf, fun k => ?_⟩
    rw [assignAll_get]
    cases List.lookup k (List.map TagSrc.pair (t :: ts)).reverse <;> simp [GoMap.get, List.lookup]

/-- **C10.** When a key occurs in several tag pairs of one tag block, the map returned by
`parseTags` holds that key once, mapped to the value of its last occurrence: here `t` is the
last pair with its key, whatever pairs with that key come before it. -/
theorem parseTags_last_wins (pre post : List TagSrc) (t : TagSrc) (p : Position)
    (wsEnd rest : List Char) (fuel : Nat)
    (hwf : ∀ x ∈ pre ++ t :: post, x.WellFormed) (hlast : ∀ x ∈ post, x.key ≠ t.key)
    (hws : allWhitespace wsEnd) (hr1 : isWhitespace rest.head? = false)
    (hr2 : rest.head? ≠ some '[')
    (hf : (tagsText (pre ++ t :: post) ++ (wsEnd ++ rest)).length + 3 ≤ fuel) :
    ∃ m p1, parser.parseTags fuel ⟨⟨⟨tagsText (pre ++ t :: post) ++ (wsEnd ++ rest), p⟩⟩⟩ =
        some ((m, none), p1) ∧
      GoMap.get m t.key = some (quotedValue t.value) ∧
      (m.filter (fun e => decide (e.1 = t.key))).length = 1 := by
  have hne : pre ++ t :: post ≠ [] := by simp
  cases hts : pre ++ t :: post with
  | nil => exact absurd hts hne
  | cons t1 ts1 =>
    rw [hts] at hwf hf
    have hrun := parseTagsLoop_tags ts1 t1 p [] wsEnd rest fuel (hwf t1 (List.mem_cons_self _ _))
      (fun x hx => hwf x (List.mem_cons_of_mem _ hx)) hws hr1 hr2 hf
    have hget : GoMap.get (assignAll [] ((t1 :: ts1).map TagSrc.pair)) t.key =
        some (quotedValue t.value) := by
      rw [assignAll_get, ← hts]
      have hpost : List.lookup t.key (post.map TagSrc.pair).reverse = none := by
        rw [List.lookup_eq_none_iff]
        intro e he
        simp only [List.mem_reverse, List.mem_map] at he
        obtain ⟨x, hx, rfl⟩ := he
        simp only [TagSrc.pair, bne_iff_ne, ne_eq]
        exact fun h => hlast x hx h.symm
      rw [List.map_append, List.map_cons, List.reverse_append, List.reverse_cons,
        List.append_assoc, List.lookup_append, hpost]
      simp [List.lookup, TagSrc.pair]
    refine ⟨_, _, hrun, hget, ?_⟩
    exact GoMap.entries_of_key _ _ (assignAll_keys_nodup _ [] (by simp))
      (GoMap.mem_keys_of_get _ _ _ hget)

/-- The call of the loop of `parseTags` at a point where the first token is not `[`. -/
theorem parseTagsLoop_not_lbrace (fuel0 F : Nat) (s s1 : Scanner) (tags : GoMap) (bad : Token)
    (hnext : s.Next fuel0 = some (bad, s1)) (hbad : bad.Tok ≠ Tok.LBrace) (hF : fuel0 ≤ F) :
    parseTagsLoop (F + 1) ⟨s⟩ tags = some ((tags, invalidToken "[".toList bad), ⟨s1⟩) := by
  simp only [parseTagsLoop]
  rw [Scanner.Next_le hF hnext]
  simp [hbad]

/-- The call of the loop of `parseTags` on the start of a tag pair that is followed by a
token of another kind than the one the shape asks for. -/
theorem parseTagsLoop_broken (pt : PartialTag) (rest : List Char) (p : Position) (tags : GoMap)
    (bad : Token) (s1 : Scanner) (fuel0 F : Nat) (hwf : pt.WellFormed rest)
    (hnext : Scanner.Next fuel0 ⟨⟨rest, p.advances pt.text⟩⟩ = some (bad, s1))
    (hbad : bad.Tok ≠ expectedTok (some pt)) (hF0 : fuel0 ≤ F) (hF : pt.text.length + 3 ≤ F) :
    parseTagsLoop (F + 1) ⟨⟨⟨pt.text ++ rest, p⟩⟩⟩ tags =
      some ((tags, invalidToken (expectedName (some pt)) bad), ⟨s1⟩) := by
  cases pt with
  | lbrace ws1 =>
    simp only [PartialTag.WellFormed] at hwf
    simp only [expectedTok] at hbad
    simp only [PartialTag.text, List.append_assoc, List.singleton_append,
      Position.advances_append, Position.advances_cons, Position.advances_nil] at hnext ⊢
    simp only [parseTagsLoop]
    rw [Scanner.Next_ws_lbrace F ws1 _ p hwf (by omega)]
    simp only [ne_eq, not_true_eq_false, if_false]
    rw [Scanner.Next_le hF0 hnext]
    simp [hbad, expectedName]
  | key ws1 ws2 k =>
    obtain ⟨h1, h2, hk, hr⟩ := hwf
    simp only [expectedTok] at hbad
    have e : (PartialTag.key ws1 ws2 k).text ++ rest = ws1 ++ '[' :: (ws2 ++ (k ++ rest)) := by
      simp [PartialTag.text]
    have epos : p.advances (PartialTag.key ws1 ws2 k).text =
        (((p.advances ws1).advance '[').advances ws2).advances k := by
      simp [PartialTag.text, Position.advances, List.foldl_append]
    rw [epos] at hnext
    rw [e]
    simp only [parseTagsLoop]
    rw [Scanner.Next_ws_lbrace F ws1 _ p h1 (by omega)]
    simp only [ne_eq, not_true_eq_false, if_false]
    rw [Scanner.Next_ws_ident F ws2 k rest _ h2 hk hr (by omega)]
    simp only [ne_eq, not_true_eq_false, if_false]
    rw [Scanner.Next_le hF0 hnext]
    simp [hbad, expectedName]
  | value ws1 ws2 k ws3 v =>
    obtain ⟨h1, h2, hk, h3, hv⟩ := hwf
    simp only [expectedTok] at hbad
    have hlen := quotedBody_length v
    have e : (PartialTag.value ws1 ws2 k ws3 v).text ++ rest =
        ws1 ++ '[' :: (ws2 ++ (k ++ (ws3 ++ dquote :: (quotedBody v ++ dquote :: rest)))) := by
      simp [PartialTag.text]
    have epos : p.advances (PartialTag.value ws1 ws2 k ws3 v).text =
        (((((((p.advances ws1).advance '[').advances ws2).advances k).advances ws3).advance
          dquote).advances (quotedBody v)).advance dquote := by
      simp [PartialTag.text, Position.advances, List.foldl_append]
    have hid : isIdentChar (ws3 ++ dquote :: (quotedBody v ++ dquote :: rest)).head? = false := by
      cases ws3 with
      | nil => simp only [List.nil_append, List.head?_cons]; decide
      | cons w ws3 =>
        simp only [List.cons_append, List.head?_cons]
        exact isWhitespace_not_identChar w (h3 w (List.mem_cons_self _ _))
    simp only [PartialTag.text, List.length_append, List.length_cons, List.length_nil] at hF
    rw [epos] at hnext
    rw [e]
    simp only [parseTagsLoop]
    rw [Scanner.Next_ws_lbrace F ws1 _ p h1 (by omega)]
    simp only [ne_eq, not_true_eq_false, if_false]
    rw [Scanner.Next_ws_ident F ws2 k _ _ h2 hk hid (by omega)]
    simp only [ne_eq, not_true_eq_false, if_false]
    rw [Scanner.Next_ws_quote F ws3 v rest _ h3 hv (by omega)]
    simp only [ne_eq, not_true_eq_false, if_false]
    rw [Scanner.Next_le hF0 hnext]
    simp [hbad, expectedName]

/-- The start of a tag pair is white space and then a start of a tag pair that begins with
`[`. -/
theorem PartialTag.split_ws (pt : PartialTag) (rest : List Char) (hwf : pt.WellFormed rest) :
    ∃ (ws : List Char) (pt1 : PartialTag), allWhitespace ws ∧ pt.text = ws ++ pt1.text ∧
      (pt1.text ++ rest).head? = some '[' ∧ pt1.WellFormed rest ∧
      expectedTok (some pt1) = expectedTok (some pt) ∧
      expectedName (some pt1) = expectedName (some pt) := by
  cases pt with
  | lbrace ws1 =>
    exact ⟨ws1, PartialTag.lbrace [], hwf, by simp [PartialTag.text], by simp [PartialTag.text],
      by simp [PartialTag.WellFormed, allWhitespace], rfl, rfl⟩
  | key ws1 ws2 k =>
    obtain ⟨h1, h2, hk, hr⟩ := hwf
    exact ⟨ws1, PartialTag.key [] ws2 k, h1, by simp [PartialTag.text],
      by simp [PartialTag.text], ⟨by simp [allWhitespace], h2, hk, hr⟩, rfl, rfl⟩
  | value ws1 ws2 k ws3 v =>
    obtain ⟨h1, h2, hk, h3, hv⟩ := hwf
    exact ⟨ws1, PartialTag.value [] ws2 k ws3 v, h1, by simp [PartialTag.text],
      by simp [PartialTag.text], ⟨by simp [allWhitespace], h2, hk, h3, hv⟩, rfl, rfl⟩

/-- The loop of `parseTags` over well-formed tag pairs that are followed by a start of a
tag pair and then by a token of another kind than the one the shape asks for. -/
theorem parseTagsLoop_tags_broken (pt : PartialTag) (rest : List Char) (bad : Token)
    (s1 : Scanner) (fuel0 : Nat) (hwfp : pt.WellFormed rest)
    (hbad : bad.Tok ≠ expectedTok (some pt)) :
    ∀ (ts : List TagSrc) (t : TagSrc) (p : Position) (tags : GoMap) (fuel : Nat),
      t.WellFormed → (∀ x ∈ ts, x.WellFormed) →
      Scanner.Next fuel0 ⟨⟨rest, p.advances (tagsText (t :: ts) ++ pt.text)⟩⟩ = some (bad, s1) →
      fuel0 + (tagsText (t :: ts) ++ pt.text).length + 4 ≤ fuel →
      parseTagsLoop fuel ⟨⟨⟨tagsText (t :: ts) ++ (pt.text ++ rest), p⟩⟩⟩ tags =
        some ((assignAll tags ((t :: ts).map TagSrc.pair),
          invalidToken (expectedName (some pt)) bad), ⟨s1⟩) := by
  intro ts
  induction ts with
  | nil =>
    intro t p tags fuel hwf _ hnext hf
    have hlen := TagSrc.text_length t
    obtain ⟨ws, pt1, hws, hsplit, hhead, hwf1, hexp, hname⟩ := PartialTag.split_ws pt rest hwfp
    rw [tagsText_cons] at hf hnext ⊢
    simp only [tagsText, List.flatMap_nil, List.append_nil, List.length_append] at hf hnext ⊢
    obtain ⟨F, rfl⟩ : ∃ F, fuel = F + 1 + 1 := ⟨fuel - 2, by omega⟩
    rw [parseTagsLoop_step (F + 1) t _ p tags hwf (by omega)]
    rw [hsplit, List.append_assoc, Scanner.Peek_ws ws _ _ hws (by rw [hhead]; decide)]
    simp only [hhead, ne_eq, not_true_eq_false, if_false]
    rw [hsplit, Position.advances_append, Position.advances_append] at hnext
    rw [hsplit, List.length_append] at hf
    rw [parseTagsLoop_broken pt1 rest _ _ bad s1 fuel0 F hwf1 hnext (hexp ▸ hbad) (by omega)
      (by omega), hname]
    simp [assignAll, TagSrc.pair]
  | cons t2 ts ih =>
    intro t p tags fuel hwf hwfs hnext hf
    have hlen := TagSrc.text_length t
    have hwf2 : t2.WellFormed := hwfs t2 (List.mem_cons_self _ _)
    have hwfts : ∀ x ∈ ts, x.WellFormed := fun x hx => hwfs x (List.mem_cons_of_mem _ hx)
    obtain ⟨ws1, ws2, key, ws3, value, ws4⟩ := t2
    have hwf3 : (⟨[], ws2, key, ws3, value, ws4⟩ : TagSrc).WellFormed := by
      obtain ⟨-, h2, h3, h4, h5, h6⟩ := hwf2
      exact ⟨by simp [allWhitespace], h2, h3, h4, h5, h6⟩
    have e2 : (⟨ws1, ws2, key, ws3, value, ws4⟩ : TagSrc).text =
        ws1 ++ (⟨[], ws2, key, ws3, value, ws4⟩ : TagSrc).text := by
      simp [TagSrc.text]
    have e : tagsText (t :: ⟨ws1, ws2, key, ws3, value, ws4⟩ :: ts) ++ (pt.text ++ rest) =
        t.text ++ (ws1 ++ (tagsText (⟨[], ws2, key, ws3, value, ws4⟩ :: ts) ++
          (pt.text ++ rest))) := by
      rw [tagsText_cons, tagsText_cons, tagsText_cons, e2]
      simp only [List.append_assoc]
    have epos : p.advances (tagsText (t :: ⟨ws1, ws2, key, ws3, value, ws4⟩ :: ts) ++ pt.text) =
        ((p.advances t.text).advances ws1).advances
          (tagsText (⟨[], ws2, key, ws3, value, ws4⟩ :: ts) ++ pt.text) := by
      rw [tagsText_cons, tagsText_cons, tagsText_cons, e2]
      simp only [Position.advances_append, List.append_assoc]
    have elen : (tagsText (t :: ⟨ws1, ws2, key, ws3, value, ws4⟩ :: ts) ++ pt.text).length =
        t.text.length + ws1.length +
          (tagsText (⟨[], ws2, key, ws3, value, ws4⟩ :: ts) ++ pt.text).length := by
      rw [tagsText_cons, tagsText_cons, tagsText_cons, e2]
      simp only [List.length_append]; omega
    have hhead : (tagsText (⟨[], ws2, key, ws3, value, ws4⟩ :: ts) ++ (pt.text ++ rest)).head? =
        some '[' := by
      simp [tagsText_cons, TagSrc.text]
    rw [epos] at hnext
    rw [elen] at hf
    rw [e]
    obtain ⟨F, rfl⟩ : ∃ F, fuel = F + 1 := ⟨fuel - 1, by omega⟩
    rw [parseTagsLoop_step F t _ p tags hwf (by omega),
      Scanner.Peek_ws ws1 _ _ hwf2.1 (by rw [hhead]; decide)]
    simp only [hhead, ne_eq, not_true_eq_false, if_false]
    rw [ih ⟨[], ws2, key, ws3, value, ws4⟩ _ _ F hwf3 hwfts hnext (by omega)]
    simp [assignAll, TagSrc.pair]

/-- **C9.** When `k ≥ 0` complete tag pairs are followed by a token that breaks the shape
`[ IDENT QUOTE ]` (the token `bad` comes where another kind is asked for: after `[`, after
`[ key`, after `[ key "value"`, or at the very start when `k = 0`), `parseTags` fails at that
token, given enough fuel, with a non-nil error that names the kind asked for and the token,
and returns the map built from exactly those `k` pairs, the empty map when `k = 0`. -/
theorem parseTags_broken_shape (ts : List TagSrc) (pt : Option PartialTag) (rest : List Char)
    (p : Position) (bad : Token) (s1 : Scanner) (fuel0 fuel : Nat)
    (hwf : ∀ t ∈ ts, t.WellFormed) (hwfp : ∀ x ∈ pt, x.WellFormed rest)
    (hstart : pt = none → ts = [])
    (hnext : Scanner.Next fuel0 ⟨⟨rest, p.advances (tagsText ts ++ partialText pt)⟩⟩ =
      some (bad, s1))
    (hbad : bad.Tok ≠ expectedTok pt)
    (hf : fuel0 + (tagsText ts ++ partialText pt).length + 4 ≤ fuel) :
    ∃ err, parser.parseTags fuel ⟨⟨⟨tagsText ts ++ (partialText pt ++ rest), p⟩⟩⟩ =
        some ((assignAll [] (ts.map TagSrc.pair), err), ⟨s1⟩) ∧
      err ≠ none ∧ err = invalidToken (expectedName pt) bad ∧
      (ts = [] → assignAll [] (ts.map TagSrc.pair) = []) := by
  refine ⟨invalidToken (expectedName pt) bad, ?_, by simp [invalidToken], rfl, ?_⟩
  · cases pt with
    | none =>
      have hts := hstart rfl
      subst hts
      obtain ⟨F, rfl⟩ : ∃ F, fuel = F + 1 := ⟨fuel - 1, by omega⟩
      simp only [tagsText, partialText, List.flatMap_nil, List.nil_append, List.append_nil,
        Position.advances_nil, List.length_nil] at hnext hf ⊢
      simp only [expectedTok] at hbad
      unfold parser.parseTags
      rw [parseTagsLoop_not_lbrace fuel0 F _ s1 [] bad hnext hbad (by omega)]
      simp [assignAll, expectedName]
    | some pt =>
      have hwfp1 := hwfp pt rfl
      simp only [partialText] at hnext hf ⊢
      cases ts with
      | nil =>
        obtain ⟨F, rfl⟩ : ∃ F, fuel = F + 1 := ⟨fuel - 1, by omega⟩
        simp only [tagsText, List.flatMap_nil, List.nil_append, List.length_append] at hnext hf ⊢
        unfold parser.parseTags
        rw [parseTagsLoop_broken pt rest p [] bad s1 fuel0 F hwfp1 hnext hbad (by omega)
          (by omega)]
        simp [assignAll]
      | cons t ts =>
        exact parseTagsLoop_tags_broken pt rest bad s1 fuel0 hwfp1 hbad ts t p [] fuel
          (hwf t (List.mem_cons_self _ _)) (fun x hx => hwf x (List.mem_cons_of_mem _ hx))
          hnext hf
  · intro h; subst h; simp [assignAll]

/-! ## `Peek` and `Next` -/

theorem scanDigitsLoop_kind :
    ∀ (l : List Char) (p : Position) (length : Nat) (str : GoString),
      (scanDigitsLoop l p length str).1 = Tok.Number ∨
      (scanDigitsLoop l p length str).1 = Tok.MoveNumber := by
  intro l
  induction l with
  | nil => intro p length str; simp [scanDigitsLoop]
  | cons c cs ih =>
    intro p length str
    simp only [scanDigitsLoop]
    split_ifs
    · simp
    · exact ih _ _ _
    · simp

theorem Scanner.scanNumber_kind (ps : Scanner) :
    (ps.scanNumber).1.Tok = Tok.Illegal ∨ (ps.scanNumber).1.Tok = Tok.Result ∨
    (ps.scanNumber).1.Tok = Tok.Number ∨ (ps.scanNumber).1.Tok = Tok.MoveNumber := by
  unfold Scanner.scanNumber
  simp only
  split_ifs
  any_goals simp [Token.zero]
  rcases scanDigitsLoop_kind ps.s.Next.2.src ps.s.Next.2.pos 1 (runeString ps.s.Next.1) with h | h
  · simp [h]
  · simp [h]

/-- What `next` returns when the next rune is not white space: never a white space token,
a `[` token exactly when that rune is `[`, the end-of-input token exactly at the end. -/
theorem Scanner.next_kind (fuel : Nat) (ps : Scanner) (t : Token) (s1 : Scanner)
    (hws : isWhitespace ps.s.Peek = false) (h : ps.next fuel = some (t, s1)) :
    t.Tok ≠ Tok.Ws ∧ (t.Tok = Tok.LBrace ↔ ps.s.Peek = some '[') ∧
      (t.Tok = Tok.EOF ↔ ps.s.Peek = none) := by
  unfold Scanner.next at h
  simp only at h
  rw [if_neg (by simp [hws])] at h
  by_cases h2 : isLetter ps.s.Peek = true
  · rw [if_pos h2] at h
    simp only [Scanner.scanIdent, Option.some.injEq, Prod.mk.injEq] at h
    obtain ⟨rfl, -⟩ := h
    refine ⟨by simp, ?_, ?_⟩
    · constructor
      · intro hh; simp at hh
      · intro hh; rw [hh] at h2; exact absurd h2 (by decide)
    · constructor
      · intro hh; simp at hh
      · intro hh; rw [hh] at h2; exact absurd h2 (by decide)
  rw [if_neg h2] at h
  by_cases h3 : ps.s.Peek = some dquote
  · rw [if_pos h3] at h
    unfold Scanner.scanDoubleQuoted at h
    simp only at h
    split at h
    · simp at h
    · simp only [Option.some.injEq, Prod.mk.injEq] at h
      obtain ⟨rfl, -⟩ := h
      refine ⟨by simp, ?_, ?_⟩
      · constructor
        · intro hh; simp at hh
        · intro hh; rw [hh] at h3; exact absurd h3 (by decide)
      · constructor
        · intro hh; simp at hh
        · intro hh; rw [hh] at h3; exact absurd h3 (by decide)
  rw [if_neg h3] at h
  by_cases h4 : isNumber ps.s.Peek = true
  · rw [if_pos h4] at h
    simp only [Option.some.injEq] at h
    have hk := Scanner.scanNumber_kind ps
    rw [h] at hk
    simp only at hk
    refine ⟨by rcases hk with hk | hk | hk | hk <;> simp [hk], ?_, ?_⟩
    · constructor
      · intro hh; rcases hk with hk | hk | hk | hk <;> simp [hk] at hh
      · intro hh; rw [hh] at h4; exact absurd h4 (by decide)
    · constructor
      · intro hh; rcases hk with hk | hk | hk | hk <;> simp [hk] at hh
      · intro hh; rw [hh] at h4; exact absurd h4 (by decide)
  rw [if_neg h4] at h
  by_cases h5 : ps.s.Peek = some '{'
  · rw [if_pos h5] at h
    unfold Scanner.scanComment at h
    simp only at h
    split at h
    · simp at h
    · simp only [Option.some.injEq, Prod.mk.injEq] at h
      obtain ⟨rfl, -⟩ := h
      refine ⟨by simp, ?_, ?_⟩
      · constructor
        · intro hh; simp at hh
        · intro hh; rw [hh] at h5; exact absurd h5 (by decide)
      · constructor
        · intro hh; simp at hh
        · intro hh; rw [hh] at h5; exact absurd h5 (by decide)
  rw [if_neg h5] at h
  cases hc : ps.s.Peek with
  | none =>
    rw [hc] at h
    simp only [Option.some.injEq, Prod.mk.injEq] at h
    obtain ⟨rfl, -⟩ := h
    simp
  | some c =>
    rw [hc] at h
    simp only at h
    split_ifs at h with c1 c2 c3 c4 c5 c6 <;>
      simp only [Option.some.injEq, Prod.mk.injEq] at h <;>
      obtain ⟨rfl, -⟩ := h
    · simp [c1]
    · refine ⟨by simp, ?_, by simp⟩
      simp only [reduceCtorEq, Option.some.injEq, false_iff]; exact c1
    · refine ⟨by simp, ?_, by simp⟩
      simp only [reduceCtorEq, Option.some.injEq, false_iff]; exact c1
    · refine ⟨by simp, ?_, by simp⟩
      simp only [reduceCtorEq, Option.some.injEq, false_iff]; exact c1
    · refine ⟨by simp, ?_, by simp⟩
      simp only [reduceCtorEq, Option.some.injEq, false_iff]; exact c1
    · refine ⟨by simp, ?_, by simp⟩
      simp only [reduceCtorEq, Option.some.injEq, false_iff]; exact c1
    · refine ⟨by simp, ?_, by simp⟩
      simp only [reduceCtorEq, Option.some.injEq, false_iff]; exact c1


theorem exists_ws_split (l : List Char) :
    ∃ ws rest, l = ws ++ rest ∧ allWhitespace ws ∧ isWhitespace rest.head? = false := by
  induction l with
  | nil => exact ⟨[], [], rfl, by simp [allWhitespace], by decide⟩
  | cons c cs ih =>
    by_cases hc : isWhitespace (some c) = true
    · obtain ⟨ws, rest, h1, h2, h3⟩ := ih
      refine ⟨c :: ws, rest, by simp [h1], ?_, h3⟩
      intro x hx
      simp only [List.mem_cons] at hx
      rcases hx with rfl | hx
      · exact hc
      · exact h2 x hx
    · exact ⟨[], c :: cs, rfl, by simp [allWhitespace], by simpa using hc⟩

theorem Scanner.Next_kind_of_not_ws (fuel : Nat) (s : Scanner) (t : Token) (s1 : Scanner)
    (hws : isWhitespace s.s.Peek = false) (h : s.Next fuel = some (t, s1)) :
    (t.Tok = Tok.LBrace ↔ s.s.Peek = some '[') ∧ (t.Tok = Tok.EOF ↔ s.s.Peek = none) := by
  cases fuel with
  | zero => simp [Scanner.Next] at h
  | succ n =>
    simp only [Scanner.Next] at h
    cases hn : s.next n with
    | none => simp [hn] at h
    | some r =>
      obtain ⟨t1, s2⟩ := r
      have hk := Scanner.next_kind n s t1 s2 hws hn
      rw [hn] at h
      simp only [ne_eq, hk.1, not_false_eq_true, if_true, Option.some.injEq, Prod.mk.injEq] at h
      obtain ⟨rfl, rfl⟩ := h
      exact hk.2

/-- The method `Peek` does not change what `Next` returns, and the rune it shows tells
whether the next token is `[` and whether it is the end of the input. -/
theorem Scanner.Next_after_Peek (fuel : Nat) (s : Scanner) (t : Token) (s1 : Scanner)
    (h : s.Next fuel = some (t, s1)) :
    (s.Peek).2.Next fuel = some (t, s1) ∧ (t.Tok = Tok.LBrace ↔ (s.Peek).1 = some '[') ∧
      (t.Tok = Tok.EOF ↔ (s.Peek).1 = none) := by
  obtain ⟨⟨l, p⟩⟩ := s
  obtain ⟨ws, rest, rfl, hws, hrest⟩ := exists_ws_split l
  rw [Scanner.Peek_ws ws rest p hws hrest]
  cases ws with
  | nil =>
    simp only [List.nil_append, Position.advances_nil] at h ⊢
    exact ⟨h, Scanner.Next_kind_of_not_ws fuel ⟨⟨rest, p⟩⟩ t s1 hrest h⟩
  | cons w ws =>
    cases fuel with
    | zero => simp [Scanner.Next] at h
    | succ n =>
      have hw : isWhitespace (some w) = true := hws w (List.mem_cons_self _ _)
      have hlp := scanWhitespaceLoop_append rest hrest (w :: ws) p 0 hws
      simp only [List.cons_append] at hlp
      simp only [Scanner.Next, Scanner.next, TextScanner.Peek, List.cons_append, List.head?_cons,
        hw, if_true, Scanner.scanWhitespace, hlp, ne_eq, not_true_eq_false, if_false] at h
      exact ⟨Scanner.Next_mono n 1 _ _ h,
        Scanner.Next_kind_of_not_ws n ⟨⟨rest, p.advances (w :: ws)⟩⟩ t s1 hrest h⟩

theorem Delivers_after_Peek {fuel : Nat} {s s1 : Scanner} {t : Token} {ts : List Token}
    (h : Delivers fuel s (t :: ts) s1) : Delivers fuel (s.Peek).2 (t :: ts) s1 := by
  obtain ⟨s2, hn, hd⟩ := Delivers_cons h
  simp only [Delivers, (Scanner.Next_after_Peek fuel s t s2 hn).1]
  exact ⟨trivial, hd⟩

/-! ## `parseGame`, `parsePgn` and `Parse` on well-formed games -/

/-- The loop of `parseTags` over the tokens of well-formed tag pairs that are followed by
a token that is not `[`. -/
theorem parseTagsLoop_tokens (fuel0 : Nat) (s1 : Scanner) (next : Token) (more : List Token)
    (hnext : next.Tok ≠ Tok.LBrace) :
    ∀ (tgs : List TagTokens) (t : TagTokens) (s : Scanner) (tags : GoMap) (F : Nat),
      t.WellFormed → (∀ x ∈ tgs, x.WellFormed) →
      Delivers fuel0 s ((t :: tgs).flatMap TagTokens.tokens ++ next :: more) s1 →
      fuel0 ≤ F →
      ∃ s2, parseTagsLoop (F + tgs.length + 1) ⟨s⟩ tags =
          some ((assignAll tags ((t :: tgs).map TagTokens.pair), none), ⟨s2⟩) ∧
        Delivers fuel0 s2 (next :: more) s1 := by
  intro tgs
  induction tgs with
  | nil =>
    intro t s tags F hwf _ hd hF
    obtain ⟨h1, h2, h3, h4⟩ := hwf
    simp only [List.flatMap_cons, List.flatMap_nil, List.append_nil, TagTokens.tokens,
      List.cons_append, List.nil_append] at hd
    obtain ⟨sa, hna, hd⟩ := Delivers_cons hd
    obtain ⟨sb, hnb, hd⟩ := Delivers_cons hd
    obtain ⟨sc, hnc, hd⟩ := Delivers_cons hd
    obtain ⟨sd, hnd, hd⟩ := Delivers_cons hd
    obtain ⟨se, hne, -⟩ := Delivers_cons hd
    have hpk := Scanner.Next_after_Peek fuel0 sd next se hne
    have hp : (sd.Peek).1 ≠ some '[' := fun hh => hnext (hpk.2.1.mpr hh)
    refine ⟨(sd.Peek).2, ?_, Delivers_after_Peek hd⟩
    simp only [List.length_nil, Nat.add_zero, parseTagsLoop]
    rw [Scanner.Next_le hF hna]
    simp only [h1, ne_eq, not_true_eq_false, if_false]
    rw [Scanner.Next_le hF hnb]
    simp only [h2, ne_eq, not_true_eq_false, if_false]
    rw [Scanner.Next_le hF hnc]
    simp only [h3, ne_eq, not_true_eq_false, if_false]
    rw [Scanner.Next_le hF hnd]
    simp only [h4, ne_eq, not_true_eq_false, if_false]
    simp [hp, assignAll, TagTokens.pair]
  | cons t2 tgs ih =>
    intro t s tags F hwf hwfs hd hF
    obtain ⟨h1, h2, h3, h4⟩ := hwf
    have hwf2 : t2.WellFormed := hwfs t2 (List.mem_cons_self _ _)
    have hwfts : ∀ x ∈ tgs, x.WellFormed := fun x hx => hwfs x (List.mem_cons_of_mem _ hx)
    have e : (t :: t2 :: tgs).flatMap TagTokens.tokens ++ next :: more =
        t.lbrace :: t.key :: t.value :: t.rbrace ::
          ((t2 :: tgs).flatMap TagTokens.tokens ++ next :: more) := by
      simp [List.flatMap_cons, TagTokens.tokens]
    have e2 : (t2 :: tgs).flatMap TagTokens.tokens ++ next :: more =
        t2.lbrace :: (t2.key :: t2.value :: t2.rbrace ::
          (tgs.flatMap TagTokens.tokens ++ next :: more)) := by
      simp [List.flatMap_cons, TagTokens.tokens]
    rw [e] at hd
    obtain ⟨sa, hna, hd⟩ := Delivers_cons hd
    obtain ⟨sb, hnb, hd⟩ := Delivers_cons hd
    obtain ⟨sc, hnc, hd⟩ := Delivers_cons hd
    obtain ⟨sd, hnd, hd⟩ := Delivers_cons hd
    have hd2 := hd
    rw [e2] at hd2
    obtain ⟨se, hne, -⟩ := Delivers_cons hd2
    have hpk := Scanner.Next_after_Peek fuel0 sd t2.lbrace se hne
    have hp : (sd.Peek).1 = some '[' := hpk.2.1.mp hwf2.1
    have hd3 : Delivers fuel0 (sd.Peek).2 ((t2 :: tgs).flatMap TagTokens.tokens ++ next :: more)
        s1 := by
      rw [e2]; rw [e2] at hd; exact Delivers_after_Peek hd
    obtain ⟨s2, hrun, hd4⟩ := ih t2 (sd.Peek).2 (tags.set t.key.Literal t.value.Literal) F hwf2
      hwfts hd3 hF
    refine ⟨s2, ?_, hd4⟩
    have hF1 : fuel0 ≤ F + tgs.length + 1 := by omega
    have el : F + (t2 :: tgs).length + 1 = F + tgs.length + 1 + 1 := by simp; omega
    rw [el, parseTagsLoop]
    simp only []
    rw [Scanner.Next_le hF1 hna]
    simp only [h1, ne_eq, not_true_eq_false, if_false]
    rw [Scanner.Next_le hF1 hnb]
    simp only [h2, ne_eq, not_true_eq_false, if_false]
    rw [Scanner.Next_le hF1 hnc]
    simp only [h3, ne_eq, not_true_eq_false, if_false]
    rw [Scanner.Next_le hF1 hnd]
    simp only [h4, ne_eq, not_true_eq_false, if_false, hp]
    rw [hrun]
    simp [assignAll, TagTokens.pair]

/-- The call `parseMoves` on the tokens of a well-formed move section, which may have no
half-move. -/
theorem parseMoves_tokens (fuel0 : Nat) (s s1 : Scanner) (hms : List HalfMove) (res : Token)
    (hwf : ∀ h ∈ hms, h.WellFormed) (hres : res.Tok = Tok.Result)
    (hd : Delivers fuel0 s (movesTokens hms ++ [res]) s1) (F : Nat)
    (hF : fuel0 + hms.length + 1 ≤ F) :
    parser.parseMoves F ⟨s⟩ = some ((hms.map HalfMove.toMove, none), ⟨s1⟩) := by
  rcases List.eq_nil_or_concat hms with rfl | ⟨init, last, hcat⟩
  · simp only [movesTokens, List.flatMap_nil, List.nil_append] at hd
    obtain ⟨s2, hn, hd⟩ := Delivers_cons hd
    have := Delivers_nil hd
    subst this
    unfold parser.parseMoves
    rw [Scanner.Next_le (by omega) hn]
    simp [hres]
  · rw [List.concat_eq_append] at hcat
    subst hcat
    simp only [List.length_append, List.length_cons, List.length_nil] at hF
    obtain ⟨G, rfl⟩ : ∃ G, F = G + init.length + 1 := ⟨F - (init.length + 1), by omega⟩
    have h := parseMoves_section fuel0 ⟨s⟩ s1 init last res hwf (by simp [hres]) (by simp [hres])
      hd G (by omega)
    simp only [hres, reduceCtorEq, if_false, if_true] at h
    rw [h]
    simp

theorem GameTokens.moves_head (g : GameTokens) (hwf : g.WellFormed) :
    ∃ next more, movesTokens g.moves ++ [g.result] = next :: more ∧ next.Tok ≠ Tok.LBrace := by
  obtain ⟨-, -, hm, hr⟩ := hwf
  cases hh : movesTokens g.moves ++ [g.result] with
  | nil => simp at hh
  | cons a b =>
    refine ⟨a, b, rfl, ?_⟩
    cases hmv : g.moves with
    | nil =>
      rw [hmv] at hh
      simp only [movesTokens, List.flatMap_nil, List.nil_append, List.cons.injEq] at hh
      rw [← hh.1, hr]; simp
    | cons hm1 rest =>
      rw [hmv, movesTokens_cons, List.append_assoc] at hh
      have := HalfMove.tokens_head hm1 (hm hm1 (by rw [hmv]; exact List.mem_cons_self _ _)) _ a b hh
      rcases this with h | h <;> simp [h]

/-- The call `parseGame` on the tokens of a well-formed game. -/
theorem parseGame_tokens (fuel0 : Nat) (s s1 : Scanner) (g : GameTokens) (after : List Token)
    (hwf : g.WellFormed) (hd : Delivers fuel0 s (g.tokens ++ after) s1) (F : Nat)
    (hF : fuel0 + g.tokens.length + 1 ≤ F) :
    ∃ s2, parser.parseGame F ⟨s⟩ = some ((g.toGame, none), ⟨s2⟩) ∧
      Delivers fuel0 s2 after s1 := by
  obtain ⟨next, more, hhead, hnext⟩ := GameTokens.moves_head g hwf
  obtain ⟨hne, hwft, hwfm, hres⟩ := hwf
  have hlen : g.tokens.length = (g.tags.flatMap TagTokens.tokens).length + g.moves.length +
      ((movesTokens g.moves).length - g.moves.length) + 1 := by
    have : g.moves.length ≤ (movesTokens g.moves).length := by
      clear hhead hwfm
      induction g.moves with
      | nil => simp [movesTokens]
      | cons h hs ih =>
        rw [movesTokens_cons]
        have : 1 ≤ h.tokens.length := by simp [HalfMove.tokens]; omega
        simp only [List.length_append, List.length_cons]; omega
    simp only [GameTokens.tokens, List.length_append, List.length_cons, List.length_nil]
    omega
  have htl : g.tags.length ≤ (g.tags.flatMap TagTokens.tokens).length := by
    clear hne hwft
    induction g.tags with
    | nil => simp
    | cons t ts ih => simp only [List.flatMap_cons, List.length_append, TagTokens.tokens,
        List.length_cons, List.length_nil]; omega
  cases htags : g.tags with
  | nil => exact absurd htags hne
  | cons t tgs =>
    rw [htags] at hwft htl hlen
    have e : g.tokens ++ after =
        (t :: tgs).flatMap TagTokens.tokens ++ next :: (more ++ after) := by
      simp only [GameTokens.tokens, htags, List.append_assoc, hhead, List.cons_append]
    rw [e] at hd
    simp only [List.length_cons] at htl
    obtain ⟨G, hG⟩ : ∃ G, F = G + tgs.length + 1 := ⟨F - (tgs.length + 1), by omega⟩
    obtain ⟨s2, hrun, hd2⟩ := parseTagsLoop_tokens fuel0 s1 next (more ++ after) hnext tgs t s []
      G (hwft t (List.mem_cons_self _ _)) (fun x hx => hwft x (List.mem_cons_of_mem _ hx)) hd
      (by omega)
    rw [← List.cons_append, ← hhead] at hd2
    obtain ⟨s3, hd3, hd4⟩ := Delivers_append _ _ _ _ hd2
    have hmv := parseMoves_tokens fuel0 s2 s3 g.moves g.result hwfm hres hd3 F (by omega)
    refine ⟨s3, ?_, hd4⟩
    unfold parser.parseGame parser.parseTags
    rw [hG] at hmv ⊢
    rw [hrun]
    simp only [ne_eq, not_true_eq_false, if_false]
    rw [hmv]
    simp [GameTokens.toGame, htags]

/-- The loop of `parsePgn` over the tokens of well-formed games that are followed by the
end of the input: every game is added to the list and no error is recorded. -/
theorem parsePgnLoop_tokens (fuel0 : Nat) (s1 : Scanner) (eofTok : Token)
    (heof : eofTok.Tok = Tok.EOF) :
    ∀ (games : List GameTokens) (s : Scanner) (errorList : ErrorSlice) (acc : List Game)
      (F : Nat),
      (∀ g ∈ games, g.WellFormed) →
      Delivers fuel0 s (games.flatMap GameTokens.tokens ++ [eofTok]) s1 →
      fuel0 + (games.flatMap GameTokens.tokens).length + games.length + 1 ≤ F →
      ∃ p1, parsePgnLoop F ⟨s⟩ errorList acc =
        some ((acc ++ games.map GameTokens.toGame, errorList), p1) := by
  intro games
  induction games with
  | nil =>
    intro s errorList acc F _ hd hF
    simp only [List.flatMap_nil, List.nil_append] at hd
    obtain ⟨s2, hn, -⟩ := Delivers_cons hd
    have hpk := Scanner.Next_after_Peek fuel0 s eofTok s2 hn
    have hp : (s.Peek).1 = none := hpk.2.2.mp heof
    obtain ⟨G, rfl⟩ : ∃ G, F = G + 1 := ⟨F - 1, by omega⟩
    exact ⟨⟨(s.Peek).2⟩, by simp [parsePgnLoop, hp]⟩
  | cons g games ih =>
    intro s errorList acc F hwf hd hF
    have hwfg : g.WellFormed := hwf g (List.mem_cons_self _ _)
    have hwfs : ∀ x ∈ games, x.WellFormed := fun x hx => hwf x (List.mem_cons_of_mem _ hx)
    simp only [List.flatMap_cons, List.append_assoc, List.length_append, List.length_cons] at hd hF
    -- the first token of the game is `[`
    obtain ⟨t, tgs, htags⟩ : ∃ t tgs, g.tags = t :: tgs := by
      cases hh : g.tags with
      | nil => exact absurd hh hwfg.1
      | cons a b => exact ⟨a, b, rfl⟩
    have hfirst : g.tokens ++ (games.flatMap GameTokens.tokens ++ [eofTok]) =
        t.lbrace :: ([t.key, t.value, t.rbrace] ++ (tgs.flatMap TagTokens.tokens ++
          (movesTokens g.moves ++ [g.result])) ++
          (games.flatMap GameTokens.tokens ++ [eofTok])) := by
      simp [GameTokens.tokens, htags, TagTokens.tokens]
    have hlb : t.lbrace.Tok = Tok.LBrace := (hwfg.2.1 t (by rw [htags]; exact List.mem_cons_self _ _)).1
    have hd1 := hd
    rw [hfirst] at hd1
    obtain ⟨s2, hn, -⟩ := Delivers_cons hd1
    have hpk := Scanner.Next_after_Peek fuel0 s t.lbrace s2 hn
    have hp : (s.Peek).1 ≠ none := by
      rw [hpk.2.1.mp hlb]; simp
    have hd2 : Delivers fuel0 (s.Peek).2 (g.tokens ++ (games.flatMap GameTokens.tokens ++
        [eofTok])) s1 := by
      rw [hfirst]; rw [hfirst] at hd; exact Delivers_after_Peek hd
    obtain ⟨G, rfl⟩ : ∃ G, F = G + 1 := ⟨F - 1, by omega⟩
    obtain ⟨s3, hgame, hd3⟩ := parseGame_tokens fuel0 (s.Peek).2 s1 g _ hwfg hd2 G (by omega)
    obtain ⟨p1, hrun⟩ := ih s3 errorList (acc ++ [g.toGame]) G hwfs hd3 (by omega)
    refine ⟨p1, ?_⟩
    simp only [parsePgnLoop, hp, if_false, hgame, ne_eq, not_true_eq_false]
    rw [hrun]
    simp

/-- **C1.** For every input whose tokens are those of `n ≥ 0` well-formed games one after
the other (each a non-empty block of tag pairs `[ IDENT QUOTE ]` followed by a move section that
ends in a result token), whatever white space or blank lines separate them, and then the end
of the input, `Parse` returns, given enough fuel, exactly those `n` games in source order
together with a nil error. -/
theorem Parse_wellformed_games (input : List Char) (games : List GameTokens) (eofTok : Token)
    (s1 : Scanner) (fuel0 fuel : Nat) (hwf : ∀ g ∈ games, g.WellFormed)
    (heof : eofTok.Tok = Tok.EOF)
    (hd : Delivers fuel0 (Scanner.Init input) (games.flatMap GameTokens.tokens ++ [eofTok]) s1)
    (hf : fuel0 + (games.flatMap GameTokens.tokens).length + games.length + 1 ≤ fuel) :
    Parse fuel input = some (Except.ok (games.map GameTokens.toGame, none)) := by
  obtain ⟨p1, hrun⟩ := parsePgnLoop_tokens fuel0 s1 eofTok heof games (Scanner.Init input)
    ErrorSlice.nil [] fuel hwf hd hf
  unfold Parse parser.parsePgn
  rw [hrun]
  simp [consolicateErrors, ErrorSlice.nil]

/-! ## `recover` at the end of the input -/

/-- At the end of the input the loop of `recover` runs out of any amount of fuel: `Next`
returns `eof` again and again, and `eof` is not a newline. -/
theorem recoverLoop_eof (fuel : Nat) (p : Position) : recoverLoop fuel ⟨[], p⟩ = none := by
  induction fuel with
  | zero => rfl
  | succ n ih => simp [recoverLoop, TextScanner.Next, ih]

/-- **C2.** The code at two failing inputs. On the input `x` the call `Parse` never returns:
it runs out of every amount of fuel, because `parseGame` fails on the identifier and
`recover` then loops at the end of the input. On a bad game that is followed by a good one,
`Parse` does not return either: `consolicateErrors` panics on `errorList[0:10]`. -/
theorem Parse_does_not_return :
    (∀ fuel, Parse fuel "x".toList = none) ∧
    Parse 40 ("x\n\n[A ".toList ++ [dquote, 'b', dquote] ++ "]\n\n*".toList) =
      some (Except.error
        "runtime error: slice bounds out of range [:10] with capacity 1".toList) := by
  constructor
  · intro fuel
    rcases fuel with _ | _ | _ | k
    · rfl
    · rfl
    · rfl
    · have hpk : Scanner.Peek (Scanner.Init "x".toList) = (some 'x', Scanner.Init "x".toList) := by
        rfl
      have hnext : ∀ n, Scanner.Next (n + 1) (Scanner.Init "x".toList) =
          some (⟨Tok.Ident, ⟨0, 1, 1⟩, 1, ['x']⟩, ⟨⟨[], ⟨1, 1, 2⟩⟩⟩) := by
        intro n; rfl
      simp only [Parse, parser.parsePgn, parsePgnLoop, hpk, parser.parseGame, parser.parseTags,
        parseTagsLoop, hnext]
      simp [invalidToken, parser.recover, recoverLoop_eof]
  · rfl

/-! ## Instances at concrete inputs -/

/-- Instance of `Parse_wellformed_games`: the two games of `exampleInput`. -/
theorem Parse_wellformed_games_witness :
    Parse 30 exampleInput = some (Except.ok (exampleGames.map GameTokens.toGame, none)) :=
  Parse_wellformed_games exampleInput exampleGames ⟨Tok.EOF, ⟨31, 8, 1⟩, 1, []⟩
    ⟨⟨[], ⟨31, 8, 1⟩⟩⟩ 5 30 (by decide) (by decide) (by decide) (by decide)

/-- Instance of `parseTags_tag_block`: two tag pairs with awkward spacing, followed by a
blank line and a move. -/
theorem parseTags_tag_block_witness :
    ∃ m, parser.parseTags 60
        ⟨⟨⟨tagsText [exampleTag1, exampleTag2] ++ ("\n\n".toList ++ "1. e4".toList),
          Position.start⟩⟩⟩ =
        some ((m, none), ⟨⟨⟨"1. e4".toList,
          Position.start.advances (tagsText [exampleTag1, exampleTag2] ++ "\n\n".toList)⟩⟩⟩) ∧
      ∀ k, GoMap.get m k =
        List.lookup k ([exampleTag1, exampleTag2].map TagSrc.pair).reverse :=
  parseTags_tag_block [exampleTag1, exampleTag2] Position.start "\n\n".toList "1. e4".toList 60
    (by decide) (by decide) (by decide) (by decide) (by decide) (by decide)

/-- Instance of `parseTags_broken_shape`: one tag pair, then `[Black` and a move number
where the quoted value should come. -/
theorem parseTags_broken_shape_witness :
    ∃ err, parser.parseTags 40
        ⟨⟨⟨tagsText [exampleTag1] ++
          (partialText (some (PartialTag.key " ".toList [] "Black".toList)) ++ " 1. e4".toList),
          Position.start⟩⟩⟩ =
        some ((assignAll [] ([exampleTag1].map TagSrc.pair), err),
          ⟨⟨" e4".toList, ⟨29, 2, 29⟩⟩⟩) ∧
      err ≠ none ∧
      err = invalidToken (expectedName (some (PartialTag.key " ".toList [] "Black".toList)))
        ⟨Tok.MoveNumber, ⟨27, 2, 27⟩, 2, "1".toList⟩ ∧
      ([exampleTag1] = [] → assignAll [] ([exampleTag1].map TagSrc.pair) = []) :=
  parseTags_broken_shape [exampleTag1] (some (PartialTag.key " ".toList [] "Black".toList))
    " 1. e4".toList Position.start ⟨Tok.MoveNumber, ⟨27, 2, 27⟩, 2, "1".toList⟩
    ⟨⟨" e4".toList, ⟨29, 2, 29⟩⟩⟩ 5 40 (by decide) (by decide) (by decide) (by decide)
    (by decide) (by decide)

/-- Instance of `parseTags_last_wins`: the key `White` occurs in the first and in the second
of three tag pairs. -/
theorem parseTags_last_wins_witness :
    ∃ m p1, parser.parseTags 70
        ⟨⟨⟨tagsText ([exampleTag1] ++ exampleTag3 :: [exampleTag2]) ++
          ("\n\n".toList ++ "1. e4".toList), Position.start⟩⟩⟩ = some ((m, none), p1) ∧
      GoMap.get m exampleTag3.key = some (quotedValue exampleTag3.value) ∧
      (m.filter (fun e => decide (e.1 = exampleTag3.key))).length = 1 :=
  parseTags_last_wins [exampleTag1] [exampleTag2] exampleTag3 Position.start "\n\n".toList
    "1. e4".toList 70 (by decide) (by decide) (by decide) (by decide) (by decide) (by decide)

/-! ## The number of chunks of `ParseConcurrent` -/

/-- **C15.** The claim at two lengths. For the empty file `ParseConcurrent` starts one worker
and `ceil(0 / chunkSize)` is zero; for a file of exactly `chunkSize` bytes it starts two
workers and `ceil(length / chunkSize)` is one. -/
theorem numChunks_ne_ceilDiv :
    numChunks 0 ≠ ceilDiv 0 runesPerSection ∧
    numChunks 80000000 ≠ ceilDiv 80000000 runesPerSection ∧
    numChunks 0 = 1 ∧ ceilDiv 0 runesPerSection = 0 ∧
    numChunks 80000000 = 2 ∧ ceilDiv 80000000 runesPerSection = 1 := by
  decide

/-- **C15**, amended. For every file length, the number of chunks of `ParseConcurrent` is
`length / chunkSize` rounded down, plus one, where `chunkSize` is `100000 * 800`: that is
`ceil(length / chunkSize)` when the length is not a multiple of `chunkSize`, and one more than
it when the length is a multiple of `chunkSize`, zero included. -/
theorem numChunks_eq (size : Nat) :
    runesPerSection = 100000 * 800 ∧
    numChunks size = size / runesPerSection + 1 ∧
    (size % runesPerSection ≠ 0 → numChunks size = ceilDiv size runesPerSection) ∧
    (size % runesPerSection = 0 → numChunks size = ceilDiv size runesPerSection + 1) := by
  refine ⟨rfl, rfl, ?_, ?_⟩
  · intro h
    simp only [numChunks, ceilDiv, runesPerSection] at h ⊢
    omega
  · intro h
    simp only [numChunks, ceilDiv, runesPerSection] at h ⊢
    omega

/-! ## Numbers, move numbers and results -/

theorem char_le_iff (a b : Char) : a ≤ b ↔ a.toNat ≤ b.toNat := Iff.rfl

theorem isNumber_ne (c : Char) (h : isNumber (some c) = true) :
    c ≠ '.' ∧ c ≠ '/' ∧ c ≠ '-' := by
  refine ⟨?_, ?_, ?_⟩ <;> (intro hc; subst hc; exact absurd h (by decide))

theorem isNumber_iff (c : Char) : isNumber (some c) = true ↔ ('0' ≤ c ∧ c ≤ '9') := by
  simp [isNumber]

theorem scanDotsLoop_replicate (rest : List Char) (hrest : rest.head? ≠ some '.') :
    ∀ (k : Nat) (p : Position) (length : Nat),
      scanDotsLoop (List.replicate k '.' ++ rest) p length =
        (length + k, ⟨rest, p.advances (List.replicate k '.')⟩) := by
  intro k
  induction k with
  | zero =>
    intro p length
    cases rest with
    | nil => simp [scanDotsLoop, Position.advances]
    | cons c cs =>
      have hc : c ≠ '.' := by simpa using hrest
      simp [scanDotsLoop, hc, Position.advances]
  | succ k ih =>
    intro p length
    rw [List.replicate_succ, List.cons_append]
    simp only [scanDotsLoop, if_true]
    rw [ih]
    simp [Position.advances_cons]; omega

theorem scanDigitsLoop_dots (rest : List Char) (hrest : rest.head? ≠ some '.') (k : Nat) :
    ∀ (ds : List Char) (p : Position) (length : Nat) (str : GoString),
      (∀ c ∈ ds, isNumber (some c) = true) →
      scanDigitsLoop (ds ++ '.' :: (List.replicate k '.' ++ rest)) p length str =
        (Tok.MoveNumber, length + ds.length + 1 + k, str ++ ds,
          ⟨rest, p.advances (ds ++ '.' :: List.replicate k '.')⟩) := by
  intro ds
  induction ds with
  | nil =>
    intro p length str _
    simp only [List.nil_append, scanDigitsLoop, if_true]
    rw [scanDotsLoop_replicate rest hrest]
    simp [Position.advances_cons]
  | cons d ds ih =>
    intro p length str hds
    have hd : isNumber (some d) = true := hds d (List.mem_cons_self _ _)
    have hne := isNumber_ne d hd
    have hrange := (isNumber_iff d).mp hd
    rw [List.cons_append]
    simp only [scanDigitsLoop, hne.1, if_false, hrange, and_self, if_true]
    rw [ih _ _ _ (fun c hc => hds c (List.mem_cons_of_mem _ hc))]
    simp [Position.advances_cons]; omega

/-- **C20.** For every non-empty string of digits `d` and every `k ≥ 1`, an input made of
`d`, then `k` dots, then a rune that is not a dot or the end of the input, is read by `Next`
as one `MoveNumber` token whose literal is `d` and whose length is `|d| + k`; the digits and
the dots are read and nothing more. -/
theorem Scanner.Next_move_number (fuel : Nat) (d rest : List Char) (k : Nat) (p : Position)
    (hne : d ≠ []) (hd : ∀ c ∈ d, isNumber (some c) = true) (hk : 1 ≤ k)
    (hrest : rest.head? ≠ some '.') :
    Scanner.Next (fuel + 1) ⟨⟨d ++ (List.replicate k '.' ++ rest), p⟩⟩ =
      some (⟨Tok.MoveNumber, p, d.length + k, d⟩,
        ⟨⟨rest, p.advances (d ++ List.replicate k '.')⟩⟩) := by
  obtain ⟨j, rfl⟩ : ∃ j, k = j + 1 := ⟨k - 1, by omega⟩
  cases d with
  | nil => exact absurd rfl hne
  | cons d0 ds =>
    have hd0 : isNumber (some d0) = true := hd d0 (List.mem_cons_self _ _)
    have hds : ∀ c ∈ ds, isNumber (some c) = true := fun c hc => hd c (List.mem_cons_of_mem _ hc)
    have hnw : isWhitespace (some d0) = false := by
      by_contra hw
      simp only [isWhitespace, Bool.not_eq_false, Bool.or_eq_true, beq_iff_eq,
        Option.some.injEq] at hw
      rcases hw with (rfl | rfl) | rfl <;> exact absurd hd0 (by decide)
    have hnl : isLetter (some d0) = false := by
      have := (isNumber_iff d0).mp hd0
      by_contra hl
      simp only [isLetter, Bool.not_eq_false, Bool.or_eq_true, Bool.and_eq_true,
        decide_eq_true_eq] at hl
      have h0 : d0.toNat ≤ 57 := (char_le_iff d0 '9').mp this.2
      rcases hl with hl | hl
      · have h1 : 97 ≤ d0.toNat := (char_le_iff 'a' d0).mp hl.1
        omega
      · have h1 : 65 ≤ d0.toNat := (char_le_iff 'A' d0).mp hl.1
        omega
    have hnq : d0 ≠ dquote := by
      intro hc; subst hc; exact absurd hd0 (by decide)
    -- the second rune is a digit or a dot
    have hsecond : (ds ++ '.' :: (List.replicate j '.' ++ rest)).head? ≠ some '/' ∧
        (ds ++ '.' :: (List.replicate j '.' ++ rest)).head? ≠ some '-' ∧
        ((ds ++ '.' :: (List.replicate j '.' ++ rest)).head? = some '.' ∨
          isNumber (ds ++ '.' :: (List.replicate j '.' ++ rest)).head? = true) := by
      cases ds with
      | nil => simp
      | cons e es =>
        have he : isNumber (some e) = true := hds e (List.mem_cons_self _ _)
        have := isNumber_ne e he
        simp [this.2.1, this.2.2, he]
    have hlp := scanDigitsLoop_dots rest hrest j ds (p.advance d0) 1 [d0] hds
    have e1 : (d0 :: ds) ++ (List.replicate (j + 1) '.' ++ rest) =
        d0 :: (ds ++ '.' :: (List.replicate j '.' ++ rest)) := by
      simp [List.replicate_succ]
    rw [e1]
    simp only [Scanner.Next, Scanner.next, TextScanner.Peek, List.head?_cons, hnw, hnl, hd0,
      Bool.false_eq_true, if_false, if_true, Option.some.injEq, hnq, Scanner.scanNumber,
      TextScanner.Next, TextScanner.Pos, hsecond.1, hsecond.2.1, hsecond.2.2, runeString, hlp]
    simp [List.replicate_succ, Position.advances_cons, Position.advances_append]
    omega

/-- Instance of `Scanner.Next_move_number`: the text `27... Bd5`. -/
theorem Scanner.Next_move_number_witness :
    Scanner.Next 1 ⟨⟨"27".toList ++ (List.replicate 3 '.' ++ " Bd5".toList), Position.start⟩⟩ =
      some (⟨Tok.MoveNumber, Position.start, "27".toList.length + 3, "27".toList⟩,
        ⟨⟨" Bd5".toList, Position.start.advances ("27".toList ++ List.replicate 3 '.')⟩⟩) :=
  Scanner.Next_move_number 0 "27".toList " Bd5".toList 3 Position.start (by decide) (by decide)
    (by decide) (by decide)

/-- **C18.** The code at failing inputs. The texts `1-1`, `5-1` and `7/2-1/2` are none of
`*`, `1/2-1/2`, `1-0` and `0-1`, and `Next` returns each of them as a `Result` token:
`scanNumber` never looks at the first digit again. -/
theorem Scanner.Next_result_other_text :
    Scanner.Next 1 (Scanner.Init "1-1".toList) =
      some (⟨Tok.Result, ⟨0, 1, 1⟩, 3, "1-1".toList⟩, ⟨⟨[], ⟨3, 1, 4⟩⟩⟩) ∧
    Scanner.Next 1 (Scanner.Init "5-1".toList) =
      some (⟨Tok.Result, ⟨0, 1, 1⟩, 3, "5-1".toList⟩, ⟨⟨[], ⟨3, 1, 4⟩⟩⟩) ∧
    Scanner.Next 1 (Scanner.Init "7/2-1/2".toList) =
      some (⟨Tok.Result, ⟨0, 1, 1⟩, 7, "7/2-1/2".toList⟩, ⟨⟨[], ⟨7, 1, 8⟩⟩⟩) := by
  decide

/-- **C19.** The code at failing inputs. On the input `1/`, which ends where the result form
goes on, `Next` returns an `Illegal` token of length 3 whose literal is `1/` followed by the
rune U+FFFD, although two runes have been read: the end-of-input rune is added to the literal
and counted. On the input `5-1`, which is no result form, the token is a `Result` and not an
`Illegal` token. -/
theorem Scanner.Next_illegal_at_end :
    Scanner.Next 1 (Scanner.Init "1/".toList) =
      some (⟨Tok.Illegal, ⟨0, 1, 1⟩, 3, ['1', '/', Char.ofNat 0xFFFD]⟩, ⟨⟨[], ⟨2, 1, 3⟩⟩⟩) ∧
    "1/".toList.length = 2 ∧
    Scanner.Next 1 (Scanner.Init "1-".toList) =
      some (⟨Tok.Illegal, ⟨0, 1, 1⟩, 3, ['1', '-', Char.ofNat 0xFFFD]⟩, ⟨⟨[], ⟨2, 1, 3⟩⟩⟩) ∧
    (Scanner.Next 1 (Scanner.Init "5-1".toList)).map (fun r => r.1.Tok) = some Tok.Result := by
  decide

/-! ## Escapes in quoted strings -/

theorem escapeQuoted_eq (v : GoString) :
    escapeQuoted v =
      quotedBody (v.map (fun c => (⟨decide (c = dquote ∨ c = bslash), c⟩ : QuotedRune))) := by
  induction v with
  | nil => rfl
  | cons c v ih =>
    simp only [escapeQuoted, quotedBody, List.flatMap_cons, List.map_cons] at ih ⊢
    rw [ih]
    by_cases h : c = dquote ∨ c = bslash <;> simp [QuotedRune.text, h]

theorem escapeQuoted_wf (v : GoString) :
    ∀ q ∈ v.map (fun c => (⟨decide (c = dquote ∨ c = bslash), c⟩ : QuotedRune)),
      q.WellFormed := by
  intro q hq
  simp only [List.mem_map] at hq
  obtain ⟨c, -, rfl⟩ := hq
  intro h
  simp only [decide_eq_false_iff_not, not_or] at h
  exact h

theorem escapeQuoted_value (v : GoString) :
    quotedValue (v.map (fun c => (⟨decide (c = dquote ∨ c = bslash), c⟩ : QuotedRune))) = v := by
  simp [quotedValue, Function.comp_def]

/-- **C17.** For every string `v`, the double-quoted literal whose body is `v` with a
backslash before every quote and every backslash is read by `Next`, given enough fuel, as a
`Quote` token whose literal is exactly `v`; hence `parseTags` on the tag `[Key "escaped(v)"]`
returns a map in which `Key` is mapped to `v`. -/
theorem escapeQuoted_round_trip (v key rest : List Char) (p : Position) (fuel : Nat)
    (hkey : isIdentifier key) (hr1 : isWhitespace rest.head? = false)
    (hr2 : rest.head? ≠ some '[')
    (hf : ('[' :: (key ++ ' ' :: dquote :: (escapeQuoted v ++ dquote :: ']' :: rest))).length + 3
      ≤ fuel) :
    (∃ s1, Scanner.Next fuel ⟨⟨dquote :: (escapeQuoted v ++ dquote :: rest), p⟩⟩ =
        some (⟨Tok.Quote, p.advance dquote, v.length, v⟩, s1) ∧ s1.s.src = rest) ∧
    ∃ m p1, parser.parseTags fuel
        ⟨⟨⟨'[' :: (key ++ ' ' :: dquote :: (escapeQuoted v ++ dquote :: ']' :: rest)), p⟩⟩⟩ =
        some ((m, none), p1) ∧
      GoMap.get m key = some v ∧ p1.p.s.src = rest := by
  have hlen : v.length ≤ (escapeQuoted v).length := by
    rw [escapeQuoted_eq]
    have := quotedBody_length (v.map (fun c => (⟨decide (c = dquote ∨ c = bslash), c⟩ : QuotedRune)))
    simpa using this
  simp only [List.length_cons, List.length_append] at hf
  constructor
  · obtain ⟨n, rfl⟩ : ∃ n, fuel = n + 1 := ⟨fuel - 1, by omega⟩
    have h := Scanner.Next_quote n _ rest p (escapeQuoted_wf v) (by simp; omega)
    rw [← escapeQuoted_eq, escapeQuoted_value] at h
    simp only [List.length_map] at h
    exact ⟨_, h, rfl⟩
  · have hwf : (⟨[], [], key, [' '],
        v.map (fun c => (⟨decide (c = dquote ∨ c = bslash), c⟩ : QuotedRune)), []⟩ :
        TagSrc).WellFormed :=
      ⟨by simp [allWhitespace], by simp [allWhitespace], hkey, by simp [allWhitespace]; decide,
        escapeQuoted_wf v, by simp [allWhitespace]⟩
    have etext : tagsText [(⟨[], [], key, [' '],
        v.map (fun c => (⟨decide (c = dquote ∨ c = bslash), c⟩ : QuotedRune)), []⟩ : TagSrc)] ++
        ([] ++ rest) =
        '[' :: (key ++ ' ' :: dquote :: (escapeQuoted v ++ dquote :: ']' :: rest)) := by
      rw [escapeQuoted_eq]
      simp [tagsText, TagSrc.text]
    have h := parseTagsLoop_tags [] _ p [] [] rest fuel hwf (by simp) (by simp [allWhitespace])
      hr1 hr2 (by
        rw [etext]
        simp only [List.length_cons, List.length_append]
        omega)
    rw [etext] at h
    refine ⟨_, _, h, ?_, rfl⟩
    simp only [List.map_cons, List.map_nil, assignAll, List.foldl_cons, List.foldl_nil,
      TagSrc.pair, escapeQuoted_value, GoMap.get_set, if_true]

/-- Instance of `escapeQuoted_round_trip`: the value `a"b\c` under the key `White`. -/
theorem escapeQuoted_round_trip_witness :
    (∃ s1, Scanner.Next 40
        ⟨⟨dquote :: (escapeQuoted ['a', dquote, 'b', bslash, 'c'] ++ dquote :: "1.".toList),
          Position.start⟩⟩ =
        some (⟨Tok.Quote, Position.start.advance dquote, ['a', dquote, 'b', bslash, 'c'].length,
          ['a', dquote, 'b', bslash, 'c']⟩, s1) ∧ s1.s.src = "1.".toList) ∧
    ∃ m p1, parser.parseTags 40
        ⟨⟨⟨'[' :: ("White".toList ++ ' ' :: dquote ::
          (escapeQuoted ['a', dquote, 'b', bslash, 'c'] ++ dquote :: ']' :: "1.".toList)),
          Position.start⟩⟩⟩ = some ((m, none), p1) ∧
      GoMap.get m "White".toList = some ['a', dquote, 'b', bslash, 'c'] ∧
      p1.p.s.src = "1.".toList :=
  escapeQuoted_round_trip ['a', dquote, 'b', bslash, 'c'] "White".toList "1.".toList
    Position.start 40 (by decide) (by decide) (by decide) (by decide)

/-! ## `consolicateErrors` and the results of `parseGame` -/

/-- **C12.** The code at failing inputs. For a list of one error, built by `append` as in
`parsePgn`, `consolicateErrors` panics instead of returning an aggregated error, whatever the
error and the message: the slice expression `errorList[0:10]` is out of range for a capacity
of 1. For a list of nine errors, whose capacity is 16, it returns a message that embeds a
tenth item, the nil value, after the nine errors. -/
theorem consolicateErrors_short_list (msg : GoString) (e : error) :
    consolicateErrors msg (ErrorSlice.nil.append e) =
      Except.error "runtime error: slice bounds out of range [:10] with capacity 1".toList ∧
    consolicateErrors "m".toList
        ((List.replicate 9 (some "e".toList)).foldl ErrorSlice.append ErrorSlice.nil) =
      Except.ok (some ("9 errors occured when m\n\n".toList ++
        "\t0. e\n\n\t1. e\n\n\t2. e\n\n\t3. e\n\n\t4. e\n\n\t5. e\n\n\t6. e\n\n".toList ++
        "\t7. e\n\n\t8. e\n\n\t9. <nil>\n\n".toList)) := by
  constructor
  · simp [consolicateErrors, ErrorSlice.nil, ErrorSlice.append]
    rfl
  · rfl

/-- **C11.** The claim at two inputs. On `[A "b"] [C`, `parseTags` fails and returns the
partial tags with `A`, and `parseGame` returns a `Game` without tags. On `[A "b"] 1. e4`,
`parseMoves` fails and returns the partial moves with `e4`, and `parseGame` returns a `Game`
without moves. -/
theorem parseGame_drops_partial_results :
    ((parser.parseTags 20
        ⟨Scanner.Init ("[A ".toList ++ [dquote, 'b', dquote] ++ "] [C".toList)⟩).map
        (fun r => (r.1.1, r.1.2.isSome)) = some ([("A".toList, "b".toList)], true) ∧
      (parser.parseGame 20
        ⟨Scanner.Init ("[A ".toList ++ [dquote, 'b', dquote] ++ "] [C".toList)⟩).map
        (fun r => (r.1.1.Tags, r.1.2.isSome)) = some ([], true)) ∧
    ((parser.parseMoves 20 ⟨Scanner.Init "1. e4".toList⟩).map
        (fun r => (r.1.1.map Move.Move, r.1.2.isSome)) = some (["e4".toList], true) ∧
      (parser.parseGame 20
        ⟨Scanner.Init ("[A ".toList ++ [dquote, 'b', dquote] ++ "] 1. e4".toList)⟩).map
        (fun r => (r.1.1.Tags, r.1.1.Moves.map Move.Move, r.1.2.isSome)) =
        some ([("A".toList, "b".toList)], [], true)) :=
  ⟨⟨by rfl, by rfl⟩, by rfl, by rfl⟩

/-- **C11**, amended. When `parseGame` fails, the `Game` it returns with the error is the
zero `Game` when the tag stage failed (the partial tags of `parseTags` are dropped), and the
`Game` with the tags of `parseTags` and no moves when the move stage failed (the partial moves
of `parseMoves` are dropped); the error is the one of the stage that failed. -/
theorem parseGame_failure (fuel : Nat) (p p1 : parser) (game : Game) (err : error)
    (h : p.parseGame fuel = some ((game, err), p1)) (herr : err ≠ none) :
    (∃ tags, p.parseTags fuel = some ((tags, err), p1) ∧ game.Tags = [] ∧ game.Moves = []) ∨
    (∃ tags p2 moves, p.parseTags fuel = some ((tags, none), p2) ∧
      p2.parseMoves fuel = some ((moves, err), p1) ∧ game.Tags = tags ∧ game.Moves = []) := by
  unfold parser.parseGame at h
  cases ht : p.parseTags fuel with
  | none => simp [ht] at h
  | some rt =>
    obtain ⟨⟨tags, terr⟩, p2⟩ := rt
    rw [ht] at h
    simp only at h
    by_cases hterr : terr = none
    · subst hterr
      simp only [ne_eq, not_true_eq_false, if_false] at h
      cases hm : p2.parseMoves fuel with
      | none => simp [hm] at h
      | some rm =>
        obtain ⟨⟨moves, merr⟩, p3⟩ := rm
        rw [hm] at h
        simp only at h
        by_cases hmerr : merr = none
        · subst hmerr
          simp only [ne_eq, not_true_eq_false, if_false, Option.some.injEq, Prod.mk.injEq] at h
          exact absurd h.1.2.symm herr
        · simp only [ne_eq, hmerr, not_false_eq_true, if_true, Option.some.injEq,
            Prod.mk.injEq] at h
          obtain ⟨⟨rfl, rfl⟩, rfl⟩ := h
          exact Or.inr ⟨tags, p2, moves, rfl, hm, rfl, rfl⟩
    · simp only [ne_eq, hterr, not_false_eq_true, if_true, Option.some.injEq, Prod.mk.injEq] at h
      obtain ⟨⟨rfl, rfl⟩, rfl⟩ := h
      exact Or.inl ⟨tags, rfl, rfl, rfl⟩

/-- Instance of `parseGame_failure`: the input `[A "b"] 1. e4`, which fails in the move
stage. -/
theorem parseGame_failure_witness :
    (∃ tags, parser.parseTags 20
        ⟨Scanner.Init ("[A ".toList ++ [dquote, 'b', dquote] ++ "] 1. e4".toList)⟩ =
        some ((tags, invalidToken "Ident".toList ⟨Tok.EOF, ⟨13, 1, 14⟩, 1, []⟩),
          ⟨⟨⟨[], ⟨13, 1, 14⟩⟩⟩⟩) ∧
      (⟨[("A".toList, "b".toList)], []⟩ : Game).Tags = [] ∧
      (⟨[("A".toList, "b".toList)], []⟩ : Game).Moves = []) ∨
    (∃ tags p2 moves, parser.parseTags 20
        ⟨Scanner.Init ("[A ".toList ++ [dquote, 'b', dquote] ++ "] 1. e4".toList)⟩ =
        some ((tags, none), p2) ∧
      p2.parseMoves 20 = some ((moves, invalidToken "Ident".toList ⟨Tok.EOF, ⟨13, 1, 14⟩, 1, []⟩),
        ⟨⟨⟨[], ⟨13, 1, 14⟩⟩⟩⟩) ∧
      (⟨[("A".toList, "b".toList)], []⟩ : Game).Tags = tags ∧
      (⟨[("A".toList, "b".toList)], []⟩ : Game).Moves = []) :=
  parseGame_failure 20 ⟨Scanner.Init ("[A ".toList ++ [dquote, 'b', dquote] ++ "] 1. e4".toList)⟩
    ⟨⟨⟨[], ⟨13, 1, 14⟩⟩⟩⟩ ⟨[("A".toList, "b".toList)], []⟩
    (invalidToken "Ident".toList ⟨Tok.EOF, ⟨13, 1, 14⟩, 1, []⟩) (by rfl) (by decide)

/-! ## `parseMoveStr` -/

theorem scanIdentLoop_buf :
    ∀ (l : List Char) (p : Position) (length : Nat) (buf : GoString),
      ∃ tail, (scanIdentLoop l p length buf).2.1 = buf ++ tail := by
  intro l
  induction l with
  | nil => intro p length buf; exact ⟨[], by simp [scanIdentLoop]⟩
  | cons c cs ih =>
    intro p length buf
    simp only [scanIdentLoop]
    split_ifs
    · obtain ⟨tail, h⟩ := ih (p.advance c) (length + 1) (buf ++ [c])
      exact ⟨c :: tail, by rw [h]; simp⟩
    · exact ⟨[], by simp⟩

/-- What `next` returns as an identifier starts with a letter. -/
theorem Scanner.next_ident_literal (fuel : Nat) (ps : Scanner) (t : Token) (s1 : Scanner)
    (hws : isWhitespace ps.s.Peek = false) (h : ps.next fuel = some (t, s1))
    (hid : t.Tok = Tok.Ident) : isLetter t.Literal.head? = true := by
  unfold Scanner.next at h
  simp only at h
  rw [if_neg (by simp [hws])] at h
  by_cases h2 : isLetter ps.s.Peek = true
  · rw [if_pos h2] at h
    simp only [Scanner.scanIdent, Option.some.injEq, Prod.mk.injEq] at h
    obtain ⟨rfl, -⟩ := h
    simp only
    cases hsrc : ps.s.src with
    | nil => simp [TextScanner.Peek, hsrc, isLetter] at h2
    | cons c cs =>
      simp only [TextScanner.Peek, hsrc, List.head?_cons] at h2
      have hic := isLetter_isIdentChar c h2
      simp only [scanIdentLoop, hic, if_true, List.nil_append]
      obtain ⟨tail, htail⟩ := scanIdentLoop_buf cs (ps.s.pos.advance c) (0 + 1) [c]
      rw [htail]
      simpa using h2
  rw [if_neg h2] at h
  by_cases h3 : ps.s.Peek = some dquote
  · rw [if_pos h3] at h
    unfold Scanner.scanDoubleQuoted at h
    simp only at h
    split at h
    · simp at h
    · simp only [Option.some.injEq, Prod.mk.injEq] at h
      obtain ⟨rfl, -⟩ := h
      simp at hid
  rw [if_neg h3] at h
  by_cases h4 : isNumber ps.s.Peek = true
  · rw [if_pos h4] at h
    simp only [Option.some.injEq] at h
    have hk := Scanner.scanNumber_kind ps
    rw [h] at hk
    simp only at hk
    rcases hk with hk | hk | hk | hk <;> simp [hk] at hid
  rw [if_neg h4] at h
  by_cases h5 : ps.s.Peek = some '{'
  · rw [if_pos h5] at h
    unfold Scanner.scanComment at h
    simp only at h
    split at h
    · simp at h
    · simp only [Option.some.injEq, Prod.mk.injEq] at h
      obtain ⟨rfl, -⟩ := h
      simp at hid
  rw [if_neg h5] at h
  cases hc : ps.s.Peek with
  | none =>
    rw [hc] at h
    simp only [Option.some.injEq, Prod.mk.injEq] at h
    obtain ⟨rfl, -⟩ := h
    simp at hid
  | some c =>
    rw [hc] at h
    simp only at h
    split_ifs at h <;>
      simp only [Option.some.injEq, Prod.mk.injEq] at h <;>
      obtain ⟨rfl, -⟩ := h <;>
      simp at hid

/-- A token returned by `Next` is returned by `next` at a place where the next rune is not
white space. -/
theorem Scanner.Next_exists_next (fuel : Nat) (s : Scanner) (t : Token) (s1 : Scanner)
    (h : s.Next fuel = some (t, s1)) :
    ∃ (n : Nat) (s0 : Scanner), isWhitespace s0.s.Peek = false ∧ s0.next n = some (t, s1) := by
  have hstart : ∀ (m : Nat) (s0 : Scanner), isWhitespace s0.s.Peek = false →
      s0.Next m = some (t, s1) → ∃ n, s0.next n = some (t, s1) := by
    intro m s0 hws hN
    cases m with
    | zero => simp [Scanner.Next] at hN
    | succ n =>
      simp only [Scanner.Next] at hN
      cases hn : s0.next n with
      | none => simp [hn] at hN
      | some r =>
        obtain ⟨t1, s2⟩ := r
        have hk := Scanner.next_kind n s0 t1 s2 hws hn
        rw [hn] at hN
        simp only [ne_eq, hk.1, not_false_eq_true, if_true, Option.some.injEq] at hN
        exact ⟨n, by rw [hn, hN]⟩
  obtain ⟨⟨l, p⟩⟩ := s
  obtain ⟨ws, rest, rfl, hws, hrest⟩ := exists_ws_split l
  cases ws with
  | nil =>
    obtain ⟨n, hn⟩ := hstart fuel ⟨⟨rest, p⟩⟩ hrest (by simpa using h)
    exact ⟨n, ⟨⟨rest, p⟩⟩, hrest, hn⟩
  | cons w ws =>
    cases fuel with
    | zero => simp [Scanner.Next] at h
    | succ m =>
      have hw : isWhitespace (some w) = true := hws w (List.mem_cons_self _ _)
      have hlp := scanWhitespaceLoop_append rest hrest (w :: ws) p 0 hws
      simp only [List.cons_append] at hlp
      simp only [Scanner.Next, Scanner.next, TextScanner.Peek, List.cons_append, List.head?_cons,
        hw, if_true, Scanner.scanWhitespace, hlp, ne_eq, not_true_eq_false, if_false] at h
      obtain ⟨n, hn⟩ := hstart m ⟨⟨rest, p.advances (w :: ws)⟩⟩ hrest h
      exact ⟨n, ⟨⟨rest, p.advances (w :: ws)⟩⟩, hrest, hn⟩

/-- An identifier token returned by `Next` has a literal that starts with a letter. -/
theorem Scanner.Next_ident_literal (fuel : Nat) (s : Scanner) (t : Token) (s1 : Scanner)
    (h : s.Next fuel = some (t, s1)) (hid : t.Tok = Tok.Ident) :
    isLetter t.Literal.head? = true := by
  obtain ⟨n, s0, hws, hn⟩ := Scanner.Next_exists_next fuel s t s1 h
  exact Scanner.next_ident_literal n s0 t s1 hws hn hid

theorem char_lt_iff (a b : Char) : a < b ↔ a.toNat < b.toNat := Iff.rfl

theorem char_eq_of_toNat (c : Char) (n : Nat) (h : c.toNat = n) : c = Char.ofNat n := by
  rw [← h, Char.ofNat_toNat]

theorem char_range_a_h (c : Char) :
    ('a' ≤ c ∧ c ≤ 'h') ↔ c ∈ ['a', 'b', 'c', 'd', 'e', 'f', 'g', 'h'] := by
  constructor
  · rintro ⟨h1, h2⟩
    have h1 : 97 ≤ c.toNat := (char_le_iff 'a' c).mp h1
    have h2 : c.toNat ≤ 104 := (char_le_iff c 'h').mp h2
    have hc : c.toNat = 97 ∨ c.toNat = 98 ∨ c.toNat = 99 ∨ c.toNat = 100 ∨ c.toNat = 101 ∨
        c.toNat = 102 ∨ c.toNat = 103 ∨ c.toNat = 104 := by omega
    rcases hc with h | h | h | h | h | h | h | h
    all_goals
      have h3 := char_eq_of_toNat c _ h
      subst h3
      decide
  · intro h
    simp only [List.mem_cons, List.mem_singleton, List.not_mem_nil, or_false] at h
    rcases h with rfl | rfl | rfl | rfl | rfl | rfl | rfl | rfl <;> decide

theorem char_range_1_8 (c : Char) :
    ('1' ≤ c ∧ c ≤ '8') ↔ c ∈ ['1', '2', '3', '4', '5', '6', '7', '8'] := by
  constructor
  · rintro ⟨h1, h2⟩
    have h1 : 49 ≤ c.toNat := (char_le_iff '1' c).mp h1
    have h2 : c.toNat ≤ 56 := (char_le_iff c '8').mp h2
    have hc : c.toNat = 49 ∨ c.toNat = 50 ∨ c.toNat = 51 ∨ c.toNat = 52 ∨ c.toNat = 53 ∨
        c.toNat = 54 ∨ c.toNat = 55 ∨ c.toNat = 56 := by omega
    rcases hc with h | h | h | h | h | h | h | h
    all_goals
      have h3 := char_eq_of_toNat c _ h
      subst h3
      decide
  · intro h
    simp only [List.mem_cons, List.mem_singleton, List.not_mem_nil, or_false] at h
    rcases h with rfl | rfl | rfl | rfl | rfl | rfl | rfl | rfl <;> decide

/-- The runes of the string of `parseMoveStr` are the move runes of the spec. -/
theorem moveRunes_iff (c : Char) :
    moveRunes.any (fun a => decide (c = a)) = true ↔ isMoveRune c := by
  have hm : moveRunes = ['a', 'b', 'c', 'd', 'e', 'f', 'g', 'h', 'N', 'B', 'R', 'Q', 'K',
      '1', '2', '3', '4', '5', '6', '7', '8', '=', '+', 'x', '-', '#'] := by
    simp [moveRunes]
  rw [hm, List.any_eq_true]
  simp only [decide_eq_true_eq, exists_eq_right']
  simp only [isMoveRune, char_range_a_h, char_range_1_8, List.mem_cons, List.mem_singleton,
    List.not_mem_nil, or_false]
  constructor
  · intro h
    rcases h with h | h | h | h | h | h | h | h | h | h | h | h | h | h | h | h | h | h | h |
      h | h | h | h | h | h | h <;> simp [h]
  · intro h
    rcases h with h | h | h
    · rcases h with h | h | h | h | h | h | h | h <;> simp [h]
    · rcases h with h | h | h | h | h <;> simp [h]
    · rcases h with h | h
      · rcases h with h | h | h | h | h | h | h | h <;> simp [h]
      · rcases h with h | h | h | h | h <;> simp [h]

/-- The test of `parseMoveStr` on the first rune fails exactly on the runes that the spec
does not allow at the start of a move. -/
theorem moveStart_iff (c : Char) :
    (c ≠ 'N' ∧ c ≠ 'B' ∧ c ≠ 'R' ∧ c ≠ 'Q' ∧ c ≠ 'K' ∧ (c < 'a' ∨ c > 'h')) ↔ ¬ isMoveStart c := by
  simp only [isMoveStart, List.mem_cons, List.mem_singleton, List.not_mem_nil, or_false,
    char_le_iff, char_lt_iff, gt_iff_lt, not_or, not_and, not_le]
  constructor
  · rintro ⟨h1, h2, h3, h4, h5, h6⟩
    exact ⟨⟨h1, h2, h3, h4, h5⟩, fun h => by omega⟩
  · rintro ⟨⟨h1, h2, h3, h4, h5⟩, h6⟩
    refine ⟨h1, h2, h3, h4, h5, ?_⟩
    by_cases h : 'a'.toNat ≤ c.toNat
    · exact Or.inr (h6 h)
    · exact Or.inl (by omega)

/-- **C16.** `parseMoveStr` reads one token. It returns the literal of the token, with no error,
exactly when the token is an identifier that is `O-O` or `O-O-O`, or that starts with one of
`N B R Q K` or a letter `a` to `h` and is made only of the runes `a`-`h`, `N B R Q K`, `1`-`8`,
`=`, `+`, `x`, `-`, `#`; for any other token it returns the empty string and an error. -/
theorem parseMoveStr_accepts (fuel : Nat) (p : parser) (tok : Token) (ps : Scanner)
    (hn : p.p.Next fuel = some (tok, ps)) :
    ∃ (r : GoString) (err : error),
      p.parseMoveStr fuel = some (Except.ok ((r, err), ⟨ps⟩)) ∧
      ((r = tok.Literal ∧ err = none) ↔ AcceptedMove tok) ∧
      (¬ AcceptedMove tok → r = [] ∧ err ≠ none) := by
  have herr : invalidToken "move".toList tok ≠ none := by simp [invalidToken]
  unfold parser.parseMoveStr
  rw [hn]
  simp only
  by_cases hid : tok.Tok = Tok.Ident
  swap
  · rw [if_pos hid]
    have hna : ¬ AcceptedMove tok := fun h => hid h.1
    exact ⟨[], _, rfl, ⟨fun h => absurd h.2 herr, fun h => absurd h hna⟩, fun _ => ⟨rfl, herr⟩⟩
  rw [if_neg (by simpa using hid)]
  by_cases hcastle : tok.Literal = "O-O-O".toList ∨ tok.Literal = "O-O".toList
  · rw [if_pos hcastle]
    have ha : AcceptedMove tok := by
      refine ⟨hid, ?_⟩
      rcases hcastle with h | h
      · exact Or.inr (Or.inl h)
      · exact Or.inl h
    exact ⟨tok.Literal, none, rfl, ⟨fun _ => ha, fun _ => ⟨rfl, rfl⟩⟩, fun h => absurd ha h⟩
  rw [if_neg hcastle]
  have hlit := Scanner.Next_ident_literal fuel p.p tok ps hn hid
  cases hl : tok.Literal with
  | nil => rw [hl] at hlit; simp [isLetter] at hlit
  | cons firstChar cs =>
    simp only
    have hnc : ¬ (firstChar :: cs = "O-O".toList ∨ firstChar :: cs = "O-O-O".toList) := by
      rw [← hl]
      intro h
      exact hcastle h.symm
    by_cases h1 : firstChar ≠ 'N' ∧ firstChar ≠ 'B' ∧ firstChar ≠ 'R' ∧ firstChar ≠ 'Q' ∧
        firstChar ≠ 'K' ∧ (firstChar < 'a' ∨ firstChar > 'h')
    · rw [if_pos h1]
      have hna : ¬ AcceptedMove tok := by
        rintro ⟨-, h⟩
        rw [hl] at h
        rcases h with h | h | ⟨⟨c, hc, hs⟩, -⟩
        · exact hnc (Or.inl h)
        · exact hnc (Or.inr h)
        · simp only [List.head?_cons, Option.some.injEq] at hc
          subst hc
          exact (moveStart_iff firstChar).mp h1 hs
      exact ⟨[], _, rfl, ⟨fun h => absurd h.2 herr, fun h => absurd h hna⟩, fun _ => ⟨rfl, herr⟩⟩
    rw [if_neg h1]
    have hstart : isMoveStart firstChar := by
      by_contra hc
      exact h1 ((moveStart_iff firstChar).mpr hc)
    by_cases h2 : (firstChar :: cs).all
        (fun ch => moveRunes.any (fun a => decide (ch = a))) = false
    · rw [if_pos h2]
      have hna : ¬ AcceptedMove tok := by
        rintro ⟨-, h⟩
        rw [hl] at h
        rcases h with h | h | ⟨-, hall⟩
        · exact hnc (Or.inl h)
        · exact hnc (Or.inr h)
        · have : (firstChar :: cs).all
              (fun ch => moveRunes.any (fun a => decide (ch = a))) = true := by
            rw [List.all_eq_true]
            intro c hc
            exact (moveRunes_iff c).mpr (hall c hc)
          rw [this] at h2
          exact Bool.noConfusion h2
      exact ⟨[], _, rfl, ⟨fun h => absurd h.2 herr, fun h => absurd h hna⟩, fun _ => ⟨rfl, herr⟩⟩
    rw [if_neg h2]
    have ha : AcceptedMove tok := by
      refine ⟨hid, Or.inr (Or.inr ⟨⟨firstChar, by rw [hl]; rfl, hstart⟩, ?_⟩)⟩
      rw [hl]
      have h3 : (firstChar :: cs).all
          (fun ch => moveRunes.any (fun a => decide (ch = a))) = true := by
        cases hb : (firstChar :: cs).all
            (fun ch => moveRunes.any (fun a => decide (ch = a)))
        · exact absurd hb h2
        · rfl
      rw [List.all_eq_true] at h3
      intro c hc
      exact (moveRunes_iff c).mp (h3 c hc)
    exact ⟨firstChar :: cs, none, rfl, ⟨fun _ => ha, fun _ => ⟨rfl, rfl⟩⟩, fun h => absurd ha h⟩

/-- Instance of `parseMoveStr_accepts`: the move `Nf3` at the start of `Nf3 e5`. -/
theorem parseMoveStr_accepts_witness :
    (⟨Scanner.Init "Nf3 e5".toList⟩ : parser).p.Next 10 =
        some (⟨Tok.Ident, ⟨0, 1, 1⟩, 3, "Nf3".toList⟩, ⟨⟨" e5".toList, ⟨3, 1, 4⟩⟩⟩) ∧
      ∃ (r : GoString) (err : error),
        (⟨Scanner.Init "Nf3 e5".toList⟩ : parser).parseMoveStr 10 =
          some (Except.ok ((r, err), ⟨⟨⟨" e5".toList, ⟨3, 1, 4⟩⟩⟩⟩)) ∧
        ((r = (⟨Tok.Ident, ⟨0, 1, 1⟩, 3, "Nf3".toList⟩ : Token).Literal ∧ err = none) ↔
          AcceptedMove ⟨Tok.Ident, ⟨0, 1, 1⟩, 3, "Nf3".toList⟩) ∧
        (¬ AcceptedMove ⟨Tok.Ident, ⟨0, 1, 1⟩, 3, "Nf3".toList⟩ → r = [] ∧ err ≠ none) :=
  ⟨by rfl, parseMoveStr_accepts 10 ⟨Scanner.Init "Nf3 e5".toList⟩
    ⟨Tok.Ident, ⟨0, 1, 1⟩, 3, "Nf3".toList⟩ ⟨⟨" e5".toList, ⟨3, 1, 4⟩⟩⟩ (by rfl)⟩

/-! ## `recover` -/

theorem skipNewlinesLoop_run (rest : List Char) (hrest : rest.head? ≠ some '\n') :
    ∀ (nls : List Char) (p : Position), (∀ c ∈ nls, c = '\n') →
      skipNewlinesLoop (nls ++ rest) p = ⟨rest, p.advances nls⟩ := by
  intro nls
  induction nls with
  | nil =>
    intro p _
    cases rest with
    | nil => rfl
    | cons c cs =>
      have : c ≠ '\n' := by simpa using hrest
      simp [skipNewlinesLoop, this, Position.advances_nil]
  | cons c cs ih =>
    intro p h
    have hc : c = '\n' := h c (List.mem_cons_self _ _)
    rw [List.cons_append, skipNewlinesLoop, if_pos hc, ih _ (fun x hx => h x (List.mem_cons_of_mem _ hx)),
      Position.advances_cons]

theorem hasGameBoundary_append_right (a b : List Char) (h : hasGameBoundary (a ++ b) = false) :
    hasGameBoundary b = false := by
  induction a with
  | nil => simpa using h
  | cons c cs ih =>
    rw [List.cons_append, hasGameBoundary, Bool.or_eq_false_iff] at h
    exact ih h.2

theorem exists_newline_split (l : List Char) :
    ∃ run tail, l = run ++ tail ∧ (∀ c ∈ run, c = '\n') ∧ tail.head? ≠ some '\n' ∧
      l.dropWhile (fun x => x == '\n') = tail := by
  induction l with
  | nil => exact ⟨[], [], rfl, by simp, by simp, rfl⟩
  | cons c cs ih =>
    by_cases hc : c = '\n'
    · obtain ⟨run, tail, h1, h2, h3, h4⟩ := ih
      refine ⟨c :: run, tail, by rw [h1]; rfl, ?_, h3, ?_⟩
      · intro x hx
        rcases List.mem_cons.mp hx with h | h
        · rw [h, hc]
        · exact h2 x h
      · rw [List.dropWhile_cons, if_pos (by simp [hc]), h4]
    · refine ⟨[], c :: cs, rfl, by simp, by simpa using hc, ?_⟩
      rw [List.dropWhile_cons, if_neg (by simp [hc])]

theorem getLast?_newlines (l : List Char) (hne : l ≠ []) (h : ∀ c ∈ l, c = '\n') :
    l.getLast? = some '\n' := by
  rw [List.getLast?_eq_getLast l hne, h _ (List.getLast_mem hne)]

/-- The loop of `recover` stops on the `[` that follows the first run of two or more
newlines with a `[` after it. -/
theorem recoverLoop_boundary (nls rest : List Char) (hnls : ∀ c ∈ nls, c = '\n') :
    ∀ (n : Nat) (pre : List Char), pre.length ≤ n → ∀ (p : Position) (fuel : Nat),
      hasGameBoundary pre = false → pre.getLast? ≠ some '\n' → pre.length + 1 ≤ fuel →
      recoverLoop fuel ⟨pre ++ '\n' :: '\n' :: (nls ++ '[' :: rest), p⟩ =
        some ⟨'[' :: rest, p.advances (pre ++ '\n' :: '\n' :: nls)⟩ := by
  have hbr : ('[' :: rest).head? ≠ some '\n' := by simp
  intro n
  induction n with
  | zero =>
    intro pre hlen p fuel _ _ hfuel
    have hpre : pre = [] := List.length_eq_zero.mp (Nat.le_zero.mp hlen)
    subst hpre
    obtain ⟨f, rfl⟩ : ∃ f, fuel = f + 1 := ⟨fuel - 1, by simp at hfuel; omega⟩
    have hs := skipNewlinesLoop_run ('[' :: rest) hbr ('\n' :: nls) (p.advance '\n')
      (by intro c hc; rcases List.mem_cons.mp hc with h | h; exact h; exact hnls c h)
    rw [List.cons_append] at hs
    simp only [recoverLoop, TextScanner.Next, TextScanner.Peek, List.nil_append, List.head?_cons,
      ne_eq, not_true_eq_false, if_false, hs, if_true, Position.advances_cons]
  | succ n ih =>
    intro pre hlen p fuel hb hlast hfuel
    cases pre with
    | nil => exact ih [] (Nat.zero_le _) p fuel hb hlast hfuel
    | cons c cs =>
      obtain ⟨f, rfl⟩ : ∃ f, fuel = f + 1 := ⟨fuel - 1, by simp at hfuel; omega⟩
      simp only [List.length_cons] at hlen hfuel
      have hbcs : hasGameBoundary cs = false := by
        rw [hasGameBoundary, Bool.or_eq_false_iff] at hb
        exact hb.2
      have hlcs : cs ≠ [] → cs.getLast? ≠ some '\n' := by
        intro hne
        obtain ⟨d, ds, rfl⟩ := List.exists_cons_of_ne_nil hne
        rw [List.getLast?_cons_cons] at hlast
        exact hlast
      rw [List.cons_append, recoverLoop]
      simp only [TextScanner.Next]
      by_cases hc : c = '\n'
      swap
      · rw [if_pos (by simpa using hc)]
        have hl : cs.getLast? ≠ some '\n' := by
          by_cases hne : cs = []
          · simp [hne]
          · exact hlcs hne
        rw [ih cs (by omega) (p.advance c) f hbcs hl (by omega), List.cons_append,
          Position.advances_cons]
      · subst hc
        rw [if_neg (by simp)]
        have hne : cs ≠ [] := by
          intro h
          rw [h] at hlast
          simp at hlast
        obtain ⟨d, ds, rfl⟩ := List.exists_cons_of_ne_nil hne
        by_cases hd : d = '\n'
        swap
        · rw [if_pos (by simpa [TextScanner.Peek] using hd)]
          rw [ih (d :: ds) (by simpa using hlen) (p.advance '\n') f hbcs (hlcs hne)
            (by simpa using hfuel)]
          simp only [List.cons_append, Position.advances_cons]
        · subst hd
          rw [if_neg (by simp [TextScanner.Peek])]
          obtain ⟨run, tail, h1, h2, h3, h4⟩ := exists_newline_split ('\n' :: ds)
          have htne : tail ≠ [] := by
            intro ht
            rw [ht, List.append_nil] at h1
            have := getLast?_newlines ('\n' :: ds) (by simp) (by rw [h1]; exact h2)
            exact hlcs hne this
          have hnb : tail.head? ≠ some '[' := by
            intro hh
            rw [hasGameBoundary, h4, hh] at hb
            simp at hb
          have hth : (tail ++ '\n' :: '\n' :: (nls ++ '[' :: rest)).head? = tail.head? := by
            obtain ⟨t, ts, rfl⟩ := List.exists_cons_of_ne_nil htne
            rfl
          have hs := skipNewlinesLoop_run (tail ++ '\n' :: '\n' :: (nls ++ '[' :: rest))
            (by rw [hth]; exact h3) run (p.advance '\n') h2
          have hsrc : ('\n' :: ds) ++ '\n' :: '\n' :: (nls ++ '[' :: rest) =
              run ++ (tail ++ '\n' :: '\n' :: (nls ++ '[' :: rest)) := by
            rw [h1, List.append_assoc]
          rw [hsrc, hs]
          rw [if_neg (by simp only [TextScanner.Peek]; rw [hth]; exact hnb)]
          have hrl : run.length + tail.length = ds.length + 1 := by
            have := congrArg List.length h1
            simp only [List.length_cons, List.length_append] at this
            omega
          have htl : tail.getLast? ≠ some '\n' := by
            have := hlcs hne
            rw [h1, List.getLast?_append_of_ne_nil _ htne] at this
            exact this
          have htb : hasGameBoundary tail = false := by
            apply hasGameBoundary_append_right run
            rw [← h1]
            exact hbcs
          rw [ih tail (by simp only [List.length_cons] at hlen; omega) _ f htb htl
            (by simp only [List.length_cons] at hfuel; omega)]
          rw [List.cons_append, Position.advances_cons, h1, List.append_assoc,
            Position.advances_append, Position.advances_append, Position.advances_append]

/-- **C13.** The claim at two inputs. In the three games of `exampleInput3` the second game
begins at offset 18, and `parseGame` started there returns it. Yet `recover(false)` applied at
offset 18, or at offset 17 (the newline before it), moves on to the third game, and the next
`parseGame` returns the third game. In `exampleCommentInput`, two games that `Parse`
returns without an error, `recover(false)` applied at offset 0 stops inside the comment of
the first game, and the next `parseGame` fails. -/
theorem recover_not_first_game :
    (∃ p1, parser.parseGame 60 ⟨Scanner.Init (exampleInput3.drop 18)⟩ =
        some ((⟨[("C".toList, "d".toList)], []⟩, none), p1)) ∧
    (∃ p1 p2, parser.recover 60 ⟨Scanner.Init (exampleInput3.drop 18)⟩ false = some p1 ∧
        parser.parseGame 60 p1 = some ((⟨[("E".toList, "f".toList)], []⟩, none), p2)) ∧
    (∃ p1 p2, parser.recover 60 ⟨Scanner.Init (exampleInput3.drop 17)⟩ false = some p1 ∧
        parser.parseGame 60 p1 = some ((⟨[("E".toList, "f".toList)], []⟩, none), p2)) ∧
    (∃ g1 g2, Parse 60 exampleCommentInput = some (Except.ok ([g1, g2], none))) ∧
    (∃ p1 p2 msg, parser.recover 60 ⟨Scanner.Init exampleCommentInput⟩ false = some p1 ∧
        p1.p.s.src = "[y\x7d *\n\n[C ".toList ++ [dquote, 'd', dquote] ++ "]\n\n*\n".toList ∧
        parser.parseGame 60 p1 = some ((⟨[], []⟩, some msg), p2)) :=
  ⟨⟨_, rfl⟩, ⟨_, _, rfl, rfl⟩, ⟨_, _, rfl, rfl⟩, ⟨_, _, rfl⟩, ⟨_, _, _, rfl, rfl, rfl⟩⟩

/-- **C13**, amended. Let the unread text be `pre`, then a run of two or more newlines, then
`[` and `rest`, where `pre` does not end in a newline and has no run of two or more
newlines with a `[` after it. Then `recover(false)` returns with the cursor on that `[`,
and if the scanner delivers from there the tokens of a well-formed game, the next
`parseGame` returns that game, with no error. -/
theorem recover_then_parseGame (fuel0 F : Nat) (pre nls rest : List Char) (pos : Position)
    (g : GameTokens) (after : List Token) (s1 : Scanner)
    (hpre : hasGameBoundary pre = false) (hlast : pre.getLast? ≠ some '\n')
    (hnls : ∀ c ∈ nls, c = '\n') (hwf : g.WellFormed)
    (hd : Delivers fuel0 ⟨⟨'[' :: rest, pos.advances (pre ++ '\n' :: '\n' :: nls)⟩⟩
      (g.tokens ++ after) s1)
    (hF : fuel0 + g.tokens.length + 1 ≤ F) (hF2 : pre.length + 1 ≤ F) :
    parser.recover F ⟨⟨⟨pre ++ '\n' :: '\n' :: (nls ++ '[' :: rest), pos⟩⟩⟩ false =
        some ⟨⟨⟨'[' :: rest, pos.advances (pre ++ '\n' :: '\n' :: nls)⟩⟩⟩ ∧
      ∃ s2, parser.parseGame F ⟨⟨⟨'[' :: rest, pos.advances (pre ++ '\n' :: '\n' :: nls)⟩⟩⟩ =
          some ((g.toGame, none), ⟨s2⟩) ∧
        Delivers fuel0 s2 after s1 := by
  constructor
  · simp only [parser.recover, Bool.false_eq_true, if_false]
    rw [recoverLoop_boundary nls rest hnls pre.length pre (Nat.le_refl _) pos F hpre hlast hF2]
  · exact parseGame_tokens fuel0 _ s1 g after hwf hd F hF

/-- Instance of `recover_then_parseGame`: `recover(false)` applied at offset 3 of
`exampleInput3`, inside the first game, and the second game. -/
theorem recover_then_parseGame_witness :
    exampleInput3.drop 3 = ([dquote, 'b', dquote] ++ "]\n\n1. e4 *".toList) ++ '\n' :: '\n' ::
        ([] ++ '[' :: ("C ".toList ++ [dquote, 'd', dquote] ++ "]\n\n1-0\n\n[E ".toList ++
          [dquote, 'f', dquote] ++ "]\n\n*\n".toList)) ∧
      parser.recover 20
          ⟨⟨⟨([dquote, 'b', dquote] ++ "]\n\n1. e4 *".toList) ++ '\n' :: '\n' ::
            ([] ++ '[' :: ("C ".toList ++ [dquote, 'd', dquote] ++ "]\n\n1-0\n\n[E ".toList ++
              [dquote, 'f', dquote] ++ "]\n\n*\n".toList)), ⟨3, 1, 4⟩⟩⟩⟩ false =
        some ⟨⟨⟨'[' :: ("C ".toList ++ [dquote, 'd', dquote] ++ "]\n\n1-0\n\n[E ".toList ++
            [dquote, 'f', dquote] ++ "]\n\n*\n".toList),
          (⟨3, 1, 4⟩ : Position).advances
            (([dquote, 'b', dquote] ++ "]\n\n1. e4 *".toList) ++ '\n' :: '\n' :: [])⟩⟩⟩ ∧
      ∃ s2, parser.parseGame 20
          ⟨⟨⟨'[' :: ("C ".toList ++ [dquote, 'd', dquote] ++ "]\n\n1-0\n\n[E ".toList ++
            [dquote, 'f', dquote] ++ "]\n\n*\n".toList),
          (⟨3, 1, 4⟩ : Position).advances
            (([dquote, 'b', dquote] ++ "]\n\n1. e4 *".toList) ++ '\n' :: '\n' :: [])⟩⟩⟩ =
          some (((exampleGames.get ⟨1, by decide⟩).toGame, none), ⟨s2⟩) ∧
        Delivers 5 s2 []
          ⟨⟨"\n\n[E ".toList ++ [dquote, 'f', dquote] ++ "]\n\n*\n".toList, ⟨30, 7, 4⟩⟩⟩ :=
  ⟨by rfl, recover_then_parseGame 5 20 ([dquote, 'b', dquote] ++ "]\n\n1. e4 *".toList) []
    ("C ".toList ++ [dquote, 'd', dquote] ++ "]\n\n1-0\n\n[E ".toList ++
      [dquote, 'f', dquote] ++ "]\n\n*\n".toList) ⟨3, 1, 4⟩ (exampleGames.get ⟨1, by decide⟩) []
    ⟨⟨"\n\n[E ".toList ++ [dquote, 'f', dquote] ++ "]\n\n*\n".toList, ⟨30, 7, 4⟩⟩⟩
    (by decide) (by decide) (by decide) (by decide) (by decide) (by decide) (by decide)⟩

/-! ## `ParseConcurrent` and `Parse` -/

set_option maxRecDepth 100000 in
/-- **C14.** The code at a failing input: ten times the broken game `[x[[A"b"]*` and a blank
line, then the game `[C"d"]*`. `Parse` returns one game, the last one: after each error
`parsePgn` calls `recover`, which goes to the `[` after the next blank line. `ParseConcurrent`
has one chunk, and its worker returns eleven games: it does not call `recover` after an
error, so that it goes on right after the token that failed and reads `[A"b"]*` as a game,
ten times. -/
theorem ParseConcurrent_ne_Parse :
    (∃ err, Parse 60 exampleBrokenInput =
      some (Except.ok ([⟨[("C".toList, "d".toList)], []⟩], err))) ∧
    ParseConcurrent 60 exampleBrokenInput =
      some [List.replicate 10 ⟨[("A".toList, "b".toList)], []⟩ ++
        [⟨[("C".toList, "d".toList)], []⟩]] :=
  ⟨⟨_, rfl⟩, rfl⟩

/-! ## Numbers that are not followed by a dot -/

theorem isNumber_not_ws (c : Char) (h : isNumber (some c) = true) :
    isWhitespace (some c) = false := by
  by_contra hw
  simp only [isWhitespace, Bool.not_eq_false, Bool.or_eq_true, beq_iff_eq,
    Option.some.injEq] at hw
  rcases hw with (rfl | rfl) | rfl <;> exact absurd h (by decide)

theorem isNumber_not_letter (c : Char) (h : isNumber (some c) = true) :
    isLetter (some c) = false := by
  have := (isNumber_iff c).mp h
  by_contra hl
  simp only [isLetter, Bool.not_eq_false, Bool.or_eq_true, Bool.and_eq_true,
    decide_eq_true_eq] at hl
  have h0 : c.toNat ≤ 57 := (char_le_iff c '9').mp this.2
  rcases hl with hl | hl
  · have h1 : 97 ≤ c.toNat := (char_le_iff 'a' c).mp hl.1
    omega
  · have h1 : 65 ≤ c.toNat := (char_le_iff 'A' c).mp hl.1
    omega

/-- What follows a number that ends at white space or at the end of the input: not a dot,
not a digit, not `/` and not `-`. -/
theorem head_of_ws_or_end (rest : List Char)
    (hrest : rest = [] ∨ isWhitespace rest.head? = true) :
    rest.head? ≠ some '.' ∧ rest.head? ≠ some '/' ∧ rest.head? ≠ some '-' ∧
      isNumber rest.head? = false := by
  rcases hrest with rfl | h
  · simp [isNumber]
  · cases rest with
    | nil => simp [isNumber]
    | cons c cs =>
      simp only [List.head?_cons] at h ⊢
      have hn : isNumber (some c) = false := by
        by_contra hc
        have := isNumber_not_ws c (by simpa using hc)
        rw [this] at h
        exact Bool.noConfusion h
      refine ⟨?_, ?_, ?_, hn⟩ <;>
        (intro hc; simp only [Option.some.injEq] at hc; subst hc; exact absurd h (by decide))

theorem scanDigitsLoop_number (rest : List Char) (hdot : rest.head? ≠ some '.')
    (hnum : isNumber rest.head? = false) :
    ∀ (ds : List Char) (p : Position) (length : Nat) (str : GoString),
      (∀ c ∈ ds, isNumber (some c) = true) →
      scanDigitsLoop (ds ++ rest) p length str =
        (Tok.Number, length + ds.length, str ++ ds, ⟨rest, p.advances ds⟩) := by
  intro ds
  induction ds with
  | nil =>
    intro p length str _
    cases rest with
    | nil => simp [scanDigitsLoop, Position.advances]
    | cons c cs =>
      have hc : c ≠ '.' := by simpa using hdot
      have hn : ¬ ('0' ≤ c ∧ c ≤ '9') := by
        intro h
        have := (isNumber_iff c).mpr h
        simp only [List.head?_cons] at hnum
        rw [this] at hnum
        exact Bool.noConfusion hnum
      simp [scanDigitsLoop, hc, hn, Position.advances]
  | cons d ds ih =>
    intro p length str hds
    have hd : isNumber (some d) = true := hds d (List.mem_cons_self _ _)
    have hne := isNumber_ne d hd
    have hrange := (isNumber_iff d).mp hd
    rw [List.cons_append]
    simp only [scanDigitsLoop, hne.1, if_false, hrange, and_self, if_true]
    rw [ih _ _ _ (fun c hc => hds c (List.mem_cons_of_mem _ hc))]
    simp [Position.advances_cons]; omega

/-- **C21.** The code on a non-empty string of digits `d` that is followed by white space or
by the end of the input. When `d` is a single digit, `Next` returns the zero value `Token{}`:
kind `Illegal`, length 0, empty literal, zero position; no case of the `switch` in
`scanNumber` is taken. When `d` has two digits or more, `Next` returns the `Number` token
whose literal is `d` and whose length is `|d|`. In both cases the digits are read and nothing
more. -/
theorem Scanner.Next_number (fuel : Nat) (d rest : List Char) (p : Position)
    (hne : d ≠ []) (hd : ∀ c ∈ d, isNumber (some c) = true)
    (hrest : rest = [] ∨ isWhitespace rest.head? = true) :
    Scanner.Next (fuel + 1) ⟨⟨d ++ rest, p⟩⟩ =
      some (if d.length = 1 then Token.zero else ⟨Tok.Number, p, d.length, d⟩,
        ⟨⟨rest, p.advances d⟩⟩) := by
  obtain ⟨hdot, hslash, hminus, hnum⟩ := head_of_ws_or_end rest hrest
  cases d with
  | nil => exact absurd rfl hne
  | cons d0 ds =>
    have hd0 : isNumber (some d0) = true := hd d0 (List.mem_cons_self _ _)
    have hds : ∀ c ∈ ds, isNumber (some c) = true := fun c hc => hd c (List.mem_cons_of_mem _ hc)
    have hnw := isNumber_not_ws d0 hd0
    have hnl := isNumber_not_letter d0 hd0
    have hnq : d0 ≠ dquote := by
      intro hc; subst hc; exact absurd hd0 (by decide)
    cases ds with
    | nil =>
      simp only [List.cons_append, List.nil_append]
      simp only [Scanner.Next, Scanner.next, TextScanner.Peek, List.head?_cons, hnw, hnl, hd0,
        Bool.false_eq_true, if_false, if_true, Option.some.injEq, hnq, Scanner.scanNumber,
        TextScanner.Next, TextScanner.Pos, hdot, hslash, hminus, hnum, false_or]
      simp [Token.zero, Position.advances]
    | cons e es =>
      have he : isNumber (some e) = true := hds e (List.mem_cons_self _ _)
      have hene := isNumber_ne e he
      have hlp := scanDigitsLoop_number rest hdot hnum (e :: es) (p.advance d0) 1 [d0] hds
      simp only [List.cons_append] at hlp ⊢
      simp only [Scanner.Next, Scanner.next, TextScanner.Peek, List.head?_cons, hnw, hnl, hd0,
        Bool.false_eq_true, if_false, if_true, Option.some.injEq, hnq, Scanner.scanNumber,
        TextScanner.Next, TextScanner.Pos, hene.1, hene.2.1, hene.2.2, he, or_true,
        runeString, hlp]
      simp [Position.advances_cons]
      omega

/-- Instance of `Scanner.Next_number`: the number `7` in the text `7 e4` is read as the zero
token. -/
theorem Scanner.Next_number_witness :
    Scanner.Next 1 ⟨⟨"7".toList ++ " e4".toList, Position.start⟩⟩ =
      some (Token.zero, ⟨⟨" e4".toList, Position.start.advances "7".toList⟩⟩) :=
  Scanner.Next_number 0 "7".toList " e4".toList Position.start (by decide) (by decide)
    (by decide)

/-! ## Identifiers -/

theorem isIdentChar_head_dropWhile (l : List Char) :
    isIdentChar (l.dropWhile (fun c => isIdentChar (some c))).head? = false := by
  induction l with
  | nil => rfl
  | cons c cs ih =>
    by_cases hc : isIdentChar (some c) = true
    · rw [List.dropWhile_cons, if_pos hc]
      exact ih
    · rw [List.dropWhile_cons, if_neg hc]
      simpa using hc

theorem isIdentChar_of_mem_takeWhile (l : List Char) :
    ∀ c ∈ l.takeWhile (fun c => isIdentChar (some c)), isIdentChar (some c) = true := by
  induction l with
  | nil => intro c hc; simp at hc
  | cons d ds ih =>
    intro c hc
    by_cases hd : isIdentChar (some d) = true
    · rw [List.takeWhile_cons, if_pos hd] at hc
      rcases List.mem_cons.mp hc with h | h
      · rw [h]; exact hd
      · exact ih c h
    · rw [List.takeWhile_cons, if_neg hd] at hc
      simp at hc

/-- **C22.** When the next rune is a letter, `Next` returns an `Ident` token whose literal is
the longest run of identifier characters that starts there, and whose length is the number
of runes of that run; the run is read and nothing more, and the first rune left unread, when
there is one, is not an identifier character. -/
theorem Scanner.Next_ident_run (fuel : Nat) (src : List Char) (p : Position)
    (hl : isLetter src.head? = true) :
    Scanner.Next (fuel + 1) ⟨⟨src, p⟩⟩ =
      some (⟨Tok.Ident, p, (src.takeWhile (fun c => isIdentChar (some c))).length,
          src.takeWhile (fun c => isIdentChar (some c))⟩,
        ⟨⟨src.dropWhile (fun c => isIdentChar (some c)),
          p.advances (src.takeWhile (fun c => isIdentChar (some c)))⟩⟩) ∧
    src = src.takeWhile (fun c => isIdentChar (some c)) ++
      src.dropWhile (fun c => isIdentChar (some c)) ∧
    (∀ c ∈ src.takeWhile (fun c => isIdentChar (some c)), isIdentChar (some c) = true) ∧
    isIdentChar (src.dropWhile (fun c => isIdentChar (some c))).head? = false := by
  have hall := isIdentChar_of_mem_takeWhile src
  have hrest := isIdentChar_head_dropWhile src
  have hsplit : src = src.takeWhile (fun c => isIdentChar (some c)) ++
      src.dropWhile (fun c => isIdentChar (some c)) := (List.takeWhile_append_dropWhile _ _).symm
  refine ⟨?_, hsplit, hall, hrest⟩
  cases src with
  | nil => simp [isLetter] at hl
  | cons k cs =>
    simp only [List.head?_cons] at hl
    have hnw := isLetter_not_ws k hl
    have hlp := scanIdentLoop_append _ hrest _ p 0 [] hall
    rw [← hsplit] at hlp
    simp only [Scanner.Next, Scanner.next, TextScanner.Peek, List.head?_cons,
      hnw, hl, Bool.false_eq_true, if_false, if_true, Scanner.scanIdent, TextScanner.Pos, hlp]
    simp

/-- Instance of `Scanner.Next_ident_run`: the text `Bd5+?!` yields the identifier `Bd5+`,
and `?!` is left unread. -/
theorem Scanner.Next_ident_run_witness :
    Scanner.Next 1 ⟨⟨"Bd5+?!".toList, Position.start⟩⟩ =
      some (⟨Tok.Ident, Position.start, 4, "Bd5+".toList⟩, ⟨⟨"?!".toList, ⟨4, 1, 5⟩⟩⟩) ∧
    "Bd5+?!".toList = "Bd5+".toList ++ "?!".toList ∧
    (∀ c ∈ "Bd5+".toList, isIdentChar (some c) = true) ∧
    isIdentChar "?!".toList.head? = false :=
  Scanner.Next_ident_run 0 "Bd5+?!".toList Position.start (by decide)

/-! ## Quoted strings and comments that are not closed -/

theorem scanDoubleQuotedLoop_unclosed :
    ∀ (fuel : Nat) (src : List Char) (p : Position) (length : Nat) (buf : GoString),
      closesQuote src = false → scanDoubleQuotedLoop fuel ⟨src, p⟩ length buf = none := by
  intro fuel
  induction fuel with
  | zero => intro src p length buf _; rfl
  | succ n ih =>
    intro src p length buf h
    match src, h with
    | [], _ =>
      simp only [scanDoubleQuotedLoop, TextScanner.Peek, TextScanner.Next, List.head?_nil,
        reduceCtorEq, if_false]
      exact ih [] p _ _ rfl
    | [c], h =>
      have hc : c ≠ dquote := by simpa [closesQuote] using h
      by_cases hb : c = bslash
      · simp only [scanDoubleQuotedLoop, TextScanner.Peek, TextScanner.Next, List.head?_cons,
          hb, if_true]
        exact ih [] _ _ _ rfl
      · simp only [scanDoubleQuotedLoop, TextScanner.Peek, TextScanner.Next, List.head?_cons,
          Option.some.injEq, hb, hc, if_false]
        exact ih [] _ _ _ rfl
    | c :: d :: cs, h =>
      by_cases hb : c = bslash
      · rw [closesQuote, if_pos hb] at h
        simp only [scanDoubleQuotedLoop, TextScanner.Peek, TextScanner.Next, List.head?_cons,
          hb, if_true]
        exact ih cs _ _ _ h
      · rw [closesQuote, if_neg hb] at h
        have hc : c ≠ dquote := by
          intro hc
          rw [if_pos hc] at h
          exact Bool.noConfusion h
        rw [if_neg hc] at h
        simp only [scanDoubleQuotedLoop, TextScanner.Peek, TextScanner.Next, List.head?_cons,
          Option.some.injEq, hb, hc, if_false]
        exact ih (d :: cs) _ _ _ h

theorem scanCommentLoop_unclosed :
    ∀ (fuel : Nat) (src : List Char) (p : Position) (length : Nat) (buf : GoString),
      '}' ∉ src → scanCommentLoop fuel ⟨src, p⟩ length buf = none := by
  intro fuel
  induction fuel with
  | zero => intro src p length buf _; rfl
  | succ n ih =>
    intro src p length buf h
    cases src with
    | nil =>
      simp only [scanCommentLoop, TextScanner.Peek, TextScanner.Next, List.head?_nil,
        reduceCtorEq, if_false]
      exact ih [] p _ _ (by simp)
    | cons c cs =>
      have hc : c ≠ '}' := fun hc => h (by rw [hc]; exact List.mem_cons_self _ _)
      simp only [scanCommentLoop, TextScanner.Peek, TextScanner.Next, List.head?_cons,
        Option.some.injEq, hc, if_false]
      exact ih cs _ _ _ (fun hm => h (List.mem_cons_of_mem _ hm))

/-- **C23.** The code on a quoted string or a comment that is not closed. When the text
after a `"` holds no closing quote, or the text after a `{` holds no `}`, `Next` does not
return, whatever the fuel: at the end of the input the loops of `scanDoubleQuoted` and
`scanComment` go on reading the end-of-input rune. -/
theorem Scanner.Next_unterminated (fuel : Nat) (c : Char) (src : List Char) (p : Position)
    (h : (c = dquote ∧ closesQuote src = false) ∨ (c = '{' ∧ '}' ∉ src)) :
    Scanner.Next fuel ⟨⟨c :: src, p⟩⟩ = none := by
  cases fuel with
  | zero => rfl
  | succ n =>
    rcases h with ⟨rfl, h⟩ | ⟨rfl, h⟩
    · have hw : isWhitespace (some dquote) = false := by decide
      have hl : isLetter (some dquote) = false := by decide
      simp only [Scanner.Next, Scanner.next, TextScanner.Peek, List.head?_cons, hw, hl,
        Bool.false_eq_true, if_false, if_true, Scanner.scanDoubleQuoted, TextScanner.Next,
        scanDoubleQuotedLoop_unclosed n src _ 0 [] h]
    · have hw : isWhitespace (some '{') = false := by decide
      have hl : isLetter (some '{') = false := by decide
      have hn : isNumber (some '{') = false := by decide
      have hq : '{' ≠ dquote := by decide
      simp only [Scanner.Next, Scanner.next, TextScanner.Peek, List.head?_cons, hw, hl, hn,
        Option.some.injEq, hq, Bool.false_eq_true, if_false, if_true, Scanner.scanComment,
        TextScanner.Next, scanCommentLoop_unclosed n src _ 0 [] h]

/-- Instance of `Scanner.Next_unterminated`: the text `"abc`, with fuel for a million
steps. -/
theorem Scanner.Next_unterminated_witness :
    Scanner.Next 1000000 ⟨⟨dquote :: "abc".toList, Position.start⟩⟩ = none :=
  Scanner.Next_unterminated 1000000 dquote "abc".toList Position.start
    (Or.inl ⟨rfl, by decide⟩)

/-! ## `Peek` -/

theorem isWhitespace_of_mem_takeWhile (l : List Char) :
    ∀ c ∈ l.takeWhile (fun c => isWhitespace (some c)), isWhitespace (some c) = true := by
  induction l with
  | nil => intro c hc; simp at hc
  | cons d ds ih =>
    intro c hc
    by_cases hd : isWhitespace (some d) = true
    · rw [List.takeWhile_cons, if_pos hd] at hc
      rcases List.mem_cons.mp hc with h | h
      · rw [h]; exact hd
      · exact ih c h
    · rw [List.takeWhile_cons, if_neg hd] at hc
      simp at hc

theorem isWhitespace_head_dropWhile (l : List Char) :
    isWhitespace (l.dropWhile (fun c => isWhitespace (some c))).head? = false := by
  induction l with
  | nil => rfl
  | cons c cs ih =>
    by_cases hc : isWhitespace (some c) = true
    · rw [List.dropWhile_cons, if_pos hc]
      exact ih
    · rw [List.dropWhile_cons, if_neg hc]
      simpa using hc

/-- The state after `Peek`: the white space at the cursor is read, and nothing more. -/
theorem Scanner.Peek_eq (s : Scanner) :
    s.Peek = ((s.s.src.dropWhile (fun c => isWhitespace (some c))).head?,
      ⟨⟨s.s.src.dropWhile (fun c => isWhitespace (some c)),
        s.s.pos.advances (s.s.src.takeWhile (fun c => isWhitespace (some c)))⟩⟩) := by
  obtain ⟨⟨src, p⟩⟩ := s
  have h := Scanner.Peek_ws (src.takeWhile (fun c => isWhitespace (some c)))
    (src.dropWhile (fun c => isWhitespace (some c))) p (isWhitespace_of_mem_takeWhile src)
    (isWhitespace_head_dropWhile src)
  rw [List.takeWhile_append_dropWhile] at h
  exact h

/-- A second call of `Peek` changes nothing. -/
theorem Scanner.Peek_Peek (s : Scanner) : ((s.Peek).2.Peek).2 = (s.Peek).2 := by
  rw [Scanner.Peek_eq s]
  have h := Scanner.Peek_ws [] (s.s.src.dropWhile (fun c => isWhitespace (some c)))
    (s.s.pos.advances (s.s.src.takeWhile (fun c => isWhitespace (some c))))
    (by intro c hc; simp at hc) (isWhitespace_head_dropWhile s.s.src)
  rw [List.nil_append] at h
  simp only [h, Position.advances_nil]

theorem Scanner.peeks_succ (n : Nat) (s : Scanner) : s.peeks (n + 1) = (s.Peek).2 := by
  induction n generalizing s with
  | zero => rfl
  | succ n ih =>
    rw [Scanner.peeks, ih, Scanner.Peek_Peek]

/-- What `Next` returns after `Peek`, it returns without `Peek`, with one more unit of
fuel. -/
theorem Scanner.Next_of_Next_Peek (fuel : Nat) (s : Scanner) (r : Token × Scanner)
    (h : (s.Peek).2.Next fuel = some r) : s.Next (fuel + 1) = some r := by
  rw [Scanner.Peek_eq s] at h
  obtain ⟨⟨src, p⟩⟩ := s
  have := Scanner.Next_ws fuel (src.takeWhile (fun c => isWhitespace (some c)))
    (src.dropWhile (fun c => isWhitespace (some c))) p r (isWhitespace_of_mem_takeWhile src)
    (isWhitespace_head_dropWhile src) h
  rw [List.takeWhile_append_dropWhile] at this
  exact this

theorem Scanner.Next_peeks (fuel k : Nat) (s : Scanner) (t : Token) (s1 : Scanner)
    (h : s.Next fuel = some (t, s1)) : (s.peeks k).Next fuel = some (t, s1) := by
  cases k with
  | zero => exact h
  | succ n =>
    rw [Scanner.peeks_succ]
    exact (Scanner.Next_after_Peek fuel s t s1 h).1

theorem Scanner.Next_of_Next_peeks (fuel k : Nat) (s : Scanner) (r : Token × Scanner)
    (h : (s.peeks k).Next fuel = some r) : s.Next (fuel + 1) = some r := by
  cases k with
  | zero => exact Scanner.Next_mono fuel 1 _ _ h
  | succ n =>
    rw [Scanner.peeks_succ] at h
    exact Scanner.Next_of_Next_Peek fuel s r h

theorem DeliversPeeking_of_Delivers (fuel : Nat) :
    ∀ (pts : List (Nat × Token)) (s s1 : Scanner),
      Delivers fuel s (pts.map Prod.snd) s1 → DeliversPeeking fuel s pts s1 := by
  intro pts
  induction pts with
  | nil => intro s s1 h; simpa [Delivers, DeliversPeeking] using h
  | cons kt pts ih =>
    intro s s1 h
    simp only [List.map_cons, Delivers] at h
    cases hn : s.Next fuel with
    | none => simp [hn] at h
    | some r =>
      obtain ⟨t, s2⟩ := r
      rw [hn] at h
      simp only at h
      simp only [DeliversPeeking, Scanner.Next_peeks fuel kt.1 s t s2 hn]
      exact ⟨h.1, ih s2 s1 h.2⟩

theorem Delivers_of_DeliversPeeking (fuel : Nat) :
    ∀ (pts : List (Nat × Token)) (s s1 : Scanner),
      DeliversPeeking fuel s pts s1 → Delivers (fuel + 1) s (pts.map Prod.snd) s1 := by
  intro pts
  induction pts with
  | nil => intro s s1 h; simpa [Delivers, DeliversPeeking] using h
  | cons kt pts ih =>
    intro s s1 h
    simp only [DeliversPeeking] at h
    cases hn : (s.peeks kt.1).Next fuel with
    | none => simp [hn] at h
    | some r =>
      rw [hn] at h
      simp only at h
      simp only [List.map_cons, Delivers, Scanner.Next_of_Next_peeks fuel kt.1 s r hn]
      exact ⟨h.1, ih r.2 s1 h.2⟩

/-- **C24.** The method `Peek` returns the first rune at or after the cursor that is not
white space, the end-of-input rune when there is none, and reads the white space before that
rune and nothing more. The tokens that `Next` returns are the same with and without calls of
`Peek`: when `Next` returns the tokens of `pts` one after the other, it returns the same
tokens, and ends in the same state, when before each call of `Next` the method `Peek` is
called any number of times; and the other way round, with one more unit of fuel. -/
theorem Scanner.Peek_frame (fuel : Nat) (s s1 : Scanner) (pts : List (Nat × Token)) :
    (s.Peek).1 = (s.s.src.dropWhile (fun c => isWhitespace (some c))).head? ∧
    isWhitespace (s.Peek).1 = false ∧
    (s.Peek).2 = ⟨⟨s.s.src.dropWhile (fun c => isWhitespace (some c)),
      s.s.pos.advances (s.s.src.takeWhile (fun c => isWhitespace (some c)))⟩⟩ ∧
    (∀ c ∈ s.s.src.takeWhile (fun c => isWhitespace (some c)), isWhitespace (some c) = true) ∧
    (Delivers fuel s (pts.map Prod.snd) s1 → DeliversPeeking fuel s pts s1) ∧
    (DeliversPeeking fuel s pts s1 → Delivers (fuel + 1) s (pts.map Prod.snd) s1) := by
  refine ⟨?_, ?_, ?_, isWhitespace_of_mem_takeWhile _, DeliversPeeking_of_Delivers fuel pts s s1,
    Delivers_of_DeliversPeeking fuel pts s s1⟩
  · rw [Scanner.Peek_eq]
  · rw [Scanner.Peek_eq]
    exact isWhitespace_head_dropWhile _
  · rw [Scanner.Peek_eq]

/-- Instance of `Scanner.Peek_frame`: in the text ` e4 *`, with two calls of `Peek` before
the first token and one before the second. -/
theorem Scanner.Peek_frame_witness :
    DeliversPeeking 5 ⟨⟨" e4 *".toList, Position.start⟩⟩
      [(2, ⟨Tok.Ident, ⟨1, 1, 2⟩, 2, "e4".toList⟩), (1, ⟨Tok.Result, ⟨5, 1, 6⟩, 1, "*".toList⟩)]
      ⟨⟨[], ⟨5, 1, 6⟩⟩⟩ :=
  (Scanner.Peek_frame 5 ⟨⟨" e4 *".toList, Position.start⟩⟩ ⟨⟨[], ⟨5, 1, 6⟩⟩⟩
    [(2, ⟨Tok.Ident, ⟨1, 1, 2⟩, 2, "e4".toList⟩),
      (1, ⟨Tok.Result, ⟨5, 1, 6⟩, 1, "*".toList⟩)]).2.2.2.2.1 (by decide)

/-! ## The first move of a move section -/

/-- **C25.** The code on a move section whose first move has no move number. When the
scanner delivers well-formed half-moves, of which the first has no move-number token, and
then a result token, `parseMoves` returns all the moves and a nil error; the first move has
the number zero. The move section is not rejected. -/
theorem parseMoves_first_without_number (fuel : Nat) (p : parser) (ps1 : Scanner)
    (first : HalfMove) (rest : List HalfMove) (res : Token)
    (hnum : first.number = none) (hwf : ∀ hm ∈ first :: rest, hm.WellFormed)
    (hres : res.Tok = Tok.Result)
    (hd : Delivers fuel p.p (movesTokens (first :: rest) ++ [res]) ps1) :
    p.parseMoves (fuel + rest.length + 1) =
        some ((first.toMove :: rest.map HalfMove.toMove, none), ⟨ps1⟩) ∧
      first.toMove.Number = 0 := by
  constructor
  · obtain ⟨init, last, hcat⟩ :=
      (List.eq_nil_or_concat (first :: rest)).resolve_left (List.cons_ne_nil _ _)
    rw [List.concat_eq_append] at hcat
    have hlen : rest.length = init.length := by
      have := congrArg List.length hcat
      simp only [List.length_cons, List.length_append, List.length_nil] at this
      omega
    rw [hcat] at hwf hd
    have h := parseMoves_section fuel p ps1 init last res hwf (by simp [hres]) (by simp [hres])
      hd fuel (Nat.le_refl _)
    simp only [hres, reduceCtorEq, if_false, if_true] at h
    rw [hlen, h, ← List.map_cons, hcat]
    simp
  · simp [HalfMove.toMove, hnum]

/-- Instance of `parseMoves_first_without_number`: the move section `e4 c5 *`. -/
theorem parseMoves_first_without_number_witness :
    parser.parseMoves (5 + 1 + 1) ⟨Scanner.Init "e4 c5 *".toList⟩ =
        some (([⟨0, "e4".toList, [], [], []⟩, ⟨0, "c5".toList, [], [], []⟩], none),
          ⟨⟨⟨[], ⟨7, 1, 8⟩⟩⟩⟩) ∧
      (0 : Int) = 0 :=
  parseMoves_first_without_number 5 ⟨Scanner.Init "e4 c5 *".toList⟩ ⟨⟨[], ⟨7, 1, 8⟩⟩⟩
    ⟨none, ⟨Tok.Ident, ⟨0, 1, 1⟩, 2, "e4".toList⟩, none, none⟩
    [⟨none, ⟨Tok.Ident, ⟨3, 1, 4⟩, 2, "c5".toList⟩, none, none⟩]
    ⟨Tok.Result, ⟨7, 1, 8⟩, 1, "*".toList⟩ (by decide) (by decide) (by decide) (by decide)

/-! ## Where `recover` stops -/

/-- A text in which no two newlines are immediately followed by `[` stays so when a rune
is put before it that does not start such a place. -/
theorem no_boundary_cons (c : Char) (cs : List Char)
    (h : ∀ a b, cs ≠ a ++ '\n' :: '\n' :: '[' :: b)
    (hc : c ≠ '\n' ∨ cs.head? ≠ some '\n' ∨ cs.tail.head? ≠ some '[') :
    ∀ a b, c :: cs ≠ a ++ '\n' :: '\n' :: '[' :: b := by
  intro a b heq
  cases a with
  | nil =>
    simp only [List.nil_append, List.cons.injEq] at heq
    obtain ⟨h1, h2⟩ := heq
    rcases hc with hc | hc | hc
    · exact hc h1
    · exact hc (by rw [h2]; rfl)
    · exact hc (by rw [h2]; rfl)
  | cons x xs =>
    simp only [List.cons_append, List.cons.injEq] at heq
    exact h xs b heq.2

/-- A run of newlines before a text that starts with neither a newline nor `[` brings in
no place where two newlines are immediately followed by `[`. -/
theorem no_boundary_run (cs : List Char) (h : ∀ a b, cs ≠ a ++ '\n' :: '\n' :: '[' :: b)
    (h1 : cs.head? ≠ some '\n') (h2 : cs.head? ≠ some '[') :
    ∀ (run : List Char), (∀ c ∈ run, c = '\n') →
      ∀ a b, run ++ cs ≠ a ++ '\n' :: '\n' :: '[' :: b := by
  intro run
  induction run with
  | nil => intro _; simpa using h
  | cons r rs ih =>
    intro hrun
    have hrs : ∀ c ∈ rs, c = '\n' := fun c hc => hrun c (List.mem_cons_of_mem _ hc)
    rw [List.cons_append]
    apply no_boundary_cons r (rs ++ cs) (ih hrs)
    cases rs with
    | nil => exact Or.inr (Or.inl (by simpa using h1))
    | cons q qs =>
      refine Or.inr (Or.inr ?_)
      simp only [List.cons_append, List.tail_cons]
      cases qs with
      | nil => simpa using h2
      | cons u us =>
        have hu : u = '\n' := hrs u (by simp)
        simp [hu]

theorem newlines_end (l : List Char) (hl : ∀ c ∈ l, c = '\n') (hlen : 2 ≤ l.length) :
    ∃ before, l = before ++ ['\n', '\n'] := by
  have hrep : l = List.replicate l.length '\n' := List.eq_replicate_iff.mpr ⟨rfl, hl⟩
  obtain ⟨k, hk⟩ : ∃ k, l.length = k + 2 := ⟨l.length - 2, by omega⟩
  refine ⟨List.replicate k '\n', ?_⟩
  rw [hrep, hk, List.replicate_add]
  rfl

/-- The loop of `recover`, when it returns: what it has read ends in two newlines and has
no two newlines immediately followed by `[` in it, and the next rune is `[`. -/
theorem recoverLoop_post :
    ∀ (fuel : Nat) (src : List Char) (p : Position) (s1 : TextScanner),
      recoverLoop fuel ⟨src, p⟩ = some s1 →
      ∃ consumed, src = consumed ++ s1.src ∧ s1.pos = p.advances consumed ∧
        s1.src.head? = some '[' ∧ (∃ before, consumed = before ++ ['\n', '\n']) ∧
        ∀ a b, consumed ≠ a ++ '\n' :: '\n' :: '[' :: b := by
  intro fuel
  induction fuel with
  | zero => intro src p s1 h; simp [recoverLoop] at h
  | succ n ih =>
    intro src p s1 h
    cases src with
    | nil => rw [recoverLoop_eof] at h; exact Option.noConfusion h
    | cons c cs =>
      rw [recoverLoop] at h
      simp only [TextScanner.Next] at h
      by_cases hc : c = '\n'
      swap
      · rw [if_pos (by simpa using hc)] at h
        obtain ⟨consumed, h1, h2, h3, h4, h5⟩ := ih cs _ s1 h
        refine ⟨c :: consumed, by rw [List.cons_append, ← h1], ?_, h3, ?_, ?_⟩
        · rw [h2, Position.advances_cons]
        · obtain ⟨before, hb⟩ := h4
          exact ⟨c :: before, by rw [hb]; rfl⟩
        · exact no_boundary_cons c consumed h5 (Or.inl hc)
      · subst hc
        rw [if_neg (by simp)] at h
        by_cases hd : cs.head? = some '\n'
        swap
        · rw [if_pos (by simpa [TextScanner.Peek] using hd)] at h
          obtain ⟨consumed, h1, h2, h3, h4, h5⟩ := ih cs _ s1 h
          refine ⟨'\n' :: consumed, by rw [List.cons_append, ← h1], ?_, h3, ?_, ?_⟩
          · rw [h2, Position.advances_cons]
          · obtain ⟨before, hb⟩ := h4
            exact ⟨'\n' :: before, by rw [hb]; rfl⟩
          · apply no_boundary_cons _ consumed h5
            refine Or.inr (Or.inl ?_)
            obtain ⟨before, hb⟩ := h4
            have hhead : cs.head? = consumed.head? := by
              rw [h1, hb]
              cases before <;> rfl
            rw [← hhead]
            exact hd
        · rw [if_neg (by simp [TextScanner.Peek, hd])] at h
          obtain ⟨run, tail, e1, e2, e3, -⟩ := exists_newline_split cs
          have hrun : run ≠ [] := by
            intro hr
            rw [hr, List.nil_append] at e1
            rw [e1] at hd
            exact e3 hd
          have hs := skipNewlinesLoop_run tail e3 run (p.advance '\n') e2
          rw [e1, hs] at h
          by_cases hb : tail.head? = some '['
          · rw [if_pos (by simpa [TextScanner.Peek] using hb)] at h
            simp only [Option.some.injEq] at h
            subst h
            have hall : ∀ c ∈ '\n' :: run, c = '\n' := by
              intro c hc
              rcases List.mem_cons.mp hc with h | h
              · exact h
              · exact e2 c h
            refine ⟨'\n' :: run, by rw [e1]; rfl, ?_, hb, ?_, ?_⟩
            · simp only [Position.advances_cons]
            · apply newlines_end _ hall
              have : 1 ≤ run.length := List.length_pos.mpr hrun
              simp only [List.length_cons]
              omega
            · intro a b heq
              have hm : '[' ∈ '\n' :: run := by rw [heq]; simp
              exact absurd (hall _ hm) (by decide)
          · rw [if_neg (by simpa [TextScanner.Peek] using hb)] at h
            obtain ⟨consumed, h1, h2, h3, h4, h5⟩ := ih tail _ s1 h
            obtain ⟨before, hbef⟩ := h4
            have hhead : tail.head? = consumed.head? := by
              rw [h1, hbef]
              cases before <;> rfl
            refine ⟨'\n' :: (run ++ consumed), ?_, ?_, h3, ?_, ?_⟩
            · rw [e1, h1]; simp
            · rw [h2, Position.advances_cons, Position.advances_append]
            · exact ⟨'\n' :: (run ++ before), by rw [hbef]; simp⟩
            · have := no_boundary_run consumed h5 (by rw [← hhead]; exact e3)
                (by rw [← hhead]; exact hb) ('\n' :: run)
                (by
                  intro c hc
                  rcases List.mem_cons.mp hc with h | h
                  · exact h
                  · exact e2 c h)
              simpa using this

/-- **C26.** Whenever `recover(false)` returns, the text it was given is the text it has
read followed by the text left unread, the next unread rune is `[`, the text read ends in
two newlines, and nowhere in the text read are two newlines immediately followed by `[`:
the `[` it stops at, which is not read, is the first one that comes right after two
newlines of the text it was given. -/
theorem recover_stops_at_first_boundary (fuel : Nat) (p p1 : parser)
    (h : p.recover fuel false = some p1) :
    ∃ consumed, p.p.s.src = consumed ++ p1.p.s.src ∧
      p1.p.s.pos = p.p.s.pos.advances consumed ∧
      p1.p.s.src.head? = some '[' ∧
      (∃ before, consumed = before ++ ['\n', '\n']) ∧
      ∀ a b, consumed ≠ a ++ '\n' :: '\n' :: '[' :: b := by
  obtain ⟨⟨⟨src, pos⟩⟩⟩ := p
  simp only [parser.recover, Bool.false_eq_true, if_false] at h
  cases hr : recoverLoop fuel ⟨src, pos⟩ with
  | none => rw [hr] at h; exact Option.noConfusion h
  | some s1 =>
    rw [hr] at h
    simp only [Option.some.injEq] at h
    subst h
    exact recoverLoop_post fuel src pos s1 hr

/-- Instance of `recover_stops_at_first_boundary`: `recover(false)` applied at offset 3 of
`exampleInput3`, which stops on the `[` of the second game, at offset 18. -/
theorem recover_stops_at_first_boundary_witness :
    ∃ consumed, exampleInput3.drop 3 = consumed ++ exampleInput3.drop 18 ∧
      (⟨18, 5, 1⟩ : Position) = (⟨3, 1, 4⟩ : Position).advances consumed ∧
      (exampleInput3.drop 18).head? = some '[' ∧
      (∃ before, consumed = before ++ ['\n', '\n']) ∧
      ∀ a b, consumed ≠ a ++ '\n' :: '\n' :: '[' :: b :=
  recover_stops_at_first_boundary 20 ⟨⟨⟨exampleInput3.drop 3, ⟨3, 1, 4⟩⟩⟩⟩
    ⟨⟨⟨exampleInput3.drop 18, ⟨18, 5, 1⟩⟩⟩⟩ (by rfl)

/-! ## The number of a move -/

/-- The call `Atoi` on a non-empty string of digits: the value of the digits when it is
below `2^63`, an error otherwise. -/
theorem Atoi_digits (d : List Char) (hne : d ≠ []) (hd : ∀ c ∈ d, isNumber (some c) = true) :
    Atoi d = if digitsValue d < 2 ^ 63 then some (digitsValue d : Int) else none := by
  cases d with
  | nil => exact absurd rfl hne
  | cons c cs =>
    have hc : isNumber (some c) = true := hd c (List.mem_cons_self _ _)
    have hminus : c ≠ '-' := (isNumber_ne c hc).2.2
    have hplus : c ≠ '+' := by
      intro h; subst h; exact absurd hc (by decide)
    have hall : (c :: cs).all (fun c => isNumber (some c)) = true := by
      rw [List.all_eq_true]
      exact hd
    simp only [Atoi, List.head?_cons, Option.some.injEq, hminus, hplus, or_self, if_false,
      reduceCtorEq, hall, Bool.true_eq_false, decide_False, Bool.false_eq_true]
    by_cases hv : digitsValue (c :: cs) < 2 ^ 63
    · rw [if_pos hv, if_pos]
      constructor
      · have : (0 : Int) ≤ (digitsValue (c :: cs) : Int) := Int.natCast_nonneg _
        have h2 : (0 : Int) ≤ 2 ^ 63 := by norm_num
        omega
      · have : (digitsValue (c :: cs) : Int) < 2 ^ 63 := by exact_mod_cast hv
        omega
    · rw [if_neg hv, if_neg]
      intro h
      apply hv
      have : (digitsValue (c :: cs) : Int) < 2 ^ 63 := by omega
      exact_mod_cast this

/-- The conversion `int32` keeps a natural number exactly when it is below `2^31`. -/
theorem int32_eq_iff (v : Nat) : int32 (v : Int) = (v : Int) ↔ v < 2 ^ 31 := by
  unfold int32
  norm_num
  omega

/-- **C27.** The code on a move-number token whose literal is a non-empty string of digits,
of value `v`, followed by an identifier and a result token. When `v` is below `2^63`,
`parseMoves` accepts the token and the move gets the number `int32(v)`, which is `v` exactly
when `v` is below `2^31`: from `2^31` on the number stored is not the integer that the
literal denotes. When `v` is `2^63` or more, `parseMoves` returns no move and an error. -/
theorem parseMoves_number_int32 (fuel : Nat) (p : parser) (ps1 : Scanner)
    (num ident res : Token) (hnum : num.Tok = Tok.MoveNumber) (hne : num.Literal ≠ [])
    (hlit : ∀ c ∈ num.Literal, isNumber (some c) = true) (hid : ident.Tok = Tok.Ident)
    (hres : res.Tok = Tok.Result) (hd : Delivers fuel p.p [num, ident, res] ps1) :
    (digitsValue num.Literal < 2 ^ 63 →
      p.parseMoves (fuel + 1) =
        some (([⟨int32 (digitsValue num.Literal), ident.Literal, [], [], []⟩], none), ⟨ps1⟩)) ∧
    (2 ^ 63 ≤ digitsValue num.Literal →
      ∃ p0, p.parseMoves (fuel + 1) =
        some (([], some ("Could not convert string to integer in move number. \n".toList ++
          num.Position.String)), p0)) ∧
    (int32 (digitsValue num.Literal) = (digitsValue num.Literal : Int) ↔
      digitsValue num.Literal < 2 ^ 31) := by
  have hatoi := Atoi_digits num.Literal hne hlit
  refine ⟨?_, ?_, int32_eq_iff _⟩
  · intro hv
    rw [if_pos hv] at hatoi
    have hwf : ∀ hm ∈ ([] : List HalfMove) ++ [⟨some num, ident, none, none⟩],
        hm.WellFormed := by
      intro hm hmem
      simp only [List.nil_append, List.mem_singleton] at hmem
      subst hmem
      simp [HalfMove.WellFormed, hnum, hid, hatoi]
    have h := parseMoves_section fuel p ps1 [] ⟨some num, ident, none, none⟩ res hwf
      (by simp [hres]) (by simp [hres]) hd fuel (Nat.le_refl _)
    simp only [hres, reduceCtorEq, if_false, if_true, List.length_nil, Nat.add_zero,
      List.map_nil, List.nil_append] at h
    rw [h]
    simp [HalfMove.toMove, hatoi]
  · intro hv
    rw [if_neg (by omega)] at hatoi
    simp only [Delivers] at hd
    cases hn : p.p.Next fuel with
    | none => simp [hn] at hd
    | some r =>
      rw [hn] at hd
      simp only at hd
      have hr : r.1.Tok = Tok.MoveNumber := by rw [hd.1]; exact hnum
      have hlitr : Atoi r.1.Literal = none := by rw [hd.1]; exact hatoi
      refine ⟨⟨r.2⟩, ?_⟩
      simp only [parser.parseMoves, Scanner.Next_mono fuel 1 _ _ hn, hr, reduceCtorEq,
        if_false, parseMovesLoop, checkMoveNumber, if_true, hlitr]
      rw [hd.1]

/-- Instance of `parseMoves_number_int32`: in the move section `4294967297. e4 *` the move
`e4` gets the number 1. -/
theorem parseMoves_number_int32_witness :
    ((4294967297 : Nat) < 2 ^ 63 →
      parser.parseMoves (5 + 1) ⟨Scanner.Init "4294967297. e4 *".toList⟩ =
        some (([⟨1, "e4".toList, [], [], []⟩], none), ⟨⟨⟨[], ⟨16, 1, 17⟩⟩⟩⟩)) ∧
    (2 ^ 63 ≤ (4294967297 : Nat) →
      ∃ p0, parser.parseMoves (5 + 1) ⟨Scanner.Init "4294967297. e4 *".toList⟩ =
        some (([], some ("Could not convert string to integer in move number. \n".toList ++
          (⟨0, 1, 1⟩ : Position).String)), p0)) ∧
    ((1 : Int) = 4294967297 ↔ (4294967297 : Nat) < 2 ^ 31) :=
  parseMoves_number_int32 5 ⟨Scanner.Init "4294967297. e4 *".toList⟩ ⟨⟨[], ⟨16, 1, 17⟩⟩⟩
    ⟨Tok.MoveNumber, ⟨0, 1, 1⟩, 11, "4294967297".toList⟩
    ⟨Tok.Ident, ⟨12, 1, 13⟩, 2, "e4".toList⟩ ⟨Tok.Result, ⟨16, 1, 17⟩, 1, "*".toList⟩
    (by decide) (by decide) (by decide) (by decide) (by decide) (by decide)

/-! ## The index expression of `parseMoveStr` -/

/-- **C28.** Every `Ident` token that `Next` returns has a literal that is not empty and
starts with a letter; and `parseMoveStr` never panics, on any input and with any fuel: the
index expression `tok.Literal[0]` is evaluated on identifier tokens only. -/
theorem parseMoveStr_index_in_range (fuel : Nat) (s s1 : Scanner) (t : Token)
    (h : s.Next fuel = some (t, s1)) (hid : t.Tok = Tok.Ident) :
    (∃ c cs, t.Literal = c :: cs ∧ isLetter (some c) = true) ∧
    ∀ (F : Nat) (p : parser) (msg : GoString), p.parseMoveStr F ≠ some (Except.error msg) := by
  constructor
  · have hl := Scanner.Next_ident_literal fuel s t s1 h hid
    cases hlit : t.Literal with
    | nil => rw [hlit] at hl; simp [isLetter] at hl
    | cons c cs =>
      rw [hlit] at hl
      exact ⟨c, cs, rfl, by simpa using hl⟩
  · intro F p msg hp
    unfold parser.parseMoveStr at hp
    cases hn : p.p.Next F with
    | none => rw [hn] at hp; exact Option.noConfusion hp
    | some r =>
      obtain ⟨tok, ps⟩ := r
      rw [hn] at hp
      simp only at hp
      by_cases hk : tok.Tok = Tok.Ident
      swap
      · rw [if_pos hk] at hp
        simp at hp
      rw [if_neg (by simpa using hk)] at hp
      by_cases hcastle : tok.Literal = "O-O-O".toList ∨ tok.Literal = "O-O".toList
      · rw [if_pos hcastle] at hp
        simp at hp
      rw [if_neg hcastle] at hp
      have hl := Scanner.Next_ident_literal F p.p tok ps hn hk
      cases hlit : tok.Literal with
      | nil => rw [hlit] at hl; simp [isLetter] at hl
      | cons c cs =>
        rw [hlit] at hp
        simp only at hp
        split_ifs at hp <;> simp at hp

/-- Instance of `parseMoveStr_index_in_range`: the identifier `Nf3` of the text `Nf3 e5`. -/
theorem parseMoveStr_index_in_range_witness :
    (∃ c cs, (⟨Tok.Ident, ⟨0, 1, 1⟩, 3, "Nf3".toList⟩ : Token).Literal = c :: cs ∧
      isLetter (some c) = true) ∧
    ∀ (F : Nat) (p : parser) (msg : GoString), p.parseMoveStr F ≠ some (Except.error msg) :=
  parseMoveStr_index_in_range 10 (Scanner.Init "Nf3 e5".toList) ⟨⟨" e5".toList, ⟨3, 1, 4⟩⟩⟩
    ⟨Tok.Ident, ⟨0, 1, 1⟩, 3, "Nf3".toList⟩ (by rfl) (by rfl)

end pgn
